import Mathlib

/-!
# generic_list: intrusive doubly linked list macros

A shallow embedding of `generic_list.h` (UNLINK_NODE, LINK_NODE_FIRST, LINK_NODE_LAST,
LINK_NODE_BEFORE, LINK_NODE_AFTER) and of `sanity_check_list`, the consistency checker that
the stress test runs after every call.

Pointers are modelled as `Option`: `none` is NULL, `some a` is the address `a`.
Node addresses range over a type `N`, list addresses over a type `K`; the memory is a pair
of total maps from addresses to the members declared by DECLARE_NODE_MEMBERS and
DECLARE_LIST_MEMBERS. Every macro is a function from memory to memory whose body performs
the assignments of the C macro in the order of the source.
-/

set_option autoImplicit false
set_option linter.unusedSectionVars false
set_option linter.unusedVariables false
set_option linter.unusedTactic false
set_option linter.unreachableTactic false
set_option linter.unnecessarySeqFocus false

namespace GenericList

/-! ## Data model -/

/-- Members declared by DECLARE_NODE_MEMBERS: `prev`, `next`, `parent`. -/
@[ext]
structure NodeMembers (N K : Type) where
  prev : Option N
  next : Option N
  parent : Option K
deriving DecidableEq

/-- Members declared by DECLARE_LIST_MEMBERS: `head`, `tail`, `count`. -/
@[ext]
structure ListMembers (N : Type) where
  head : Option N
  tail : Option N
  count : Nat
deriving DecidableEq

/-- The memory: the link members of every node and the header members of every list. -/
@[ext]
structure Heap (N K : Type) where
  node : N → NodeMembers N K
  list : K → ListMembers N

/-- The value of `(size_t)-1` for a 64 bit `size_t`. -/
def SIZE_MAX : Nat := 2 ^ 64 - 1

/-- The C expression `++count` on a `size_t`. -/
def incr (c : Nat) : Nat := (c + 1) % (SIZE_MAX + 1)

/-- The C expression `--count` on a `size_t`. -/
def decr (c : Nat) : Nat := (c + SIZE_MAX) % (SIZE_MAX + 1)

variable {N K : Type} [DecidableEq N] [DecidableEq K]

/-- The assignment `a->prev = v`. -/
def setPrev (s : Heap N K) (a : N) (v : Option N) : Heap N K :=
  { s with node := fun k => if k = a then { s.node k with prev := v } else s.node k }

/-- The assignment `a->next = v`. -/
def setNext (s : Heap N K) (a : N) (v : Option N) : Heap N K :=
  { s with node := fun k => if k = a then { s.node k with next := v } else s.node k }

/-- The assignment `a->parent = v`. -/
def setParent (s : Heap N K) (a : N) (v : Option K) : Heap N K :=
  { s with node := fun k => if k = a then { s.node k with parent := v } else s.node k }

/-- The assignment `p->head = v`. -/
def setHead (s : Heap N K) (p : K) (v : Option N) : Heap N K :=
  { s with list := fun q => if q = p then { s.list q with head := v } else s.list q }

/-- The assignment `p->tail = v`. -/
def setTail (s : Heap N K) (p : K) (v : Option N) : Heap N K :=
  { s with list := fun q => if q = p then { s.list q with tail := v } else s.list q }

/-- The assignment `p->count = v`. -/
def setCount (s : Heap N K) (p : K) (v : Nat) : Heap N K :=
  { s with list := fun q => if q = p then { s.list q with count := v } else s.list q }

/-- Zero-initialised memory (calloc, or ZERO_OUT_NODE_MEMBERS and ZERO_OUT_LIST_MEMBERS on
every node and list): all pointers NULL and all counts 0. -/
def zeroed : Heap N K :=
  { node := fun _ => { prev := none, next := none, parent := none }
    list := fun _ => { head := none, tail := none, count := 0 } }

/-! ## The macros of generic_list.h -/

/-- The block `if((node)->parent) { ... }` of UNLINK_NODE: the owner's head, tail and count
are adjusted and `node->parent` is cleared. -/
def detach (s : Heap N K) (node : N) : Heap N K :=
  match (s.node node).parent with
  | none => s
  | some parent =>
    let sa := if (s.list parent).head = some node
      then setHead s parent (s.node node).next else s
    let sb := if (sa.list parent).tail = some node
      then setTail sa parent (sa.node node).prev else sa
    let sc := setCount sb parent (decr (sb.list parent).count)
    setParent sc node none

/-- The macro UNLINK_NODE(node). -/
def UNLINK_NODE (s : Heap N K) : Option N → Heap N K
  | none => s
  | some node =>
    let s1 := detach s node
    let s2 :=
      match (s1.node node).prev with
      | none => s1
      | some p => setNext s1 p (s1.node node).next
    let s3 :=
      match (s2.node node).next with
      | none => s2
      | some q => setPrev s2 q (s2.node node).prev
    setPrev (setNext s3 node none) node none

/-- The statements of LINK_NODE_FIRST that follow the call of UNLINK_NODE. -/
def linkFirst (s1 : Heap N K) (node : N) (list : K) : Heap N K :=
  let s2 := setNext s1 node (s1.list list).head
  let s3 := setPrev s2 node none
  let s4 := if (s3.list list).tail = none then setTail s3 list (some node) else s3
  let s5 :=
    match (s4.list list).head with
    | none => s4
    | some h => setPrev s4 h (some node)
  let s6 := setHead s5 list (some node)
  let s7 := setCount s6 list (incr (s6.list list).count)
  setParent s7 node (some list)

/-- The macro LINK_NODE_FIRST(node, list). -/
def LINK_NODE_FIRST (s : Heap N K) : Option N → Option K → Heap N K
  | some node, some list =>
    if some node ≠ (s.list list).head ∧ (s.list list).count ≠ SIZE_MAX then
      linkFirst (UNLINK_NODE s (some node)) node list
    else s
  | _, _ => s

/-- The statements of LINK_NODE_LAST that follow the call of UNLINK_NODE. -/
def linkLast (s1 : Heap N K) (node : N) (list : K) : Heap N K :=
  let s2 := setNext s1 node none
  let s3 := setPrev s2 node (s2.list list).tail
  let s4 := if (s3.list list).head = none then setHead s3 list (some node) else s3
  let s5 :=
    match (s4.list list).tail with
    | none => s4
    | some t => setNext s4 t (some node)
  let s6 := setTail s5 list (some node)
  let s7 := setCount s6 list (incr (s6.list list).count)
  setParent s7 node (some list)

/-- The macro LINK_NODE_LAST(node, list). -/
def LINK_NODE_LAST (s : Heap N K) : Option N → Option K → Heap N K
  | some node, some list =>
    if some node ≠ (s.list list).tail ∧ (s.list list).count ≠ SIZE_MAX then
      linkLast (UNLINK_NODE s (some node)) node list
    else s
  | _, _ => s

/-- The guard `!(node)->parent || ((node)->parent->count != (size_t)-1)` of
LINK_NODE_BEFORE and LINK_NODE_AFTER. -/
def parentHasRoom (s : Heap N K) (node : N) : Bool :=
  match (s.node node).parent with
  | none => true
  | some p => (s.list p).count != SIZE_MAX

/-- The statements of LINK_NODE_BEFORE that follow the call of UNLINK_NODE. -/
def linkBefore (s1 : Heap N K) (node position_node : N) : Heap N K :=
  let s2 := setNext s1 node (some position_node)
  let s3 := setPrev s2 node (s2.node position_node).prev
  let s4 :=
    match (s3.node position_node).prev with
    | none => s3
    | some q => setNext s3 q (some node)
  let s5 := setPrev s4 position_node (some node)
  let s6 :=
    match (s5.node position_node).parent with
    | none => s5
    | some p =>
      let sa := if (s5.list p).head = some position_node
        then setHead s5 p (some node) else s5
      setCount sa p (incr (sa.list p).count)
  setParent s6 node (s6.node position_node).parent

/-- The macro LINK_NODE_BEFORE(node, position_node). -/
def LINK_NODE_BEFORE (s : Heap N K) : Option N → Option N → Heap N K
  | some node, some position_node =>
    if node ≠ position_node ∧ parentHasRoom s node = true then
      linkBefore (UNLINK_NODE s (some node)) node position_node
    else s
  | _, _ => s

/-- The statements of LINK_NODE_AFTER that follow the call of UNLINK_NODE. -/
def linkAfter (s1 : Heap N K) (node position_node : N) : Heap N K :=
  let s2 := setNext s1 node (s1.node position_node).next
  let s3 := setPrev s2 node (some position_node)
  let s4 :=
    match (s3.node position_node).next with
    | none => s3
    | some q => setPrev s3 q (some node)
  let s5 := setNext s4 position_node (some node)
  let s6 :=
    match (s5.node position_node).parent with
    | none => s5
    | some p =>
      let sa := if (s5.list p).tail = some position_node
        then setTail s5 p (some node) else s5
      setCount sa p (incr (sa.list p).count)
  setParent s6 node (s6.node position_node).parent

/-- The macro LINK_NODE_AFTER(node, position_node). -/
def LINK_NODE_AFTER (s : Heap N K) : Option N → Option N → Heap N K
  | some node, some position_node =>
    if node ≠ position_node ∧ parentHasRoom s node = true then
      linkAfter (UNLINK_NODE s (some node)) node position_node
    else s
  | _, _ => s

/-- One call of one of the five macros, with its arguments. -/
inductive Op (N K : Type) where
  | unlink (node : Option N)
  | first (node : Option N) (list : Option K)
  | last (node : Option N) (list : Option K)
  | before (node : Option N) (position_node : Option N)
  | after (node : Option N) (position_node : Option N)

/-- The effect of one macro call on the memory. -/
def Op.run (s : Heap N K) : Op N K → Heap N K
  | .unlink n => UNLINK_NODE s n
  | .first n l => LINK_NODE_FIRST s n l
  | .last n l => LINK_NODE_LAST s n l
  | .before n p => LINK_NODE_BEFORE s n p
  | .after n p => LINK_NODE_AFTER s n p

/-- The memories that arise from zero-initialised lists and nodes by macro calls. -/
inductive Reachable : Heap N K → Prop where
  | init : Reachable zeroed
  | step (s : Heap N K) (op : Op N K) : Reachable s → Reachable (op.run s)

/-! ## Traversals and well-formedness -/

/-- The loop `for(node = cur; node; node = node->next)` visits exactly the nodes of `l`, in
this order, and then stops at NULL. -/
def Chain (node : N → NodeMembers N K) : Option N → List N → Prop
  | cur, [] => cur = none
  | cur, a :: l => cur = some a ∧ Chain node (node a).next l

/-- The head-to-tail traversal of list `p` is `l`. -/
def Traversal (s : Heap N K) (p : K) (l : List N) : Prop :=
  Chain s.node (s.list p).head l

/-- A doubly linked segment: starting at `cur` the next-chain lists `l` and then continues
with `nxt`; every node of `l` has `prev` equal to its predecessor (`pv` for the first one)
and `parent` equal to `p`; `last` is the last node of `l` (`pv` when `l` is empty). -/
def Seg (node : N → NodeMembers N K) (p : K) :
    Option N → Option N → List N → Option N → Option N → Prop
  | pv, cur, [], last, nxt => cur = nxt ∧ last = pv
  | pv, cur, a :: l, last, nxt =>
    cur = some a ∧ (node a).prev = pv ∧ (node a).parent = some p ∧
      Seg node p (some a) (node a).next l last nxt

/-- At most `fuel` steps of the loop `for(node = cur; node; node = node->next)`. -/
def walk (node : N → NodeMembers N K) : Nat → Option N → List N
  | 0, _ => []
  | _ + 1, none => []
  | fuel + 1, some a => a :: walk node fuel (node a).next

/-- List `p` is consistent and `l` is its content: the chain from `head` is `l`, it is
doubly linked with parent `p` throughout and ends at `tail`, `count` is the length of `l`
and fits a `size_t`, and every node whose parent is `p` is on the chain. -/
def ListOK (s : Heap N K) (p : K) (l : List N) : Prop :=
  Seg s.node p none (s.list p).head l (s.list p).tail none ∧
    (s.list p).count = l.length ∧ l.length ≤ SIZE_MAX ∧
    ∀ k, (s.node k).parent = some p → k ∈ l

/-- The list invariant for every list: the `count` nodes reached from `head` form a
consistent list. -/
def WellFormed (s : Heap N K) : Prop :=
  ∀ p, ListOK s p (walk s.node (s.list p).count (s.list p).head)

/-- Links are mutual and stay inside one owner: `a->next == b` exactly when `b->prev == a`,
and linked nodes have the same parent (possibly none). -/
def LinkSym (s : Heap N K) : Prop :=
  ∀ a b, ((s.node a).next = some b ↔ (s.node b).prev = some a) ∧
    ((s.node a).next = some b → (s.node a).parent = (s.node b).parent)

/-- A node with `parent`, `prev` and `next` all NULL. -/
def Isolated (s : Heap N K) (n : N) : Prop :=
  (s.node n).parent = none ∧ (s.node n).prev = none ∧ (s.node n).next = none

/-- The neighbours of an unowned node are unowned. -/
def FreeNeighbours (s : Heap N K) (n : N) : Prop :=
  (s.node n).parent = none → ∀ k, (s.node n).prev = some k ∨ (s.node n).next = some k →
    (s.node k).parent = none

/-- The list `l` with `n` inserted directly in front of `p`. -/
def insertBefore (n p : N) : List N → List N
  | [] => []
  | a :: l => if a = p then n :: a :: l else a :: insertBefore n p l

/-- The list `l` with `n` inserted directly behind `p`. -/
def insertAfter (n p : N) : List N → List N
  | [] => []
  | a :: l => if a = p then a :: n :: l else a :: insertAfter n p l

/-- The count of the list that owns `p` does not wrap when `n` is linked next to `p`: the
list is not full, or `n` is already on it. -/
def Fits (s : Heap N K) (n p : N) : Prop :=
  ∀ q, (s.node p).parent = some q → (s.node n).parent = some q ∨ (s.list q).count ≠ SIZE_MAX

/-- The call does not make a count wrap around. Only LINK_NODE_BEFORE and LINK_NODE_AFTER can
do so: their guard reads the count of the list of `node`, not that of `position_node`. -/
def NoWrap (s : Heap N K) : Op N K → Prop
  | .before (some n) (some p) => Fits s n p
  | .after (some n) (some p) => Fits s n p
  | _ => True

instance Seg.decide (node : N → NodeMembers N K) (p : K) (l : List N) :
    ∀ pv cur last nxt, Decidable (Seg node p pv cur l last nxt) := by
  induction l with
  | nil => intro pv cur last nxt; unfold Seg; infer_instance
  | cons a l ih => intro pv cur last nxt; unfold Seg; infer_instance

instance Chain.decide (node : N → NodeMembers N K) (l : List N) :
    ∀ cur, Decidable (Chain node cur l) := by
  induction l with
  | nil => intro cur; unfold Chain; infer_instance
  | cons a l ih => intro cur; unfold Chain; infer_instance

instance Traversal.decide (s : Heap N K) (p : K) (l : List N) : Decidable (Traversal s p l) := by
  unfold Traversal; infer_instance

instance ListOK.decide [Fintype N] (s : Heap N K) (p : K) (l : List N) :
    Decidable (ListOK s p l) := by
  unfold ListOK; infer_instance

instance WellFormed.decide [Fintype N] [Fintype K] (s : Heap N K) : Decidable (WellFormed s) := by
  unfold WellFormed; infer_instance

instance LinkSym.decide [Fintype N] (s : Heap N K) : Decidable (LinkSym s) := by
  unfold LinkSym; infer_instance

instance Fits.decide [Fintype K] (s : Heap N K) (n p : N) : Decidable (Fits s n p) := by
  unfold Fits; infer_instance

instance Isolated.decide (s : Heap N K) (n : N) : Decidable (Isolated s n) := by
  unfold Isolated; infer_instance

/-! ## The consistency checker of the stress test -/

/-- The violations that `sanity_check_list` reports, one for each DEBUG_IF of the source, in
the order of the source. -/
inductive Violation where
  | missingList
  | headOnEmpty
  | tailOnEmpty
  | missingHeadAndTail
  | missingHead
  | missingTail
  | moreNodes
  | prevMismatch
  | parentMismatch
  | countMismatch
  | endNotAtTail
deriving DecidableEq

deriving instance DecidableEq for Except

/-- Modelled from the spec: the macro DEBUG_IF(condition, message) of util.hpp, which is not
among the sources. The checker reports the first violation found, or none: when the
condition holds the check stops with this violation, otherwise it goes on with `rest`. -/
def DEBUG_IF {α : Type} (cond : Prop) [Decidable cond] (v : Violation)
    (rest : Option (Except Violation α)) : Option (Except Violation α) :=
  if cond then some (Except.error v) else rest

/-- The loop of `sanity_check_list`,
`for(previous_node = NULL, node = list->head; node; previous_node = node, node = node->next)`,
run for at most `fuel` evaluations of its condition; `none` means that the fuel ran out. -/
def sanity_loop (s : Heap N K) (list : K) :
    Nat → Option N → Option N → Nat → Option (Except Violation Bool)
  | 0, _, _, _ => none
  | _ + 1, _, none, _ => some (Except.ok true)
  | fuel + 1, previous_node, some node, current_count =>
    DEBUG_IF (incr current_count > (s.list list).count) Violation.moreNodes <|
    DEBUG_IF (previous_node ≠ (s.node node).prev) Violation.prevMismatch <|
    DEBUG_IF (some list ≠ (s.node node).parent) Violation.parentMismatch <|
    if (s.node node).next = none then
      DEBUG_IF (incr current_count ≠ (s.list list).count) Violation.countMismatch <|
      DEBUG_IF (some node ≠ (s.list list).tail) Violation.endNotAtTail <|
      sanity_loop s list fuel (some node) (s.node node).next (incr current_count)
    else
      sanity_loop s list fuel (some node) (s.node node).next (incr current_count)

/-- The function `sanity_check_list(list)` of the stress test, with the fuel of its loop. -/
def sanity_check_list (fuel : Nat) (s : Heap N K) : Option K → Option (Except Violation Bool)
  | none => some (Except.error Violation.missingList)
  | some list =>
    if (s.list list).count = 0 then
      DEBUG_IF ((s.list list).head ≠ none) Violation.headOnEmpty <|
      DEBUG_IF ((s.list list).tail ≠ none) Violation.tailOnEmpty <|
      some (Except.ok true)
    else
      DEBUG_IF ((s.list list).head = none ∧ (s.list list).tail = none)
        Violation.missingHeadAndTail <|
      DEBUG_IF ((s.list list).head = none) Violation.missingHead <|
      DEBUG_IF ((s.list list).tail = none) Violation.missingTail <|
      sanity_loop s list fuel none (s.list list).head 0

/-! ## Mirror image, teardown loop, frame and payload -/

/-- The mirror image of a memory: `prev` and `next` are swapped in every node, `head` and
`tail` in every list. -/
def mirror (s : Heap N K) : Heap N K :=
  { node := fun k =>
      { prev := (s.node k).next, next := (s.node k).prev, parent := (s.node k).parent }
    list := fun q =>
      { head := (s.list q).tail, tail := (s.list q).head, count := (s.list q).count } }

/-- The teardown loop of the stress test and of CarListFree,
`for(p = list->head; p; ) { temp = p->next; UNLINK_NODE(p); p = temp; }`, started at `p`
and run for at most `fuel` evaluations of its condition. The result is the final memory and
the number of times the body ran; `none` means that the fuel ran out. -/
def teardown_loop : Nat → Heap N K → Option N → Option (Heap N K × Nat)
  | 0, _, _ => none
  | _ + 1, s, none => some (s, 0)
  | fuel + 1, s, some p =>
    let temp := (s.node p).next
    match teardown_loop fuel (UNLINK_NODE s (some p)) temp with
    | none => none
    | some (t, runs) => some (t, runs + 1)

/-- The nodes whose members a call may write: `node`, its former `prev` and `next`
neighbours, and the new neighbours of `node` (the old head or tail of the destination list,
or `position_node` and its old `prev` resp. `next` neighbour). -/
def Op.touchesNode (s : Heap N K) : Op N K → N → Prop
  | .unlink (some n), k =>
    k = n ∨ (s.node n).prev = some k ∨ (s.node n).next = some k
  | .first (some n) (some q), k =>
    k = n ∨ (s.node n).prev = some k ∨ (s.node n).next = some k ∨ (s.list q).head = some k
  | .last (some n) (some q), k =>
    k = n ∨ (s.node n).prev = some k ∨ (s.node n).next = some k ∨ (s.list q).tail = some k
  | .before (some n) (some p), k =>
    k = n ∨ (s.node n).prev = some k ∨ (s.node n).next = some k ∨ k = p ∨
      (s.node p).prev = some k
  | .after (some n) (some p), k =>
    k = n ∨ (s.node n).prev = some k ∨ (s.node n).next = some k ∨ k = p ∨
      (s.node p).next = some k
  | _, _ => False

/-- The lists whose members a call may write: the former list of `node` and the destination
list (the list argument, or the list of `position_node`). -/
def Op.touchesList (s : Heap N K) : Op N K → K → Prop
  | .unlink (some n), r => (s.node n).parent = some r
  | .first (some n) (some q), r => (s.node n).parent = some r ∨ r = q
  | .last (some n) (some q), r => (s.node n).parent = some r ∨ r = q
  | .before (some n) (some p), r => (s.node n).parent = some r ∨ (s.node p).parent = some r
  | .after (some n) (some p), r => (s.node n).parent = some r ∨ (s.node p).parent = some r
  | _, _ => False

/-- The caller's structs: the members declared by the macros together with the caller's own
fields of every node (`name`, ... in example.c) and of every list (`var1`, `var2`, ...). -/
structure Memory (N K P Q : Type) where
  links : Heap N K
  node_payload : N → P
  list_payload : K → Q

/-- A macro call on the caller's structs: every assignment of the macros names one of the
members `prev`, `next`, `parent`, `head`, `tail`, `count`. -/
def Memory.run {P Q : Type} (m : Memory N K P Q) (op : Op N K) : Memory N K P Q :=
  { m with links := op.run m.links }

/-! ## Net effect of the macros -/

/-- Net effect of UNLINK_NODE(n) on the node members: `n` is cleared and its former
neighbours are linked to each other. -/
def spliceOut (node : N → NodeMembers N K) (n : N) : N → NodeMembers N K :=
  fun k => if k = n then { prev := none, next := none, parent := none } else
    { prev := if (node n).next = some k then (node n).prev else (node k).prev
      next := if (node n).prev = some k then (node n).next else (node k).next
      parent := (node k).parent }

/-- Net effect of UNLINK_NODE(n) on the list members. -/
def unlinkList (s : Heap N K) (n : N) : K → ListMembers N :=
  fun p => if (s.node n).parent = some p then
    { head := if (s.list p).head = some n then (s.node n).next else (s.list p).head
      tail := if (s.list p).tail = some n then (s.node n).prev else (s.list p).tail
      count := decr (s.list p).count }
  else s.list p


/-- Net effect of the four link macros on the node members once `n` has been unlinked: `n`
gets `prev = m`, `next = c` and the given parent, the node `m` gets `next = n` and the node
`c` gets `prev = n`. -/
def spliceIn (node : N → NodeMembers N K) (n : N) (m c : Option N) (par : Option K) :
    N → NodeMembers N K :=
  fun k => if k = n then { prev := m, next := c, parent := par } else
    { prev := if c = some k then some n else (node k).prev
      next := if m = some k then some n else (node k).next
      parent := (node k).parent }

/-- Net effect of LINK_NODE_BEFORE on the list members, once `n` has been unlinked. -/
def beforeList (t : Heap N K) (n p : N) : K → ListMembers N :=
  fun q => if (t.node p).parent = some q then
    { head := if (t.list q).head = some p then some n else (t.list q).head
      tail := (t.list q).tail
      count := incr (t.list q).count }
  else t.list q

/-- Net effect of LINK_NODE_AFTER on the list members, once `n` has been unlinked. -/
def afterList (t : Heap N K) (n p : N) : K → ListMembers N :=
  fun q => if (t.node p).parent = some q then
    { head := (t.list q).head
      tail := if (t.list q).tail = some p then some n else (t.list q).tail
      count := incr (t.list q).count }
  else t.list q


/-! ## Concrete memories used as examples -/

/-- Three nodes `a = 0`, `b = 1`, `c = 2` linked in this order into list `0`; node `3` and
list `1` are zero-initialised. -/
def abc : Heap (Fin 4) (Fin 2) :=
  LINK_NODE_LAST (LINK_NODE_LAST (LINK_NODE_LAST zeroed (some 0) (some 0)) (some 1) (some 0))
    (some 2) (some 0)

/-- The memory `abc` after UNLINK_NODE(b): list `0` holds `a = 0` and `c = 2`. -/
def ac : Heap (Fin 4) (Fin 2) := UNLINK_NODE abc (some 1)

/-- List `0` holds the single node `0`; node `1` belongs to no list but its `prev` points to
node `2` and its `next` points to node `0`; node `2` is zero-initialised. -/
def stale : Heap (Fin 3) (Fin 1) :=
  { node := fun k =>
      if k = 0 then { prev := none, next := none, parent := some 0 }
      else if k = 1 then { prev := some 2, next := some 0, parent := none }
      else { prev := none, next := none, parent := none }
    list := fun _ => { head := some 0, tail := some 0, count := 1 } }

/-- Two zero-initialised nodes linked by LINK_NODE_BEFORE(0, 1): a pair outside any list. -/
def freePair : Heap (Fin 2) (Fin 1) := LINK_NODE_BEFORE zeroed (some 0) (some 1)

/-- The memory `abc` after LINK_NODE_LAST(3, list 1): list `0` holds `0, 1, 2` and list `1`
holds `3`. -/
def twoLists : Heap (Fin 4) (Fin 2) := LINK_NODE_LAST abc (some 3) (some 1)

/-- List `0` records the count SIZE_MAX and has node `0` as head and tail; list `1` holds the
single node `1`; node `2` is zero-initialised. -/
def full : Heap (Fin 3) (Fin 2) :=
  { node := fun k =>
      if k = 0 then { prev := none, next := none, parent := some 0 }
      else if k = 1 then { prev := none, next := none, parent := some 1 }
      else { prev := none, next := none, parent := none }
    list := fun q =>
      if q = 0 then { head := some 0, tail := some 0, count := SIZE_MAX }
      else { head := some 1, tail := some 1, count := 1 } }

/-- No list has a node; node `0` is zero-initialised and node `1` has no parent but its
`prev` points to node `0`. -/
def stalePair : Heap (Fin 2) (Fin 1) :=
  { node := fun k =>
      if k = 0 then { prev := none, next := none, parent := none }
      else { prev := some 0, next := none, parent := none }
    list := fun _ => { head := none, tail := none, count := 0 } }

/-- One list that holds the nodes `0, 1, ..., m - 1` in this order; every other node is
zero-initialised. -/
def chainHeap (m : Nat) : Heap Nat Unit :=
  { node := fun i =>
      if i < m then
        { prev := if i = 0 then none else some (i - 1)
          next := if i + 1 < m then some (i + 1) else none
          parent := some () }
      else { prev := none, next := none, parent := none }
    list := fun _ =>
      { head := if 0 < m then some 0 else none
        tail := if 0 < m then some (m - 1) else none
        count := m } }

/-- A full list: it holds the SIZE_MAX nodes `0, ..., SIZE_MAX - 1`; node `SIZE_MAX` is
zero-initialised. -/
def big : Heap Nat Unit := chainHeap SIZE_MAX

/-- No list has a node; nodes `0` and `2` are zero-initialised and node `1` has no parent
but its `prev` points to node `2`. -/
def stalePrev : Heap (Fin 3) (Fin 1) :=
  { node := fun k =>
      if k = 1 then { prev := some 2, next := none, parent := none }
      else { prev := none, next := none, parent := none }
    list := fun _ => { head := none, tail := none, count := 0 } }

section setters

variable (s : Heap N K) (a k : N) (p q : K) (v : Option N) (w : Option K) (c : Nat)

@[simp]
theorem setPrev_list : (setPrev s a v).list = s.list := rfl
@[simp]
theorem setNext_list : (setNext s a v).list = s.list := rfl
@[simp]
theorem setParent_list : (setParent s a w).list = s.list := rfl
@[simp]
theorem setHead_node : (setHead s p v).node = s.node := rfl
@[simp]
theorem setTail_node : (setTail s p v).node = s.node := rfl
@[simp]
theorem setCount_node : (setCount s p c).node = s.node := rfl

@[simp]
theorem setPrev_prev :
    ((setPrev s a v).node k).prev = if k = a then v else (s.node k).prev := by
  unfold setPrev; by_cases h : k = a <;> simp [h]
@[simp]
theorem setPrev_next : ((setPrev s a v).node k).next = (s.node k).next := by
  unfold setPrev; by_cases h : k = a <;> simp [h]
@[simp]
theorem setPrev_parent : ((setPrev s a v).node k).parent = (s.node k).parent := by
  unfold setPrev; by_cases h : k = a <;> simp [h]
@[simp]
theorem setNext_prev : ((setNext s a v).node k).prev = (s.node k).prev := by
  unfold setNext; by_cases h : k = a <;> simp [h]
@[simp]
theorem setNext_next :
    ((setNext s a v).node k).next = if k = a then v else (s.node k).next := by
  unfold setNext; by_cases h : k = a <;> simp [h]
@[simp]
theorem setNext_parent : ((setNext s a v).node k).parent = (s.node k).parent := by
  unfold setNext; by_cases h : k = a <;> simp [h]
@[simp]
theorem setParent_prev : ((setParent s a w).node k).prev = (s.node k).prev := by
  unfold setParent; by_cases h : k = a <;> simp [h]
@[simp]
theorem setParent_next : ((setParent s a w).node k).next = (s.node k).next := by
  unfold setParent; by_cases h : k = a <;> simp [h]
@[simp]
theorem setParent_parent :
    ((setParent s a w).node k).parent = if k = a then w else (s.node k).parent := by
  unfold setParent; by_cases h : k = a <;> simp [h]

@[simp]
theorem setHead_head :
    ((setHead s p v).list q).head = if q = p then v else (s.list q).head := by
  unfold setHead; by_cases h : q = p <;> simp [h]
@[simp]
theorem setHead_tail : ((setHead s p v).list q).tail = (s.list q).tail := by
  unfold setHead; by_cases h : q = p <;> simp [h]
@[simp]
theorem setHead_count : ((setHead s p v).list q).count = (s.list q).count := by
  unfold setHead; by_cases h : q = p <;> simp [h]
@[simp]
theorem setTail_head : ((setTail s p v).list q).head = (s.list q).head := by
  unfold setTail; by_cases h : q = p <;> simp [h]
@[simp]
theorem setTail_tail :
    ((setTail s p v).list q).tail = if q = p then v else (s.list q).tail := by
  unfold setTail; by_cases h : q = p <;> simp [h]
@[simp]
theorem setTail_count : ((setTail s p v).list q).count = (s.list q).count := by
  unfold setTail; by_cases h : q = p <;> simp [h]
@[simp]
theorem setCount_head : ((setCount s p c).list q).head = (s.list q).head := by
  unfold setCount; by_cases h : q = p <;> simp [h]
@[simp]
theorem setCount_tail : ((setCount s p c).list q).tail = (s.list q).tail := by
  unfold setCount; by_cases h : q = p <;> simp [h]
@[simp]
theorem setCount_count :
    ((setCount s p c).list q).count = if q = p then c else (s.list q).count := by
  unfold setCount; by_cases h : q = p <;> simp [h]

end setters

theorem detach_list (s : Heap N K) (n : N) : (detach s n).list = unlinkList s n := by
  funext p
  unfold detach unlinkList
  rcases hp : (s.node n).parent with _ | q
  · simp
  · by_cases h1 : (s.list q).head = some n <;> by_cases h2 : (s.list q).tail = some n <;>
      by_cases h3 : q = p
    all_goals first
      | (subst h3; apply ListMembers.ext <;> simp [h1, h2])
      | (have h3b : ¬ p = q := fun h => h3 h.symm
         apply ListMembers.ext <;> simp [h1, h2, h3, h3b])

theorem detach_node (s : Heap N K) (n k : N) :
    (detach s n).node k =
      { s.node k with parent := if k = n then none else (s.node k).parent } := by
  unfold detach
  rcases hp : (s.node n).parent with _ | q
  · by_cases h : k = n <;> apply NodeMembers.ext <;> simp [h, hp]
  · by_cases h1 : (s.list q).head = some n <;> by_cases h2 : (s.list q).tail = some n <;>
      apply NodeMembers.ext <;> simp [h1, h2]

theorem UNLINK_NODE_list (s : Heap N K) (n : N) :
    (UNLINK_NODE s (some n)).list = unlinkList s n := by
  unfold UNLINK_NODE
  simp only [setPrev_list, setNext_list]
  rcases hx : ((detach s n).node n).prev with _ | x
  · rcases hy : ((detach s n).node n).next with _ | y
    · exact detach_list s n
    · exact detach_list s n
  · simp only []
    rcases hy : ((setNext (detach s n) x ((detach s n).node n).next).node n).next with _ | y
    · exact detach_list s n
    · exact detach_list s n

theorem UNLINK_NODE_node (s : Heap N K) (n : N) :
    (UNLINK_NODE s (some n)).node = spliceOut s.node n := by
  funext k
  have hd := detach_node s n
  unfold UNLINK_NODE spliceOut
  simp only []
  generalize detach s n = t at hd ⊢
  have hdp : ∀ j, (t.node j).prev = (s.node j).prev := fun j => by rw [hd]
  have hdn : ∀ j, (t.node j).next = (s.node j).next := fun j => by rw [hd]
  have hdq : ∀ j, (t.node j).parent = if j = n then none else (s.node j).parent :=
    fun j => by rw [hd]
  have e1 : ∀ a b : N, (some a = some b) = (a = b) := fun a b => by simp
  rcases hx : (s.node n).prev with _ | x <;> rcases hy : (s.node n).next with _ | y <;>
    by_cases h0 : k = n <;> apply NodeMembers.ext <;>
    simp [hdp, hdn, hdq, hx, hy, h0, eq_comm]



theorem linkFirst_list (t : Heap N K) (n : N) (p q : K) :
    (linkFirst t n p).list q = if q = p then
      { head := some n
        tail := if (t.list p).tail = none then some n else (t.list p).tail
        count := incr (t.list p).count }
      else t.list q := by
  unfold linkFirst
  rcases hh : (t.list p).head with _ | h <;> by_cases ht : (t.list p).tail = none <;>
    by_cases hq : q = p <;> apply ListMembers.ext <;> simp [hh, ht, hq]

theorem linkFirst_node (t : Heap N K) (n : N) (p : K) (hne : (t.list p).head ≠ some n) :
    (linkFirst t n p).node = spliceIn t.node n none (t.list p).head (some p) := by
  funext k
  unfold linkFirst spliceIn
  rcases hh : (t.list p).head with _ | h
  · by_cases ht : (t.list p).tail = none <;>
      by_cases h0 : k = n <;> apply NodeMembers.ext <;> simp [hh, ht, h0, eq_comm]
  · have hnh : ¬ n = h := fun e => hne (by rw [hh, e])
    by_cases ht : (t.list p).tail = none <;>
      by_cases h0 : k = n <;> apply NodeMembers.ext <;> simp [hh, ht, h0, hnh, eq_comm]

theorem linkLast_list (t : Heap N K) (n : N) (p q : K) :
    (linkLast t n p).list q = if q = p then
      { head := if (t.list p).head = none then some n else (t.list p).head
        tail := some n
        count := incr (t.list p).count }
      else t.list q := by
  unfold linkLast
  rcases hh : (t.list p).tail with _ | h <;> by_cases ht : (t.list p).head = none <;>
    by_cases hq : q = p <;> apply ListMembers.ext <;> simp [hh, ht, hq]

theorem linkLast_node (t : Heap N K) (n : N) (p : K) (hne : (t.list p).tail ≠ some n) :
    (linkLast t n p).node = spliceIn t.node n (t.list p).tail none (some p) := by
  funext k
  unfold linkLast spliceIn
  rcases hh : (t.list p).tail with _ | h
  · by_cases ht : (t.list p).head = none <;>
      by_cases h0 : k = n <;> apply NodeMembers.ext <;> simp [hh, ht, h0, eq_comm]
  · have hnh : ¬ n = h := fun e => hne (by rw [hh, e])
    by_cases ht : (t.list p).head = none <;>
      by_cases h0 : k = n <;> apply NodeMembers.ext <;> simp [hh, ht, h0, hnh, eq_comm]

theorem linkBefore_list (t : Heap N K) (n p : N) (hnp : n ≠ p) :
    (linkBefore t n p).list = beforeList t n p := by
  funext q
  unfold linkBefore beforeList
  have hpn : ¬ p = n := fun h => hnp h.symm
  rcases hx : (t.node p).prev with _ | x
  · rcases hq : (t.node p).parent with _ | r
    · apply ListMembers.ext <;> simp [hx, hq, hpn, hnp]
    · by_cases h2 : r = q
      · subst h2
        by_cases h1 : (t.list r).head = some p <;>
          apply ListMembers.ext <;> simp [hx, hq, hpn, hnp, h1]
      · have h2b : ¬ q = r := fun h => h2 h.symm
        by_cases h1 : (t.list r).head = some p <;>
          apply ListMembers.ext <;> simp [hx, hq, hpn, hnp, h1, h2, h2b]
  · by_cases h3 : x = p
    · subst h3
      rcases hq : (t.node x).parent with _ | r
      · apply ListMembers.ext <;> simp [hx, hq, hpn, hnp]
      · by_cases h2 : r = q
        · subst h2
          by_cases h1 : (t.list r).head = some x <;>
            apply ListMembers.ext <;> simp [hx, hq, hpn, hnp, h1]
        · have h2b : ¬ q = r := fun h => h2 h.symm
          by_cases h1 : (t.list r).head = some x <;>
            apply ListMembers.ext <;> simp [hx, hq, hpn, hnp, h1, h2, h2b]
    · have h3b : ¬ p = x := fun h => h3 h.symm
      rcases hq : (t.node p).parent with _ | r
      · apply ListMembers.ext <;> simp [hx, hq, hpn, hnp, h3, h3b]
      · by_cases h2 : r = q
        · subst h2
          by_cases h1 : (t.list r).head = some p <;>
            apply ListMembers.ext <;> simp [hx, hq, hpn, hnp, h1, h3, h3b]
        · have h2b : ¬ q = r := fun h => h2 h.symm
          by_cases h1 : (t.list r).head = some p <;>
            apply ListMembers.ext <;> simp [hx, hq, hpn, hnp, h1, h2, h2b, h3, h3b]

theorem linkAfter_list (t : Heap N K) (n p : N) (hnp : n ≠ p) :
    (linkAfter t n p).list = afterList t n p := by
  funext q
  unfold linkAfter afterList
  have hpn : ¬ p = n := fun h => hnp h.symm
  rcases hx : (t.node p).next with _ | x
  · rcases hq : (t.node p).parent with _ | r
    · apply ListMembers.ext <;> simp [hx, hq, hpn, hnp]
    · by_cases h2 : r = q
      · subst h2
        by_cases h1 : (t.list r).tail = some p <;>
          apply ListMembers.ext <;> simp [hx, hq, hpn, hnp, h1]
      · have h2b : ¬ q = r := fun h => h2 h.symm
        by_cases h1 : (t.list r).tail = some p <;>
          apply ListMembers.ext <;> simp [hx, hq, hpn, hnp, h1, h2, h2b]
  · by_cases h3 : x = p
    · subst h3
      rcases hq : (t.node x).parent with _ | r
      · apply ListMembers.ext <;> simp [hx, hq, hpn, hnp]
      · by_cases h2 : r = q
        · subst h2
          by_cases h1 : (t.list r).tail = some x <;>
            apply ListMembers.ext <;> simp [hx, hq, hpn, hnp, h1]
        · have h2b : ¬ q = r := fun h => h2 h.symm
          by_cases h1 : (t.list r).tail = some x <;>
            apply ListMembers.ext <;> simp [hx, hq, hpn, hnp, h1, h2, h2b]
    · have h3b : ¬ p = x := fun h => h3 h.symm
      rcases hq : (t.node p).parent with _ | r
      · apply ListMembers.ext <;> simp [hx, hq, hpn, hnp, h3, h3b]
      · by_cases h2 : r = q
        · subst h2
          by_cases h1 : (t.list r).tail = some p <;>
            apply ListMembers.ext <;> simp [hx, hq, hpn, hnp, h1, h3, h3b]
        · have h2b : ¬ q = r := fun h => h2 h.symm
          by_cases h1 : (t.list r).tail = some p <;>
            apply ListMembers.ext <;> simp [hx, hq, hpn, hnp, h1, h2, h2b, h3, h3b]

theorem linkBefore_node (t : Heap N K) (n p : N) (hnp : n ≠ p)
    (hne : (t.node p).prev ≠ some n) :
    (linkBefore t n p).node = spliceIn t.node n (t.node p).prev (some p) (t.node p).parent := by
  funext k
  unfold linkBefore spliceIn
  have hpn : ¬ p = n := fun h => hnp h.symm
  rcases hx : (t.node p).prev with _ | x
  · rcases hq : (t.node p).parent with _ | r
    · by_cases h0 : k = n <;> by_cases h1 : k = p <;>
        apply NodeMembers.ext <;> simp [hx, hq, hpn, hnp, h0, h1, eq_comm] <;> (try split_ifs) <;> (try simp_all)
    · by_cases h4 : (t.list r).head = some p <;> by_cases h0 : k = n <;> by_cases h1 : k = p <;>
        apply NodeMembers.ext <;> simp [hx, hq, hpn, hnp, h0, h1, h4, eq_comm] <;> (try split_ifs) <;> (try simp_all)
  · have hnx : ¬ n = x := fun h => hne (by rw [hx, h])
    have hxn : ¬ x = n := fun h => hnx h.symm
    by_cases h3 : x = p
    · subst h3
      rcases hq : (t.node x).parent with _ | r
      · by_cases h0 : k = n <;> by_cases h1 : k = x <;>
          apply NodeMembers.ext <;> simp [hx, hq, hpn, hnp, h0, h1, eq_comm] <;> (try split_ifs) <;> (try simp_all)
      · by_cases h4 : (t.list r).head = some x <;> by_cases h0 : k = n <;>
          by_cases h1 : k = x <;>
          apply NodeMembers.ext <;> simp [hx, hq, hpn, hnp, h0, h1, h4, eq_comm] <;> (try split_ifs) <;> (try simp_all)
    · have h3b : ¬ p = x := fun h => h3 h.symm
      rcases hq : (t.node p).parent with _ | r
      · by_cases h0 : k = n <;> by_cases h1 : k = p <;> by_cases h2 : k = x <;>
          apply NodeMembers.ext <;>
          simp [hx, hq, hpn, hnp, hnx, hxn, h0, h1, h2, h3, h3b, eq_comm] <;> (try split_ifs) <;> (try simp_all)
      · by_cases h4 : (t.list r).head = some p <;> by_cases h0 : k = n <;>
          by_cases h1 : k = p <;> by_cases h2 : k = x <;>
          apply NodeMembers.ext <;>
          simp [hx, hq, hpn, hnp, hnx, hxn, h0, h1, h2, h3, h3b, h4, eq_comm] <;> (try split_ifs) <;> (try simp_all)

theorem linkAfter_node (t : Heap N K) (n p : N) (hnp : n ≠ p)
    (hne : (t.node p).next ≠ some n) :
    (linkAfter t n p).node = spliceIn t.node n (some p) (t.node p).next (t.node p).parent := by
  funext k
  unfold linkAfter spliceIn
  have hpn : ¬ p = n := fun h => hnp h.symm
  rcases hx : (t.node p).next with _ | x
  · rcases hq : (t.node p).parent with _ | r
    · by_cases h0 : k = n <;> by_cases h1 : k = p <;>
        apply NodeMembers.ext <;> simp [hx, hq, hpn, hnp, h0, h1, eq_comm] <;> (try split_ifs) <;> (try simp_all)
    · by_cases h4 : (t.list r).tail = some p <;> by_cases h0 : k = n <;> by_cases h1 : k = p <;>
        apply NodeMembers.ext <;> simp [hx, hq, hpn, hnp, h0, h1, h4, eq_comm] <;> (try split_ifs) <;> (try simp_all)
  · have hnx : ¬ n = x := fun h => hne (by rw [hx, h])
    have hxn : ¬ x = n := fun h => hnx h.symm
    by_cases h3 : x = p
    · subst h3
      rcases hq : (t.node x).parent with _ | r
      · by_cases h0 : k = n <;> by_cases h1 : k = x <;>
          apply NodeMembers.ext <;> simp [hx, hq, hpn, hnp, h0, h1, eq_comm] <;> (try split_ifs) <;> (try simp_all)
      · by_cases h4 : (t.list r).tail = some x <;> by_cases h0 : k = n <;>
          by_cases h1 : k = x <;>
          apply NodeMembers.ext <;> simp [hx, hq, hpn, hnp, h0, h1, h4, eq_comm] <;> (try split_ifs) <;> (try simp_all)
    · have h3b : ¬ p = x := fun h => h3 h.symm
      rcases hq : (t.node p).parent with _ | r
      · by_cases h0 : k = n <;> by_cases h1 : k = p <;> by_cases h2 : k = x <;>
          apply NodeMembers.ext <;>
          simp [hx, hq, hpn, hnp, hnx, hxn, h0, h1, h2, h3, h3b, eq_comm] <;> (try split_ifs) <;> (try simp_all)
      · by_cases h4 : (t.list r).tail = some p <;> by_cases h0 : k = n <;>
          by_cases h1 : k = p <;> by_cases h2 : k = x <;>
          apply NodeMembers.ext <;>
          simp [hx, hq, hpn, hnp, hnx, hxn, h0, h1, h2, h3, h3b, h4, eq_comm] <;> (try split_ifs) <;> (try simp_all)



/-! ## Arithmetic of `size_t` counters -/

theorem incr_of_lt (c : Nat) (h : c < SIZE_MAX) : incr c = c + 1 := by
  unfold incr
  exact Nat.mod_eq_of_lt (by omega)

theorem decr_of_pos (c : Nat) (h0 : 0 < c) (h : c ≤ SIZE_MAX) : decr c = c - 1 := by
  unfold decr
  obtain ⟨d, rfl⟩ : ∃ d, c = d + 1 := ⟨c - 1, by omega⟩
  have e : d + 1 + SIZE_MAX = d + (SIZE_MAX + 1) := by omega
  rw [e, Nat.add_mod_right]
  exact Nat.mod_eq_of_lt (by omega)

theorem incr_decr (c : Nat) (h0 : 0 < c) (h : c ≤ SIZE_MAX) : incr (decr c) = c := by
  rw [decr_of_pos c h0 h, incr_of_lt _ (by omega)]
  omega

/-! ## Chains and segments -/

section segments

variable {node node' : N → NodeMembers N K} {p : K}

theorem Chain.functional : ∀ (l1 l2 : List N) (cur : Option N),
    Chain node cur l1 → Chain node cur l2 → l1 = l2 := by
  intro l1
  induction l1 with
  | nil =>
    intro l2 cur h1 h2
    cases l2 with
    | nil => rfl
    | cons b l2 =>
      unfold Chain at h1 h2
      rw [h1] at h2
      exact absurd h2.1 (by simp)
  | cons a l1 ih =>
    intro l2 cur h1 h2
    cases l2 with
    | nil =>
      unfold Chain at h1 h2
      rw [h2] at h1
      exact absurd h1.1 (by simp)
    | cons b l2 =>
      unfold Chain at h1 h2
      have hab : a = b := by
        have := h1.1.symm.trans h2.1
        exact Option.some.inj this
      subst hab
      rw [ih l2 _ h1.2 h2.2]

theorem Chain.suffix : ∀ (l1 l2 : List N) (a : N) (cur : Option N),
    Chain node cur (l1 ++ a :: l2) → Chain node (some a) (a :: l2) := by
  intro l1
  induction l1 with
  | nil =>
    intro l2 a cur h
    simp only [List.nil_append] at h
    unfold Chain at h ⊢
    exact ⟨rfl, h.2⟩
  | cons b l1 ih =>
    intro l2 a cur h
    simp only [List.cons_append] at h
    unfold Chain at h
    exact ih l2 a _ h.2

theorem Chain.no_repeat : ∀ (l : List N) (cur : Option N), Chain node cur l → l.Nodup := by
  intro l
  induction l with
  | nil => intro cur _; exact List.nodup_nil
  | cons a l ih =>
    intro cur h
    have h' := h
    unfold Chain at h'
    refine List.nodup_cons.mpr ⟨?_, ih _ h'.2⟩
    intro ha
    obtain ⟨l1, l2, e⟩ := List.append_of_mem ha
    have h3 : Chain node (some a) (a :: l2) := by
      have := h'.2
      rw [e] at this
      exact Chain.suffix l1 l2 a _ this
    have h4 : Chain node (some a) (a :: l) := by
      unfold Chain
      exact ⟨rfl, h'.2⟩
    have h5 := Chain.functional _ _ _ h3 h4
    have h6 : l2.length = l.length := by
      have := congrArg List.length h5
      simpa using this
    rw [e] at h6
    simp at h6
    omega

theorem Chain.walk : ∀ (l : List N) (cur : Option N), Chain node cur l →
    walk node l.length cur = l := by
  intro l
  induction l with
  | nil => intro cur _; rfl
  | cons a l ih =>
    intro cur h
    unfold Chain at h
    rw [h.1]
    simp only [List.length_cons, GenericList.walk]
    rw [ih _ h.2]

theorem Seg.chain : ∀ (l : List N) (pv cur last : Option N),
    Seg node p pv cur l last none → Chain node cur l := by
  intro l
  induction l with
  | nil => intro pv cur last h; unfold Seg at h; unfold Chain; exact h.1
  | cons a l ih =>
    intro pv cur last h
    unfold Seg at h
    unfold Chain
    exact ⟨h.1, ih _ _ _ h.2.2.2⟩

theorem Seg.parent : ∀ (l : List N) (pv cur last nxt : Option N),
    Seg node p pv cur l last nxt → ∀ k ∈ l, (node k).parent = some p := by
  intro l
  induction l with
  | nil => intro pv cur last nxt _ k hk; exact absurd hk (List.not_mem_nil k)
  | cons a l ih =>
    intro pv cur last nxt h k hk
    unfold Seg at h
    rcases List.mem_cons.mp hk with rfl | hk
    · exact h.2.2.1
    · exact ih _ _ _ _ h.2.2.2 k hk

theorem Seg.congr : ∀ (l : List N) (pv cur last nxt : Option N),
    (∀ k ∈ l, (node' k).prev = (node k).prev ∧ (node' k).next = (node k).next ∧
      (node' k).parent = (node k).parent) →
    Seg node p pv cur l last nxt → Seg node' p pv cur l last nxt := by
  intro l
  induction l with
  | nil => intro pv cur last nxt _ h; unfold Seg at h ⊢; exact h
  | cons a l ih =>
    intro pv cur last nxt hk h
    unfold Seg at h ⊢
    obtain ⟨e1, e2, e3⟩ := hk a (List.mem_cons_self a l)
    refine ⟨h.1, e1.trans h.2.1, e3.trans h.2.2.1, ?_⟩
    rw [e2]
    exact ih _ _ _ _ (fun k hk' => hk k (List.mem_cons_of_mem a hk')) h.2.2.2

theorem Seg.append : ∀ (l1 l2 : List N) (pv cur last nxt : Option N),
    Seg node p pv cur (l1 ++ l2) last nxt ↔
      ∃ m c, Seg node p pv cur l1 m c ∧ Seg node p m c l2 last nxt := by
  intro l1
  induction l1 with
  | nil =>
    intro l2 pv cur last nxt
    simp only [List.nil_append]
    constructor
    · intro h
      exact ⟨pv, cur, by unfold Seg; exact ⟨rfl, rfl⟩, h⟩
    · rintro ⟨m, c, h1, h2⟩
      unfold Seg at h1
      rw [h1.1, ← h1.2]
      exact h2
  | cons a l1 ih =>
    intro l2 pv cur last nxt
    simp only [List.cons_append]
    constructor
    · intro h
      unfold Seg at h
      obtain ⟨m, c, h1, h2⟩ := (ih l2 _ _ _ _).mp h.2.2.2
      refine ⟨m, c, ?_, h2⟩
      unfold Seg
      exact ⟨h.1, h.2.1, h.2.2.1, h1⟩
    · rintro ⟨m, c, h1, h2⟩
      unfold Seg at h1
      unfold Seg
      exact ⟨h1.1, h1.2.1, h1.2.2.1, (ih l2 _ _ _ _).mpr ⟨m, c, h1.2.2.2, h2⟩⟩

theorem Seg.last_mem : ∀ (l : List N) (pv cur last nxt : Option N),
    Seg node p pv cur l last nxt → l ≠ [] → ∃ z ∈ l, last = some z := by
  intro l
  induction l with
  | nil => intro pv cur last nxt _ h; exact absurd rfl h
  | cons a l ih =>
    intro pv cur last nxt h _
    unfold Seg at h
    by_cases hl : l = []
    · subst hl
      have h2 := h.2.2.2
      unfold Seg at h2
      exact ⟨a, List.mem_cons_self a [], h2.2⟩
    · obtain ⟨z, hz, e⟩ := ih _ _ _ _ h.2.2.2 hl
      exact ⟨z, List.mem_cons_of_mem a hz, e⟩

theorem Seg.next_last : ∀ (l : List N) (pv cur last nxt : Option N),
    Seg node p pv cur l last nxt → l ≠ [] → ∀ z, last = some z → (node z).next = nxt := by
  intro l
  induction l with
  | nil => intro pv cur last nxt _ h; exact absurd rfl h
  | cons a l ih =>
    intro pv cur last nxt h _ z hz
    unfold Seg at h
    by_cases hl : l = []
    · subst hl
      have h2 := h.2.2.2
      unfold Seg at h2
      have : z = a := Option.some.inj (hz.symm.trans h2.2)
      rw [this]
      exact h2.1
    · exact ih _ _ _ _ h.2.2.2 hl z hz

theorem Seg.relink_last (nd : N → NodeMembers N K) : ∀ (l : List N) (pv cur last nxt e : Option N), l.Nodup →
    Seg node p pv cur l last nxt →
    (∀ k ∈ l, (nd k).prev = (node k).prev ∧ (nd k).parent = (node k).parent ∧
      (nd k).next = if last = some k then e else (node k).next) →
    Seg nd p pv (if l = [] then e else cur) l last e := by
  intro l
  induction l with
  | nil =>
    intro pv cur last nxt e _ h _
    unfold Seg at h ⊢
    exact ⟨by simp, h.2⟩
  | cons a l ih =>
    intro pv cur last nxt e hnd h hk
    have hnd' := List.nodup_cons.mp hnd
    unfold Seg at h
    unfold Seg
    obtain ⟨e1, e2, e3⟩ := hk a (List.mem_cons_self a l)
    simp only [reduceCtorEq, if_false]
    refine ⟨h.1, e1.trans h.2.1, e2.trans h.2.2.1, ?_⟩
    have ih' := ih (some a) (node a).next last nxt e hnd'.2 h.2.2.2
      (fun k hk' => hk k (List.mem_cons_of_mem a hk'))
    have : (nd a).next = if l = [] then e else (node a).next := by
      rw [e3]
      by_cases hl : l = []
      · subst hl
        have h2 := h.2.2.2
        unfold Seg at h2
        simp [h2.2]
      · obtain ⟨z, hz, ez⟩ := Seg.last_mem _ _ _ _ _ h.2.2.2 hl
        have hza : ¬ z = a := fun h => hnd'.1 (h ▸ hz)
        simp [hl, ez, hza]
    rw [this]
    exact ih'

theorem Seg.relink_first (nd : N → NodeMembers N K) (l : List N) (pv pv' cur last nxt : Option N) (hnd : l.Nodup)
    (h : Seg node p pv cur l last nxt)
    (hk : ∀ k ∈ l, (nd k).next = (node k).next ∧ (nd k).parent = (node k).parent ∧
      (nd k).prev = if cur = some k then pv' else (node k).prev) :
    Seg nd p pv' cur l (if l = [] then pv' else last) nxt := by
  cases l with
  | nil =>
    unfold Seg at h ⊢
    exact ⟨h.1, by simp⟩
  | cons a l =>
    have hnd' := List.nodup_cons.mp hnd
    unfold Seg at h
    unfold Seg
    obtain ⟨e1, e2, e3⟩ := hk a (List.mem_cons_self a l)
    simp only [reduceCtorEq, if_false]
    refine ⟨h.1, by rw [e3]; simp [h.1], e2.trans h.2.2.1, ?_⟩
    rw [e1]
    refine Seg.congr l _ _ _ _ ?_ h.2.2.2
    intro k hk'
    obtain ⟨f1, f2, f3⟩ := hk k (List.mem_cons_of_mem a hk')
    have hka : ¬ a = k := fun h => hnd'.1 (h ▸ hk')
    refine ⟨?_, f1, f2⟩
    rw [f3, h.1]
    simp [hka]

end segments

/-! ## Consistent lists -/

section listok

variable {node node' : N → NodeMembers N K} {p : K}

theorem Seg.last_cases (l : List N) (pv cur last nxt : Option N)
    (h : Seg node p pv cur l last nxt) :
    (l = [] ∧ last = pv) ∨ (l ≠ [] ∧ ∃ z ∈ l, last = some z) := by
  by_cases hl : l = []
  · subst hl
    unfold Seg at h
    exact Or.inl ⟨rfl, h.2⟩
  · exact Or.inr ⟨hl, Seg.last_mem l _ _ _ _ h hl⟩

theorem Seg.cur_cases (l : List N) (pv cur last nxt : Option N)
    (h : Seg node p pv cur l last nxt) :
    (l = [] ∧ cur = nxt) ∨ (l ≠ [] ∧ ∃ a ∈ l, cur = some a) := by
  cases l with
  | nil =>
    unfold Seg at h
    exact Or.inl ⟨rfl, h.1⟩
  | cons a l =>
    unfold Seg at h
    exact Or.inr ⟨by simp, a, List.mem_cons_self a l, h.1⟩

theorem ListOK.nodup {s : Heap N K} {q : K} {l : List N} (h : ListOK s q l) : l.Nodup :=
  Chain.no_repeat l _ (Seg.chain l _ _ _ h.1)

theorem ListOK.traversal {s : Heap N K} {q : K} {l : List N} (h : ListOK s q l) :
    Traversal s q l :=
  Seg.chain l _ _ _ h.1

theorem ListOK.unique {s : Heap N K} {q : K} {l l' : List N} (h : ListOK s q l)
    (h' : Traversal s q l') : l' = l :=
  Chain.functional _ _ _ h' h.traversal

theorem ListOK.walk_eq {s : Heap N K} {q : K} {l : List N} (h : ListOK s q l) :
    walk s.node (s.list q).count (s.list q).head = l := by
  rw [h.2.1]
  exact Chain.walk l _ h.traversal

theorem ListOK.mem_iff {s : Heap N K} {q : K} {l : List N} (h : ListOK s q l) (k : N) :
    k ∈ l ↔ (s.node k).parent = some q :=
  ⟨fun hk => Seg.parent l _ _ _ _ h.1 k hk, h.2.2.2 k⟩

theorem wellFormed_iff (s : Heap N K) : WellFormed s ↔ ∀ q, ∃ l, ListOK s q l := by
  constructor
  · intro h q
    exact ⟨_, h q⟩
  · intro h q
    obtain ⟨l, hl⟩ := h q
    rw [hl.walk_eq]
    exact hl

theorem WellFormed.listOK {s : Heap N K} (h : WellFormed s) {q : K} {l : List N}
    (ht : Traversal s q l) : ListOK s q l := by
  obtain ⟨l', hl'⟩ := (wellFormed_iff s).mp h q
  rw [hl'.unique ht]
  exact hl'

theorem ListOK.frame {s s' : Heap N K} {q : K} {l : List N} (h : ListOK s q l)
    (hlist : s'.list q = s.list q)
    (hnode : ∀ k ∈ l, (s'.node k).prev = (s.node k).prev ∧ (s'.node k).next = (s.node k).next ∧
      (s'.node k).parent = (s.node k).parent)
    (hpar : ∀ k, (s'.node k).parent = some q → (s.node k).parent = some q) :
    ListOK s' q l := by
  refine ⟨?_, ?_, h.2.2.1, fun k hk => h.2.2.2 k (hpar k hk)⟩
  · rw [hlist]
    exact Seg.congr l _ _ _ _ hnode h.1
  · rw [hlist]
    exact h.2.1

/-- UNLINK_NODE(n) leaves a list alone when `n` and its two neighbours are not on it. -/
theorem unlink_frame {s : Heap N K} {q : K} {l : List N} (n : N) (h : ListOK s q l)
    (hn : (s.node n).parent ≠ some q)
    (hx : ∀ k, (s.node n).prev = some k → (s.node k).parent ≠ some q)
    (hy : ∀ k, (s.node n).next = some k → (s.node k).parent ≠ some q) :
    ListOK (UNLINK_NODE s (some n)) q l := by
  apply h.frame
  · rw [UNLINK_NODE_list]
    unfold unlinkList
    simp [hn]
  · intro k hk
    have hkq := (h.mem_iff k).mp hk
    have hkn : ¬ k = n := fun e => hn (e ▸ hkq)
    have h1 : ¬ (s.node n).next = some k := fun e => hy k e hkq
    have h2 : ¬ (s.node n).prev = some k := fun e => hx k e hkq
    rw [UNLINK_NODE_node]
    unfold spliceOut
    simp [hkn, h1, h2]
  · intro k
    rw [UNLINK_NODE_node]
    unfold spliceOut
    by_cases hkn : k = n <;> simp [hkn]

/-- UNLINK_NODE(n) removes `n` from the list that owns it and keeps the rest in order. -/
theorem unlink_owned {s : Heap N K} {q : K} {l : List N} (n : N) (h : ListOK s q l)
    (hn : (s.node n).parent = some q) :
    ListOK (UNLINK_NODE s (some n)) q (l.erase n) := by
  have hmem : n ∈ l := h.2.2.2 n hn
  have hnd := h.nodup
  obtain ⟨l1, l2, rfl⟩ := List.append_of_mem hmem
  have hnd1 := List.nodup_append.mp hnd
  have hnd2 := List.nodup_cons.mp hnd1.2.1
  have hn1 : n ∉ l1 := fun hh => hnd1.2.2 hh (List.mem_cons_self n l2)
  have hdis : ∀ k, k ∈ l1 → k ∉ l2 :=
    fun k hk hk2 => hnd1.2.2 hk (List.mem_cons_of_mem n hk2)
  have herase : (l1 ++ n :: l2).erase n = l1 ++ l2 := by
    rw [List.erase_append_right _ hn1, List.erase_cons_head]
  obtain ⟨m, c, hs1, hs2⟩ := (Seg.append l1 (n :: l2) _ _ _ _).mp h.1
  unfold Seg at hs2
  obtain ⟨hc, hm, -, hs3⟩ := hs2
  subst hc
  subst hm
  rw [herase]
  have hlen : (l1 ++ n :: l2).length = (l1 ++ l2).length + 1 := by simp; omega
  refine ⟨?_, ?_, ?_, ?_⟩
  · rw [UNLINK_NODE_list, UNLINK_NODE_node]
    refine (Seg.append l1 l2 _ _ _ _).mpr ⟨(s.node n).prev, (s.node n).next, ?_, ?_⟩
    · have key := Seg.relink_last (spliceOut s.node n) l1 none (s.list q).head (s.node n).prev
        (some n) (s.node n).next hnd1.1 hs1 (by
          intro k hk
          have hkn : ¬ k = n := fun e => hn1 (e ▸ hk)
          have h1 : ¬ (s.node n).next = some k := by
            intro e
            rcases Seg.cur_cases l2 _ _ _ _ hs3 with ⟨-, e2⟩ | ⟨-, a, ha, e2⟩
            · rw [e2] at e; exact absurd e (by simp)
            · rw [e2] at e
              exact hdis k hk (Option.some.inj e ▸ ha)
          unfold spliceOut
          simp [hkn, h1])
      have hh : (unlinkList s n q).head = if l1 = [] then (s.node n).next else (s.list q).head := by
        unfold unlinkList
        rcases Seg.cur_cases l1 _ _ _ _ hs1 with ⟨e1, e2⟩ | ⟨e1, a, ha, e2⟩
        · simp [hn, e1, e2]
        · have han : ¬ a = n := fun e => hn1 (e ▸ ha)
          simp [hn, e1, e2, han]
      rw [hh]
      exact key
    · have key := Seg.relink_first (spliceOut s.node n) l2 (some n) (s.node n).prev (s.node n).next
        (s.list q).tail none hnd2.2 hs3 (by
          intro k hk
          have hkn : ¬ k = n := fun e => hnd2.1 (e ▸ hk)
          have h1 : ¬ (s.node n).prev = some k := by
            intro e
            rcases Seg.last_cases l1 _ _ _ _ hs1 with ⟨-, e2⟩ | ⟨-, a, ha, e2⟩
            · rw [e2] at e; exact absurd e (by simp)
            · rw [e2] at e
              exact hdis a ha (Option.some.inj e ▸ hk)
          unfold spliceOut
          simp [hkn, h1])
      have ht : (unlinkList s n q).tail = if l2 = [] then (s.node n).prev else (s.list q).tail := by
        unfold unlinkList
        rcases Seg.last_cases l2 _ _ _ _ hs3 with ⟨e1, e2⟩ | ⟨e1, a, ha, e2⟩
        · simp [hn, e1, e2]
        · have han : ¬ a = n := fun e => hnd2.1 (e ▸ ha)
          simp [hn, e1, e2, han]
      rw [ht]
      exact key
  · rw [UNLINK_NODE_list]
    unfold unlinkList
    simp only [hn, if_true]
    have h2 := h.2.1
    have h3 := h.2.2.1
    rw [decr_of_pos _ (by omega) (by omega)]
    omega
  · have h3 := h.2.2.1
    omega
  · intro k
    rw [UNLINK_NODE_node]
    unfold spliceOut
    by_cases hkn : k = n
    · simp [hkn]
    · simp only [hkn, if_false]
      intro hk
      have := h.2.2.2 k hk
      rw [List.mem_append] at this ⊢
      rcases this with h1 | h1
      · exact Or.inl h1
      · rcases List.mem_cons.mp h1 with h1 | h1
        · exact absurd h1 hkn
        · exact Or.inr h1

end listok

/-! ## Splitting a list at a node, and inserting a node -/

section insertion

/-- The list around one of its nodes: the part before it ends at `prev`, the part after it
starts at `next`. -/
theorem ListOK.split {s : Heap N K} {q : K} {l : List N} (h : ListOK s q l) (n : N)
    (hn : (s.node n).parent = some q) :
    ∃ l1 l2, l = l1 ++ n :: l2 ∧ n ∉ l1 ∧ n ∉ l2 ∧ (∀ k, k ∈ l1 → k ∉ l2) ∧
      Seg s.node q none (s.list q).head l1 (s.node n).prev (some n) ∧
      Seg s.node q (some n) (s.node n).next l2 (s.list q).tail none := by
  have hmem : n ∈ l := h.2.2.2 n hn
  have hnd := h.nodup
  obtain ⟨l1, l2, rfl⟩ := List.append_of_mem hmem
  have hnd1 := List.nodup_append.mp hnd
  have hnd2 := List.nodup_cons.mp hnd1.2.1
  obtain ⟨m, c, hs1, hs2⟩ := (Seg.append l1 (n :: l2) _ _ _ _).mp h.1
  unfold Seg at hs2
  obtain ⟨hc, hm, -, hs3⟩ := hs2
  subst hc
  subst hm
  exact ⟨l1, l2, rfl, fun hh => hnd1.2.2 hh (List.mem_cons_self n l2), hnd2.1,
    fun k hk hk2 => hnd1.2.2 hk (List.mem_cons_of_mem n hk2), hs1, hs3⟩

theorem ListOK.prev_owner {s : Heap N K} {q : K} {l : List N} (h : ListOK s q l) (n k : N)
    (hn : (s.node n).parent = some q) (hk : (s.node n).prev = some k) :
    (s.node k).parent = some q := by
  obtain ⟨l1, l2, -, -, -, -, hs1, -⟩ := h.split n hn
  rcases Seg.last_cases l1 _ _ _ _ hs1 with ⟨-, e2⟩ | ⟨-, a, ha, e2⟩
  · rw [e2] at hk; exact absurd hk (by simp)
  · rw [e2] at hk
    exact Option.some.inj hk ▸ Seg.parent l1 _ _ _ _ hs1 a ha

theorem ListOK.next_owner {s : Heap N K} {q : K} {l : List N} (h : ListOK s q l) (n k : N)
    (hn : (s.node n).parent = some q) (hk : (s.node n).next = some k) :
    (s.node k).parent = some q := by
  obtain ⟨l1, l2, -, -, -, -, -, hs2⟩ := h.split n hn
  rcases Seg.cur_cases l2 _ _ _ _ hs2 with ⟨-, e2⟩ | ⟨-, a, ha, e2⟩
  · rw [e2] at hk; exact absurd hk (by simp)
  · rw [e2] at hk
    exact Option.some.inj hk ▸ Seg.parent l2 _ _ _ _ hs2 a ha

/-- UNLINK_NODE(n) erases `n` from every list (it is on at most one). -/
theorem unlink_listOK {s : Heap N K} (hwf : WellFormed s) (n : N) (hfn : FreeNeighbours s n)
    {q : K} {l : List N} (h : ListOK s q l) :
    ListOK (UNLINK_NODE s (some n)) q (l.erase n) := by
  by_cases hq : (s.node n).parent = some q
  · exact unlink_owned n h hq
  · have hnl : n ∉ l := fun hh => hq ((h.mem_iff n).mp hh)
    rw [List.erase_of_not_mem hnl]
    rcases hp : (s.node n).parent with _ | r
    · apply unlink_frame n h hq
      · intro k hk
        rw [hfn hp k (Or.inl hk)]
        simp
      · intro k hk
        rw [hfn hp k (Or.inr hk)]
        simp
    · obtain ⟨lr, hr⟩ := (wellFormed_iff s).mp hwf r
      have hrq : r ≠ q := fun e => hq (e ▸ hp)
      apply unlink_frame n h hq
      · intro k hk
        rw [hr.prev_owner n k hp hk]
        simpa using hrq
      · intro k hk
        rw [hr.next_owner n k hp hk]
        simpa using hrq

theorem unlink_wellFormed {s : Heap N K} (hwf : WellFormed s) (n : N)
    (hfn : FreeNeighbours s n) : WellFormed (UNLINK_NODE s (some n)) := by
  rw [wellFormed_iff]
  intro q
  obtain ⟨l, hl⟩ := (wellFormed_iff s).mp hwf q
  exact ⟨_, unlink_listOK hwf n hfn hl⟩

theorem unlink_isolated (s : Heap N K) (n : N) : Isolated (UNLINK_NODE s (some n)) n := by
  unfold Isolated
  rw [UNLINK_NODE_node]
  unfold spliceOut
  simp

/-- Inserting the unowned node `n` between the two parts `l1` and `l2` of a list. -/
theorem insert_ok (s s' : Heap N K) (q : K) (l1 l2 : List N) (n : N) (m c : Option N)
    (h1 : Seg s.node q none (s.list q).head l1 m c)
    (h2 : Seg s.node q m c l2 (s.list q).tail none)
    (hnd : (l1 ++ l2).Nodup)
    (hlen : (s.list q).count = (l1 ++ l2).length) (hroom : (s.list q).count < SIZE_MAX)
    (hown : ∀ k, (s.node k).parent = some q → k ∈ l1 ++ l2)
    (hn : (s.node n).parent ≠ some q)
    (hnode : s'.node = spliceIn s.node n m c (some q))
    (hhead : (s'.list q).head = if l1 = [] then some n else (s.list q).head)
    (htail : (s'.list q).tail = if l2 = [] then some n else (s.list q).tail)
    (hcount : (s'.list q).count = incr (s.list q).count) :
    ListOK s' q (l1 ++ n :: l2) := by
  have hnd1 := List.nodup_append.mp hnd
  have hn1 : n ∉ l1 := fun hh => hn (Seg.parent l1 _ _ _ _ h1 n hh)
  have hn2 : n ∉ l2 := fun hh => hn (Seg.parent l2 _ _ _ _ h2 n hh)
  have hcne : ∀ k, k ∈ l1 → ¬ c = some k := by
    intro k hk e
    rcases Seg.cur_cases l2 _ _ _ _ h2 with ⟨-, e2⟩ | ⟨-, a, ha, e2⟩
    · rw [e2] at e; exact absurd e (by simp)
    · rw [e2] at e
      exact hnd1.2.2 hk (Option.some.inj e ▸ ha)
  have hmne : ∀ k, k ∈ l2 → ¬ m = some k := by
    intro k hk e
    rcases Seg.last_cases l1 _ _ _ _ h1 with ⟨-, e2⟩ | ⟨-, a, ha, e2⟩
    · rw [e2] at e; exact absurd e (by simp)
    · rw [e2] at e
      exact hnd1.2.2 ha (Option.some.inj e ▸ hk)
  refine ⟨?_, ?_, ?_, ?_⟩
  · refine (Seg.append l1 (n :: l2) _ _ _ _).mpr ⟨m, some n, ?_, ?_⟩
    · have key := Seg.relink_last (s'.node) l1 none (s.list q).head m c (some n)
        hnd1.1 h1 (by
          intro k hk
          have hkn : ¬ k = n := fun e => hn1 (e ▸ hk)
          rw [hnode]
          unfold spliceIn
          simp [hkn, hcne k hk])
      rw [hhead]
      exact key
    · unfold Seg
      refine ⟨rfl, by rw [hnode]; unfold spliceIn; simp, by rw [hnode]; unfold spliceIn; simp, ?_⟩
      have key := Seg.relink_first (s'.node) l2 m (some n) c (s.list q).tail none
        hnd1.2.1 h2 (by
          intro k hk
          have hkn : ¬ k = n := fun e => hn2 (e ▸ hk)
          rw [hnode]
          unfold spliceIn
          simp [hkn, hmne k hk])
      have hc' : (s'.node n).next = c := by rw [hnode]; unfold spliceIn; simp
      rw [htail, hc']
      exact key
  · rw [hcount, incr_of_lt _ hroom, hlen]
    simp
    omega
  · have : (l1 ++ n :: l2).length = (l1 ++ l2).length + 1 := by simp; omega
    omega
  · intro k
    rw [hnode]
    unfold spliceIn
    by_cases hkn : k = n
    · subst hkn; intro _; simp
    · simp only [hkn, if_false]
      intro hk
      have := hown k hk
      rw [List.mem_append] at this ⊢
      rcases this with h | h
      · exact Or.inl h
      · exact Or.inr (List.mem_cons_of_mem n h)

/-- A list is untouched by an insertion that involves none of its nodes. -/
theorem splice_frame {s s' : Heap N K} {q : K} {l : List N} (h : ListOK s q l)
    (n : N) (m c : Option N) (par : Option K)
    (hnode : s'.node = spliceIn s.node n m c par)
    (hlist : s'.list q = s.list q)
    (hpar : par ≠ some q) (hn : (s.node n).parent ≠ some q)
    (hm : ∀ k, m = some k → (s.node k).parent ≠ some q)
    (hc : ∀ k, c = some k → (s.node k).parent ≠ some q) :
    ListOK s' q l := by
  apply h.frame hlist
  · intro k hk
    have hkq := (h.mem_iff k).mp hk
    have hkn : ¬ k = n := fun e => hn (e ▸ hkq)
    have h1 : ¬ m = some k := fun e => hm k e hkq
    have h2 : ¬ c = some k := fun e => hc k e hkq
    rw [hnode]
    unfold spliceIn
    simp [hkn, h1, h2]
  · intro k
    rw [hnode]
    unfold spliceIn
    by_cases hkn : k = n
    · simp only [hkn, if_true]
      intro e
      exact absurd e hpar
    · simp [hkn]

end insertion

/-! ## The four link macros on an unlinked node -/

section linkbodies

theorem insertBefore_split (n p : N) : ∀ (l1 l2 : List N), p ∉ l1 →
    insertBefore n p (l1 ++ p :: l2) = l1 ++ n :: p :: l2 := by
  intro l1
  induction l1 with
  | nil => intro l2 _; simp [insertBefore]
  | cons a l1 ih =>
    intro l2 h
    have hap : ¬ a = p := fun e => h (e ▸ List.mem_cons_self a l1)
    have h' : p ∉ l1 := fun e => h (List.mem_cons_of_mem a e)
    simp [insertBefore, hap, ih l2 h']

theorem insertAfter_split (n p : N) : ∀ (l1 l2 : List N), p ∉ l1 →
    insertAfter n p (l1 ++ p :: l2) = l1 ++ p :: n :: l2 := by
  intro l1
  induction l1 with
  | nil => intro l2 _; simp [insertAfter]
  | cons a l1 ih =>
    intro l2 h
    have hap : ¬ a = p := fun e => h (e ▸ List.mem_cons_self a l1)
    have h' : p ∉ l1 := fun e => h (List.mem_cons_of_mem a e)
    simp [insertAfter, hap, ih l2 h']

theorem ListOK.head_ne {s : Heap N K} {q : K} {l : List N} (h : ListOK s q l) (n : N)
    (hn : (s.node n).parent ≠ some q) : (s.list q).head ≠ some n := by
  intro e
  rcases Seg.cur_cases l _ _ _ _ h.1 with ⟨-, e2⟩ | ⟨-, a, ha, e2⟩
  · rw [e2] at e; exact absurd e (by simp)
  · rw [e2] at e
    exact hn (Option.some.inj e ▸ (h.mem_iff a).mp ha)

theorem ListOK.tail_ne {s : Heap N K} {q : K} {l : List N} (h : ListOK s q l) (n : N)
    (hn : (s.node n).parent ≠ some q) : (s.list q).tail ≠ some n := by
  intro e
  rcases Seg.last_cases l _ _ _ _ h.1 with ⟨-, e2⟩ | ⟨-, a, ha, e2⟩
  · rw [e2] at e; exact absurd e (by simp)
  · rw [e2] at e
    exact hn (Option.some.inj e ▸ (h.mem_iff a).mp ha)

theorem ListOK.tail_none_iff {s : Heap N K} {q : K} {l : List N} (h : ListOK s q l) :
    (s.list q).tail = none ↔ l = [] := by
  rcases Seg.last_cases l _ _ _ _ h.1 with ⟨e1, e2⟩ | ⟨e1, a, ha, e2⟩
  · simp [e1, e2]
  · simp [e1, e2]

theorem ListOK.head_none_iff {s : Heap N K} {q : K} {l : List N} (h : ListOK s q l) :
    (s.list q).head = none ↔ l = [] := by
  rcases Seg.cur_cases l _ _ _ _ h.1 with ⟨e1, e2⟩ | ⟨e1, a, ha, e2⟩
  · simp [e1, e2]
  · simp [e1, e2]

theorem ListOK.head_parent {s : Heap N K} {q : K} {l : List N} (h : ListOK s q l) (k : N)
    (hk : (s.list q).head = some k) : (s.node k).parent = some q := by
  rcases Seg.cur_cases l _ _ _ _ h.1 with ⟨-, e2⟩ | ⟨-, a, ha, e2⟩
  · rw [e2] at hk; exact absurd hk (by simp)
  · rw [e2] at hk
    exact Option.some.inj hk ▸ (h.mem_iff a).mp ha

theorem ListOK.tail_parent {s : Heap N K} {q : K} {l : List N} (h : ListOK s q l) (k : N)
    (hk : (s.list q).tail = some k) : (s.node k).parent = some q := by
  rcases Seg.last_cases l _ _ _ _ h.1 with ⟨-, e2⟩ | ⟨-, a, ha, e2⟩
  · rw [e2] at hk; exact absurd hk (by simp)
  · rw [e2] at hk
    exact Option.some.inj hk ▸ (h.mem_iff a).mp ha

theorem linkFirst_ok {t : Heap N K} {q : K} {l : List N} (n : N) (h : ListOK t q l)
    (hn : (t.node n).parent ≠ some q) (hroom : (t.list q).count < SIZE_MAX) :
    ListOK (linkFirst t n q) q (n :: l) := by
  have key := insert_ok t (linkFirst t n q) q [] l n none (t.list q).head
    (by unfold Seg; exact ⟨rfl, rfl⟩) h.1 (by simpa using h.nodup) (by simpa using h.2.1) hroom
    (by simpa using h.2.2.2) hn (linkFirst_node t n q (h.head_ne n hn))
    (by rw [linkFirst_list]; simp)
    (by
      rw [linkFirst_list]
      by_cases hl : l = []
      · simp [hl, h.tail_none_iff.mpr hl]
      · have : ¬ (t.list q).tail = none := fun e => hl (h.tail_none_iff.mp e)
        simp [hl, this])
    (by rw [linkFirst_list]; simp)
  simpa using key

theorem linkLast_ok {t : Heap N K} {q : K} {l : List N} (n : N) (h : ListOK t q l)
    (hn : (t.node n).parent ≠ some q) (hroom : (t.list q).count < SIZE_MAX) :
    ListOK (linkLast t n q) q (l ++ [n]) := by
  have key := insert_ok t (linkLast t n q) q l [] n (t.list q).tail none
    h.1 (by unfold Seg; exact ⟨rfl, rfl⟩) (by simpa using h.nodup) (by simpa using h.2.1) hroom
    (by simpa using h.2.2.2) hn (linkLast_node t n q (h.tail_ne n hn))
    (by
      rw [linkLast_list]
      by_cases hl : l = []
      · simp [hl, h.head_none_iff.mpr hl]
      · have : ¬ (t.list q).head = none := fun e => hl (h.head_none_iff.mp e)
        simp [hl, this])
    (by rw [linkLast_list]; simp)
    (by rw [linkLast_list]; simp)
  exact key

theorem linkFirst_other {t : Heap N K} {q r : K} {l lq : List N} (n : N) (h : ListOK t r l)
    (hq : ListOK t q lq) (hrq : r ≠ q) (hn : (t.node n).parent = none) :
    ListOK (linkFirst t n q) r l := by
  have hn' : (t.node n).parent ≠ some q := by rw [hn]; simp
  apply splice_frame h n none (t.list q).head (some q) (linkFirst_node t n q (hq.head_ne n hn'))
  · rw [linkFirst_list]; simp [hrq]
  · intro e; exact hrq (Option.some.inj e).symm
  · rw [hn]; simp
  · intro k hk; exact absurd hk (by simp)
  · intro k hk
    rw [hq.head_parent k hk]
    intro e; exact hrq (Option.some.inj e).symm

theorem linkLast_other {t : Heap N K} {q r : K} {l lq : List N} (n : N) (h : ListOK t r l)
    (hq : ListOK t q lq) (hrq : r ≠ q) (hn : (t.node n).parent = none) :
    ListOK (linkLast t n q) r l := by
  have hn' : (t.node n).parent ≠ some q := by rw [hn]; simp
  apply splice_frame h n (t.list q).tail none (some q) (linkLast_node t n q (hq.tail_ne n hn'))
  · rw [linkLast_list]; simp [hrq]
  · intro e; exact hrq (Option.some.inj e).symm
  · rw [hn]; simp
  · intro k hk
    rw [hq.tail_parent k hk]
    intro e; exact hrq (Option.some.inj e).symm
  · intro k hk; exact absurd hk (by simp)

theorem linkBefore_ok {t : Heap N K} {q : K} {l : List N} (n p : N) (h : ListOK t q l)
    (hp : (t.node p).parent = some q) (hn : (t.node n).parent ≠ some q)
    (hroom : (t.list q).count < SIZE_MAX) :
    ListOK (linkBefore t n p) q (insertBefore n p l) := by
  have hnp : n ≠ p := fun e => hn (e ▸ hp)
  obtain ⟨l1, l2, rfl, hp1, hp2, hdis, hs1, hs2⟩ := h.split p hp
  have hne : (t.node p).prev ≠ some n := by
    intro e
    rcases Seg.last_cases l1 _ _ _ _ hs1 with ⟨-, e2⟩ | ⟨-, a, ha, e2⟩
    · rw [e2] at e; exact absurd e (by simp)
    · rw [e2] at e
      exact hn (Option.some.inj e ▸ Seg.parent l1 _ _ _ _ hs1 a ha)
  have key := insert_ok t (linkBefore t n p) q l1 (p :: l2) n
    (t.node p).prev (some p) hs1 (by unfold Seg; exact ⟨rfl, rfl, hp, hs2⟩) h.nodup h.2.1 hroom
    h.2.2.2 hn (by rw [linkBefore_node t n p hnp hne, hp])
    (by
      rw [linkBefore_list t n p hnp]
      unfold beforeList
      rcases Seg.cur_cases l1 _ _ _ _ hs1 with ⟨e1, e2⟩ | ⟨e1, a, ha, e2⟩
      · simp [hp, e1, e2]
      · have hap : ¬ a = p := fun e => hp1 (e ▸ ha)
        simp [hp, e1, e2, hap])
    (by rw [linkBefore_list t n p hnp]; unfold beforeList; simp [hp])
    (by rw [linkBefore_list t n p hnp]; unfold beforeList; simp [hp])
  rw [insertBefore_split n p l1 l2 hp1]
  exact key

theorem linkAfter_ok {t : Heap N K} {q : K} {l : List N} (n p : N) (h : ListOK t q l)
    (hp : (t.node p).parent = some q) (hn : (t.node n).parent ≠ some q)
    (hroom : (t.list q).count < SIZE_MAX) :
    ListOK (linkAfter t n p) q (insertAfter n p l) := by
  have hnp : n ≠ p := fun e => hn (e ▸ hp)
  obtain ⟨l1, l2, rfl, hp1, hp2, hdis, hs1, hs2⟩ := h.split p hp
  have hne : (t.node p).next ≠ some n := by
    intro e
    rcases Seg.cur_cases l2 _ _ _ _ hs2 with ⟨-, e2⟩ | ⟨-, a, ha, e2⟩
    · rw [e2] at e; exact absurd e (by simp)
    · rw [e2] at e
      exact hn (Option.some.inj e ▸ Seg.parent l2 _ _ _ _ hs2 a ha)
  have e0 : (l1 ++ [p]) ++ l2 = l1 ++ p :: l2 := by simp
  have key := insert_ok t (linkAfter t n p) q (l1 ++ [p]) l2 n
    (some p) (t.node p).next
    ((Seg.append l1 [p] _ _ _ _).mpr ⟨(t.node p).prev, some p, hs1, by
      unfold Seg; exact ⟨rfl, rfl, hp, by unfold Seg; exact ⟨rfl, rfl⟩⟩⟩)
    hs2 (by rw [e0]; exact h.nodup) (by rw [e0]; exact h.2.1) hroom
    (by rw [e0]; exact h.2.2.2) hn (by rw [linkAfter_node t n p hnp hne, hp])
    (by rw [linkAfter_list t n p hnp]; unfold afterList; simp [hp])
    (by
      rw [linkAfter_list t n p hnp]
      unfold afterList
      rcases Seg.last_cases l2 _ _ _ _ hs2 with ⟨e1, e2⟩ | ⟨e1, a, ha, e2⟩
      · simp [hp, e1, e2]
      · have hap : ¬ a = p := fun e => hp2 (e ▸ ha)
        simp [hp, e1, e2, hap])
    (by rw [linkAfter_list t n p hnp]; unfold afterList; simp [hp])
  rw [insertAfter_split n p l1 l2 hp1]
  simpa using key

theorem linkBefore_other {t : Heap N K} {r : K} {l : List N} (n p : N) (h : ListOK t r l)
    (hnp : n ≠ p) (hne : (t.node p).prev ≠ some n) (hpr : (t.node p).parent ≠ some r)
    (hn : (t.node n).parent ≠ some r)
    (hm : ∀ k, (t.node p).prev = some k → (t.node k).parent ≠ some r) :
    ListOK (linkBefore t n p) r l := by
  apply splice_frame h n (t.node p).prev (some p) (t.node p).parent
    (linkBefore_node t n p hnp hne)
  · rw [linkBefore_list t n p hnp]; unfold beforeList; simp [hpr]
  · exact hpr
  · exact hn
  · exact hm
  · intro k hk
    rw [← Option.some.inj hk]
    exact hpr

theorem linkAfter_other {t : Heap N K} {r : K} {l : List N} (n p : N) (h : ListOK t r l)
    (hnp : n ≠ p) (hne : (t.node p).next ≠ some n) (hpr : (t.node p).parent ≠ some r)
    (hn : (t.node n).parent ≠ some r)
    (hm : ∀ k, (t.node p).next = some k → (t.node k).parent ≠ some r) :
    ListOK (linkAfter t n p) r l := by
  apply splice_frame h n (some p) (t.node p).next (t.node p).parent
    (linkAfter_node t n p hnp hne)
  · rw [linkAfter_list t n p hnp]; unfold afterList; simp [hpr]
  · exact hpr
  · exact hn
  · intro k hk
    rw [← Option.some.inj hk]
    exact hpr
  · exact hm

end linkbodies

/-! ## Mutual links -/

section linksym

theorem LinkSym.next_prev {s : Heap N K} (h : LinkSym s) {a b : N}
    (e : (s.node a).next = some b) : (s.node b).prev = some a :=
  (h a b).1.mp e

theorem LinkSym.prev_next {s : Heap N K} (h : LinkSym s) {a b : N}
    (e : (s.node b).prev = some a) : (s.node a).next = some b :=
  (h a b).1.mpr e

theorem LinkSym.next_parent {s : Heap N K} (h : LinkSym s) {a b : N}
    (e : (s.node a).next = some b) : (s.node a).parent = (s.node b).parent :=
  (h a b).2 e

theorem LinkSym.prev_parent {s : Heap N K} (h : LinkSym s) {a b : N}
    (e : (s.node b).prev = some a) : (s.node a).parent = (s.node b).parent :=
  (h a b).2 (h.prev_next e)

theorem LinkSym.freeNeighbours {s : Heap N K} (h : LinkSym s) (n : N) : FreeNeighbours s n := by
  intro hp k hk
  rcases hk with hk | hk
  · rw [h.prev_parent hk, hp]
  · rw [← h.next_parent hk, hp]

theorem Isolated.free_of_isolated {s : Heap N K} {n : N} (h : Isolated s n) :
    FreeNeighbours s n := by
  intro _ k hk
  rcases hk with hk | hk
  · rw [h.2.1] at hk; exact absurd hk (by simp)
  · rw [h.2.2] at hk; exact absurd hk (by simp)

/-- Splicing a node out keeps links mutual. -/
theorem linkSym_spliceOut {s s' : Heap N K} (h : LinkSym s) (n : N)
    (hnode : s'.node = spliceOut s.node n) : LinkSym s' := by
  have hnx : ∀ a, ((s'.node a).next = if a = n then none else
      if (s.node n).prev = some a then (s.node n).next else (s.node a).next) := by
    intro a; rw [hnode]; unfold spliceOut; by_cases e : a = n <;> simp [e]
  have hpv : ∀ b, ((s'.node b).prev = if b = n then none else
      if (s.node n).next = some b then (s.node n).prev else (s.node b).prev) := by
    intro b; rw [hnode]; unfold spliceOut; by_cases e : b = n <;> simp [e]
  have hpa : ∀ a, a ≠ n → (s'.node a).parent = (s.node a).parent := by
    intro a e; rw [hnode]; unfold spliceOut; simp [e]
  -- the forward direction, with the facts it establishes on the way
  have fwd : ∀ a b, (s'.node a).next = some b →
      a ≠ n ∧ b ≠ n ∧ (s'.node b).prev = some a ∧ (s.node a).parent = (s.node b).parent := by
    intro a b e
    rw [hnx] at e
    by_cases han : a = n
    · simp [han] at e
    · simp only [han, if_false] at e
      by_cases hxa : (s.node n).prev = some a
      · simp only [hxa, if_true] at e
        have hbn : b ≠ n := by
          intro ebn
          rw [ebn] at e
          have := h.next_prev e
          rw [hxa] at this
          exact han (Option.some.inj this)
        refine ⟨han, hbn, ?_, ?_⟩
        · rw [hpv]; simp [hbn, e, hxa]
        · rw [h.prev_parent hxa, h.next_parent e]
      · simp only [hxa, if_false] at e
        have hbn : b ≠ n := by
          intro ebn
          rw [ebn] at e
          exact hxa (h.next_prev e)
        have hyb : ¬ (s.node n).next = some b := by
          intro ey
          have h1 := h.next_prev ey
          have h2 := h.next_prev e
          rw [h1] at h2
          exact han (Option.some.inj h2).symm
        refine ⟨han, hbn, ?_, h.next_parent e⟩
        rw [hpv]; simp [hbn, hyb, h.next_prev e]
  intro a b
  refine ⟨⟨fun e => (fwd a b e).2.2.1, ?_⟩, ?_⟩
  · intro e
    rw [hpv] at e
    by_cases hbn : b = n
    · simp [hbn] at e
    · simp only [hbn, if_false] at e
      by_cases hyb : (s.node n).next = some b
      · simp only [hyb, if_true] at e
        have han : a ≠ n := by
          intro ean
          rw [ean] at e
          have := h.prev_next e
          rw [hyb] at this
          exact hbn (Option.some.inj this)
        rw [hnx]; simp [han, e, hyb]
      · simp only [hyb, if_false] at e
        have han : a ≠ n := by
          intro ean
          rw [ean] at e
          exact hyb (h.prev_next e)
        have hxa : ¬ (s.node n).prev = some a := by
          intro ex
          have h1 := h.prev_next ex
          have h2 := h.prev_next e
          rw [h1] at h2
          exact hbn (Option.some.inj h2).symm
        rw [hnx]; simp [han, hxa, h.prev_next e]
  · intro e
    obtain ⟨han, hbn, -, hp⟩ := fwd a b e
    rw [hpa a han, hpa b hbn]
    exact hp

/-- Splicing an isolated node in between two adjacent places keeps links mutual. -/
theorem linkSym_spliceIn {s s' : Heap N K} (h : LinkSym s) (n : N) (m c : Option N)
    (par : Option K) (hnp : (s.node n).prev = none) (hnn : (s.node n).next = none)
    (hm : ∀ a, m = some a → a ≠ n ∧ (s.node a).next = c ∧ (s.node a).parent = par)
    (hc : ∀ b, c = some b → b ≠ n ∧ (s.node b).prev = m ∧ (s.node b).parent = par)
    (hnode : s'.node = spliceIn s.node n m c par) : LinkSym s' := by
  have hnx : ∀ a, ((s'.node a).next = if a = n then c else
      if m = some a then some n else (s.node a).next) := by
    intro a; rw [hnode]; unfold spliceIn; by_cases e : a = n <;> simp [e]
  have hpv : ∀ b, ((s'.node b).prev = if b = n then m else
      if c = some b then some n else (s.node b).prev) := by
    intro b; rw [hnode]; unfold spliceIn; by_cases e : b = n <;> simp [e]
  have hpa : ∀ a, (s'.node a).parent = if a = n then par else (s.node a).parent := by
    intro a; rw [hnode]; unfold spliceIn; by_cases e : a = n <;> simp [e]
  have no_next : ∀ a, ¬ (s.node a).next = some n := by
    intro a e
    have := h.next_prev e
    rw [hnp] at this
    exact absurd this (by simp)
  have no_prev : ∀ b, ¬ (s.node b).prev = some n := by
    intro b e
    have := h.prev_next e
    rw [hnn] at this
    exact absurd this (by simp)
  intro a b
  refine ⟨⟨?_, ?_⟩, ?_⟩
  · intro e
    rw [hnx] at e
    rw [hpv]
    by_cases han : a = n
    · simp only [han, if_true] at e
      have hbn := (hc b e).1
      simp [hbn, e, han]
    · simp only [han, if_false] at e
      by_cases hma : m = some a
      · simp only [hma, if_true] at e
        have hbn : b = n := (Option.some.inj e).symm
        simp [hbn, hma]
      · simp only [hma, if_false] at e
        have hbn : b ≠ n := fun ebn => no_next a (ebn ▸ e)
        have hcb : ¬ c = some b := by
          intro ec
          have := (hc b ec).2.1
          rw [h.next_prev e] at this
          exact hma this.symm
        simp [hbn, hcb, h.next_prev e]
  · intro e
    rw [hpv] at e
    rw [hnx]
    by_cases hbn : b = n
    · simp only [hbn, if_true] at e
      have han := (hm a e).1
      simp [han, e, hbn]
    · simp only [hbn, if_false] at e
      by_cases hcb : c = some b
      · simp only [hcb, if_true] at e
        have han : a = n := (Option.some.inj e).symm
        simp [han, hcb]
      · simp only [hcb, if_false] at e
        have han : a ≠ n := fun ean => no_prev b (ean ▸ e)
        have hma : ¬ m = some a := by
          intro em
          have := (hm a em).2.1
          rw [h.prev_next e] at this
          exact hcb this.symm
        simp [han, hma, h.prev_next e]
  · intro e
    rw [hnx] at e
    rw [hpa, hpa]
    by_cases han : a = n
    · simp only [han, if_true] at e
      have hb := hc b e
      simp [han, hb.1, hb.2.2]
    · simp only [han, if_false] at e
      by_cases hma : m = some a
      · simp only [hma, if_true] at e
        have hbn : b = n := (Option.some.inj e).symm
        simp [han, hbn, (hm a hma).2.2]
      · simp only [hma, if_false] at e
        have hbn : b ≠ n := fun ebn => no_next a (ebn ▸ e)
        simp [han, hbn, h.next_parent e]

end linksym

/-! ## The macros keep lists consistent and links mutual -/

section invariants

theorem unlink_linkSym {s : Heap N K} (h : LinkSym s) (n : N) :
    LinkSym (UNLINK_NODE s (some n)) :=
  linkSym_spliceOut h n (UNLINK_NODE_node s n)

theorem Isolated.not_owned {s : Heap N K} {n : N} (h : Isolated s n) (q : K) :
    (s.node n).parent ≠ some q := by
  rw [h.1]; simp

theorem linkFirst_wf {t : Heap N K} (hwf : WellFormed t) (n : N) (q : K)
    (hn : (t.node n).parent = none) (hroom : (t.list q).count < SIZE_MAX) :
    WellFormed (linkFirst t n q) := by
  rw [wellFormed_iff]
  intro r
  obtain ⟨lq, hq⟩ := (wellFormed_iff t).mp hwf q
  by_cases hrq : r = q
  · subst hrq
    exact ⟨_, linkFirst_ok n hq (by rw [hn]; simp) hroom⟩
  · obtain ⟨l, hl⟩ := (wellFormed_iff t).mp hwf r
    exact ⟨_, linkFirst_other n hl hq hrq hn⟩

theorem linkLast_wf {t : Heap N K} (hwf : WellFormed t) (n : N) (q : K)
    (hn : (t.node n).parent = none) (hroom : (t.list q).count < SIZE_MAX) :
    WellFormed (linkLast t n q) := by
  rw [wellFormed_iff]
  intro r
  obtain ⟨lq, hq⟩ := (wellFormed_iff t).mp hwf q
  by_cases hrq : r = q
  · subst hrq
    exact ⟨_, linkLast_ok n hq (by rw [hn]; simp) hroom⟩
  · obtain ⟨l, hl⟩ := (wellFormed_iff t).mp hwf r
    exact ⟨_, linkLast_other n hl hq hrq hn⟩

theorem linkFirst_linkSym {t : Heap N K} (hwf : WellFormed t) (h : LinkSym t) (n : N) (q : K)
    (hn : Isolated t n) : LinkSym (linkFirst t n q) := by
  obtain ⟨lq, hq⟩ := (wellFormed_iff t).mp hwf q
  refine linkSym_spliceIn h n none (t.list q).head (some q) hn.2.1 hn.2.2 ?_ ?_
    (linkFirst_node t n q (hq.head_ne n (hn.not_owned q)))
  · intro a e; exact absurd e (by simp)
  · intro b e
    have hb := hq.head_parent b e
    refine ⟨fun ebn => hn.not_owned q (ebn ▸ hb), ?_, hb⟩
    have h1 := hq.1
    cases lq with
    | nil =>
      unfold Seg at h1
      rw [h1.1] at e
      exact absurd e (by simp)
    | cons a lq =>
      unfold Seg at h1
      have : b = a := Option.some.inj (e.symm.trans h1.1)
      rw [this]
      exact h1.2.1

theorem linkLast_linkSym {t : Heap N K} (hwf : WellFormed t) (h : LinkSym t) (n : N) (q : K)
    (hn : Isolated t n) : LinkSym (linkLast t n q) := by
  obtain ⟨lq, hq⟩ := (wellFormed_iff t).mp hwf q
  refine linkSym_spliceIn h n (t.list q).tail none (some q) hn.2.1 hn.2.2 ?_ ?_
    (linkLast_node t n q (hq.tail_ne n (hn.not_owned q)))
  · intro a e
    have ha := hq.tail_parent a e
    refine ⟨fun ean => hn.not_owned q (ean ▸ ha), ?_, ha⟩
    have hne : lq ≠ [] := by
      intro e0
      rw [hq.tail_none_iff.mpr e0] at e
      exact absurd e (by simp)
    exact Seg.next_last lq _ _ _ _ hq.1 hne a e
  · intro b e; exact absurd e (by simp)

theorem linkBefore_linkSym {t : Heap N K} (h : LinkSym t) (n p : N) (hnp : n ≠ p)
    (hn : Isolated t n) : LinkSym (linkBefore t n p) := by
  have hne : (t.node p).prev ≠ some n := by
    intro e
    have := h.prev_next e
    rw [hn.2.2] at this
    exact absurd this (by simp)
  refine linkSym_spliceIn h n (t.node p).prev (some p) (t.node p).parent hn.2.1 hn.2.2 ?_ ?_
    (linkBefore_node t n p hnp hne)
  · intro a e
    exact ⟨fun ean => hne (ean ▸ e), h.prev_next e, h.prev_parent e⟩
  · intro b e
    have : p = b := Option.some.inj e
    subst this
    exact ⟨fun e2 => hnp e2.symm, rfl, rfl⟩

theorem linkAfter_linkSym {t : Heap N K} (h : LinkSym t) (n p : N) (hnp : n ≠ p)
    (hn : Isolated t n) : LinkSym (linkAfter t n p) := by
  have hne : (t.node p).next ≠ some n := by
    intro e
    have := h.next_prev e
    rw [hn.2.1] at this
    exact absurd this (by simp)
  refine linkSym_spliceIn h n (some p) (t.node p).next (t.node p).parent hn.2.1 hn.2.2 ?_ ?_
    (linkAfter_node t n p hnp hne)
  · intro a e
    have : p = a := Option.some.inj e
    subst this
    exact ⟨fun e2 => hnp e2.symm, rfl, rfl⟩
  · intro b e
    exact ⟨fun ebn => hne (ebn ▸ e), h.next_prev e, (h.next_parent e).symm⟩

theorem linkBefore_wf {t : Heap N K} (hwf : WellFormed t) (h : LinkSym t) (n p : N)
    (hnp : n ≠ p) (hn : Isolated t n)
    (hroom : ∀ q, (t.node p).parent = some q → (t.list q).count < SIZE_MAX) :
    WellFormed (linkBefore t n p) := by
  rw [wellFormed_iff]
  intro r
  obtain ⟨l, hl⟩ := (wellFormed_iff t).mp hwf r
  by_cases hpr : (t.node p).parent = some r
  · exact ⟨_, linkBefore_ok n p hl hpr (hn.not_owned r) (hroom r hpr)⟩
  · refine ⟨l, linkBefore_other n p hl hnp ?_ hpr (hn.not_owned r) ?_⟩
    · intro e
      have := h.prev_next e
      rw [hn.2.2] at this
      exact absurd this (by simp)
    · intro k hk
      rw [h.prev_parent hk]
      exact hpr

theorem linkAfter_wf {t : Heap N K} (hwf : WellFormed t) (h : LinkSym t) (n p : N)
    (hnp : n ≠ p) (hn : Isolated t n)
    (hroom : ∀ q, (t.node p).parent = some q → (t.list q).count < SIZE_MAX) :
    WellFormed (linkAfter t n p) := by
  rw [wellFormed_iff]
  intro r
  obtain ⟨l, hl⟩ := (wellFormed_iff t).mp hwf r
  by_cases hpr : (t.node p).parent = some r
  · exact ⟨_, linkAfter_ok n p hl hpr (hn.not_owned r) (hroom r hpr)⟩
  · refine ⟨l, linkAfter_other n p hl hnp ?_ hpr (hn.not_owned r) ?_⟩
    · intro e
      have := h.next_prev e
      rw [hn.2.1] at this
      exact absurd this (by simp)
    · intro k hk
      rw [← h.next_parent hk]
      exact hpr

/-- After UNLINK_NODE(n) a list that had room, or that lost `n`, has room for one node. -/
theorem unlink_count_le {s : Heap N K} (hwf : WellFormed s) (n : N) (hfn : FreeNeighbours s n)
    (q : K) : ((UNLINK_NODE s (some n)).list q).count ≤ (s.list q).count := by
  obtain ⟨l, hl⟩ := (wellFormed_iff s).mp hwf q
  have h1 := unlink_listOK hwf n hfn hl
  rw [h1.2.1, hl.2.1]
  exact (List.erase_sublist n l).length_le

theorem WellFormed.count_le {s : Heap N K} (hwf : WellFormed s) (q : K) :
    (s.list q).count ≤ SIZE_MAX := by
  obtain ⟨l, hl⟩ := (wellFormed_iff s).mp hwf q
  rw [hl.2.1]
  exact hl.2.2.1

theorem LINK_NODE_FIRST_pos (s : Heap N K) (n : N) (q : K)
    (hg : some n ≠ (s.list q).head ∧ (s.list q).count ≠ SIZE_MAX) :
    LINK_NODE_FIRST s (some n) (some q) = linkFirst (UNLINK_NODE s (some n)) n q := by
  unfold LINK_NODE_FIRST
  exact if_pos hg

theorem LINK_NODE_FIRST_neg (s : Heap N K) (n : N) (q : K)
    (hg : ¬ (some n ≠ (s.list q).head ∧ (s.list q).count ≠ SIZE_MAX)) :
    LINK_NODE_FIRST s (some n) (some q) = s := by
  unfold LINK_NODE_FIRST
  exact if_neg hg

theorem LINK_NODE_LAST_pos (s : Heap N K) (n : N) (q : K)
    (hg : some n ≠ (s.list q).tail ∧ (s.list q).count ≠ SIZE_MAX) :
    LINK_NODE_LAST s (some n) (some q) = linkLast (UNLINK_NODE s (some n)) n q := by
  unfold LINK_NODE_LAST
  exact if_pos hg

theorem LINK_NODE_LAST_neg (s : Heap N K) (n : N) (q : K)
    (hg : ¬ (some n ≠ (s.list q).tail ∧ (s.list q).count ≠ SIZE_MAX)) :
    LINK_NODE_LAST s (some n) (some q) = s := by
  unfold LINK_NODE_LAST
  exact if_neg hg

theorem LINK_NODE_BEFORE_pos (s : Heap N K) (n p : N)
    (hg : n ≠ p ∧ parentHasRoom s n = true) :
    LINK_NODE_BEFORE s (some n) (some p) = linkBefore (UNLINK_NODE s (some n)) n p := by
  unfold LINK_NODE_BEFORE
  exact if_pos hg

theorem LINK_NODE_BEFORE_neg (s : Heap N K) (n p : N)
    (hg : ¬ (n ≠ p ∧ parentHasRoom s n = true)) :
    LINK_NODE_BEFORE s (some n) (some p) = s := by
  unfold LINK_NODE_BEFORE
  exact if_neg hg

theorem LINK_NODE_AFTER_pos (s : Heap N K) (n p : N)
    (hg : n ≠ p ∧ parentHasRoom s n = true) :
    LINK_NODE_AFTER s (some n) (some p) = linkAfter (UNLINK_NODE s (some n)) n p := by
  unfold LINK_NODE_AFTER
  exact if_pos hg

theorem LINK_NODE_AFTER_neg (s : Heap N K) (n p : N)
    (hg : ¬ (n ≠ p ∧ parentHasRoom s n = true)) :
    LINK_NODE_AFTER s (some n) (some p) = s := by
  unfold LINK_NODE_AFTER
  exact if_neg hg

theorem LINK_NODE_FIRST_inv {s : Heap N K} (hwf : WellFormed s) (h : LinkSym s)
    (n : Option N) (q : Option K) :
    WellFormed (LINK_NODE_FIRST s n q) ∧ LinkSym (LINK_NODE_FIRST s n q) := by
  rcases n with _ | n
  · exact ⟨hwf, h⟩
  rcases q with _ | q
  · exact ⟨hwf, h⟩
  by_cases hg : some n ≠ (s.list q).head ∧ (s.list q).count ≠ SIZE_MAX
  · rw [LINK_NODE_FIRST_pos s n q hg]
    have hfn := h.freeNeighbours n
    have hwf1 := unlink_wellFormed hwf n hfn
    have hiso := unlink_isolated s n
    have hroom : ((UNLINK_NODE s (some n)).list q).count < SIZE_MAX := by
      have h1 := unlink_count_le hwf n hfn q
      have h2 := hwf.count_le q
      have h3 := hg.2
      omega
    exact ⟨linkFirst_wf hwf1 n q hiso.1 hroom,
      linkFirst_linkSym hwf1 (unlink_linkSym h n) n q hiso⟩
  · rw [LINK_NODE_FIRST_neg s n q hg]
    exact ⟨hwf, h⟩

theorem LINK_NODE_LAST_inv {s : Heap N K} (hwf : WellFormed s) (h : LinkSym s)
    (n : Option N) (q : Option K) :
    WellFormed (LINK_NODE_LAST s n q) ∧ LinkSym (LINK_NODE_LAST s n q) := by
  rcases n with _ | n
  · exact ⟨hwf, h⟩
  rcases q with _ | q
  · exact ⟨hwf, h⟩
  by_cases hg : some n ≠ (s.list q).tail ∧ (s.list q).count ≠ SIZE_MAX
  · rw [LINK_NODE_LAST_pos s n q hg]
    have hfn := h.freeNeighbours n
    have hwf1 := unlink_wellFormed hwf n hfn
    have hiso := unlink_isolated s n
    have hroom : ((UNLINK_NODE s (some n)).list q).count < SIZE_MAX := by
      have h1 := unlink_count_le hwf n hfn q
      have h2 := hwf.count_le q
      have h3 := hg.2
      omega
    exact ⟨linkLast_wf hwf1 n q hiso.1 hroom,
      linkLast_linkSym hwf1 (unlink_linkSym h n) n q hiso⟩
  · rw [LINK_NODE_LAST_neg s n q hg]
    exact ⟨hwf, h⟩

/-- With at most SIZE_MAX node addresses no count can wrap in a well-formed memory. -/
theorem fits_of_capacity (hcap : ∀ l : List N, l.Nodup → l.length ≤ SIZE_MAX)
    {s : Heap N K} (hwf : WellFormed s) (n p : N) : Fits s n p := by
  intro q _
  by_cases hn : (s.node n).parent = some q
  · exact Or.inl hn
  · right
    obtain ⟨l, hl⟩ := (wellFormed_iff s).mp hwf q
    have hnl : n ∉ l := fun hh => hn ((hl.mem_iff n).mp hh)
    have := hcap (n :: l) (List.nodup_cons.mpr ⟨hnl, hl.nodup⟩)
    rw [hl.2.1]
    simp at this
    omega

theorem unlink_parent_ne (s : Heap N K) (n k : N) (h : k ≠ n) :
    ((UNLINK_NODE s (some n)).node k).parent = (s.node k).parent := by
  rw [UNLINK_NODE_node]
  unfold spliceOut
  simp [h]

/-- After UNLINK_NODE(n) the list of `p` has room for `n`. -/
theorem room_after_unlink {s : Heap N K} (hwf : WellFormed s) (n p : N) (hnp : n ≠ p)
    (hfn : FreeNeighbours s n) (hfit : Fits s n p) (q : K)
    (hq : ((UNLINK_NODE s (some n)).node p).parent = some q) :
    ((UNLINK_NODE s (some n)).list q).count < SIZE_MAX := by
  rw [unlink_parent_ne s n p (fun e => hnp e.symm)] at hq
  obtain ⟨l, hl⟩ := (wellFormed_iff s).mp hwf q
  have h1 := unlink_listOK hwf n hfn hl
  rcases hfit q hq with hn | hc
  · have hmem : n ∈ l := (hl.mem_iff n).mpr hn
    rw [h1.2.1, List.length_erase_of_mem hmem]
    have h2 := hl.2.2.1
    have h3 : 0 < l.length := List.length_pos_of_mem hmem
    omega
  · have h2 := unlink_count_le hwf n hfn q
    have h3 := hwf.count_le q
    omega

theorem LINK_NODE_BEFORE_inv {s : Heap N K} (hwf : WellFormed s) (h : LinkSym s) (n p : N)
    (hfit : Fits s n p) :
    WellFormed (LINK_NODE_BEFORE s (some n) (some p)) ∧
      LinkSym (LINK_NODE_BEFORE s (some n) (some p)) := by
  by_cases hg : n ≠ p ∧ parentHasRoom s n = true
  · rw [LINK_NODE_BEFORE_pos s n p hg]
    have hfn := h.freeNeighbours n
    have hwf1 := unlink_wellFormed hwf n hfn
    have hiso := unlink_isolated s n
    have h1 := unlink_linkSym h n
    exact ⟨linkBefore_wf hwf1 h1 n p hg.1 hiso (room_after_unlink hwf n p hg.1 hfn hfit),
      linkBefore_linkSym h1 n p hg.1 hiso⟩
  · rw [LINK_NODE_BEFORE_neg s n p hg]
    exact ⟨hwf, h⟩

theorem LINK_NODE_AFTER_inv {s : Heap N K} (hwf : WellFormed s) (h : LinkSym s) (n p : N)
    (hfit : Fits s n p) :
    WellFormed (LINK_NODE_AFTER s (some n) (some p)) ∧
      LinkSym (LINK_NODE_AFTER s (some n) (some p)) := by
  by_cases hg : n ≠ p ∧ parentHasRoom s n = true
  · rw [LINK_NODE_AFTER_pos s n p hg]
    have hfn := h.freeNeighbours n
    have hwf1 := unlink_wellFormed hwf n hfn
    have hiso := unlink_isolated s n
    have h1 := unlink_linkSym h n
    exact ⟨linkAfter_wf hwf1 h1 n p hg.1 hiso (room_after_unlink hwf n p hg.1 hfn hfit),
      linkAfter_linkSym h1 n p hg.1 hiso⟩
  · rw [LINK_NODE_AFTER_neg s n p hg]
    exact ⟨hwf, h⟩

theorem UNLINK_NODE_inv {s : Heap N K} (hwf : WellFormed s) (h : LinkSym s) (n : Option N) :
    WellFormed (UNLINK_NODE s n) ∧ LinkSym (UNLINK_NODE s n) := by
  rcases n with _ | n
  · exact ⟨hwf, h⟩
  · exact ⟨unlink_wellFormed hwf n (h.freeNeighbours n), unlink_linkSym h n⟩

theorem run_inv {s : Heap N K} (hwf : WellFormed s) (h : LinkSym s) (op : Op N K)
    (hfit : NoWrap s op) : WellFormed (op.run s) ∧ LinkSym (op.run s) := by
  cases op with
  | unlink n => exact UNLINK_NODE_inv hwf h n
  | first n q => exact LINK_NODE_FIRST_inv hwf h n q
  | last n q => exact LINK_NODE_LAST_inv hwf h n q
  | before n p =>
    rcases n with _ | n
    · exact ⟨hwf, h⟩
    rcases p with _ | p
    · exact ⟨hwf, h⟩
    exact LINK_NODE_BEFORE_inv hwf h n p hfit
  | after n p =>
    rcases n with _ | n
    · exact ⟨hwf, h⟩
    rcases p with _ | p
    · exact ⟨hwf, h⟩
    exact LINK_NODE_AFTER_inv hwf h n p hfit

theorem noWrap_of_capacity (hcap : ∀ l : List N, l.Nodup → l.length ≤ SIZE_MAX)
    {s : Heap N K} (hwf : WellFormed s) (op : Op N K) : NoWrap s op := by
  cases op with
  | unlink n => trivial
  | first n q => trivial
  | last n q => trivial
  | before n p =>
    rcases n with _ | n
    · trivial
    rcases p with _ | p
    · trivial
    exact fits_of_capacity hcap hwf n p
  | after n p =>
    rcases n with _ | n
    · trivial
    rcases p with _ | p
    · trivial
    exact fits_of_capacity hcap hwf n p

theorem zeroed_inv : WellFormed (zeroed : Heap N K) ∧ LinkSym (zeroed : Heap N K) := by
  constructor
  · rw [wellFormed_iff]
    intro q
    refine ⟨[], ?_, rfl, by simp, ?_⟩
    · unfold Seg; exact ⟨rfl, rfl⟩
    · intro k hk
      simp [zeroed] at hk
  · intro a b
    simp [zeroed]

theorem reachable_inv (hcap : ∀ l : List N, l.Nodup → l.length ≤ SIZE_MAX)
    {s : Heap N K} (hr : Reachable s) : WellFormed s ∧ LinkSym s := by
  induction hr with
  | init => exact zeroed_inv
  | step s op _ ih => exact run_inv ih.1 ih.2 op (noWrap_of_capacity hcap ih.1 op)

theorem fin_capacity (k : Nat) (hk : k ≤ SIZE_MAX) :
    ∀ l : List (Fin k), l.Nodup → l.length ≤ SIZE_MAX := by
  intro l hl
  have := hl.length_le_card
  simp at this
  omega

end invariants

/-! ## What the link macros leave in the node and in the list -/

section fields

theorem spliceIn_self (node : N → NodeMembers N K) (n : N) (m c : Option N) (par : Option K) :
    spliceIn node n m c par n = { prev := m, next := c, parent := par } := by
  unfold spliceIn
  simp

theorem ListOK.prev_ne {t : Heap N K} {q : K} {l : List N} (h : ListOK t q l) (n p : N)
    (hp : (t.node p).parent = some q) (hn : (t.node n).parent ≠ some q) :
    (t.node p).prev ≠ some n :=
  fun e => hn (h.prev_owner p n hp e)

theorem ListOK.next_ne {t : Heap N K} {q : K} {l : List N} (h : ListOK t q l) (n p : N)
    (hp : (t.node p).parent = some q) (hn : (t.node n).parent ≠ some q) :
    (t.node p).next ≠ some n :=
  fun e => hn (h.next_owner p n hp e)

theorem unlink_head_of_ne (s : Heap N K) (n : N) (q : K) (h : (s.list q).head ≠ some n) :
    ((UNLINK_NODE s (some n)).list q).head = (s.list q).head := by
  rw [UNLINK_NODE_list]
  unfold unlinkList
  by_cases hp : (s.node n).parent = some q <;> simp [hp, h]

theorem unlink_tail_of_ne (s : Heap N K) (n : N) (q : K) (h : (s.list q).tail ≠ some n) :
    ((UNLINK_NODE s (some n)).list q).tail = (s.list q).tail := by
  rw [UNLINK_NODE_list]
  unfold unlinkList
  by_cases hp : (s.node n).parent = some q <;> simp [hp, h]

theorem freeNeighbours_of_or {s : Heap N K} {n : N}
    (h : Isolated s n ∨ (s.node n).parent ≠ none) : FreeNeighbours s n := by
  rcases h with h | h
  · exact h.free_of_isolated
  · intro hp; exact absurd hp h

/-- Lengths after erasing and re-inserting one node. -/
theorem length_cons_erase (l : List N) (n : N) :
    (n :: l.erase n).length = if n ∈ l then l.length else l.length + 1 := by
  by_cases h : n ∈ l
  · have : 0 < l.length := List.length_pos_of_mem h
    simp [h, List.length_erase_of_mem h]
    omega
  · simp [h, List.erase_of_not_mem h]

theorem room_of_ne {s : Heap N K} (hwf : WellFormed s) (n : N) (hfn : FreeNeighbours s n)
    (q : K) (h : (s.list q).count ≠ SIZE_MAX) :
    ((UNLINK_NODE s (some n)).list q).count < SIZE_MAX := by
  have h1 := unlink_count_le hwf n hfn q
  have h2 := hwf.count_le q
  omega

end fields

section fresh

theorem unlink_of_isolated {s : Heap N K} {n : N} (h : Isolated s n) :
    UNLINK_NODE s (some n) = s := by
  apply Heap.ext
  · rw [UNLINK_NODE_node]
    funext k
    unfold spliceOut
    by_cases hk : k = n
    · subst hk
      apply NodeMembers.ext <;> simp [h.1, h.2.1, h.2.2]
    · apply NodeMembers.ext <;> simp [hk, h.2.1, h.2.2]
  · rw [UNLINK_NODE_list]
    funext p
    unfold unlinkList
    simp [h.1]


theorem parentHasRoom_of {s : Heap N K} {n : N}
    (h : ∀ r, (s.node n).parent = some r → (s.list r).count ≠ SIZE_MAX) :
    parentHasRoom s n = true := by
  unfold parentHasRoom
  rcases hp : (s.node n).parent with _ | r
  · rfl
  · simpa using h r hp

end fresh

/-! ## The claims -/

/-- C1, as stated, fails: `stale` is well-formed in the sense of the claim (its only list is
consistent and unowned nodes are not constrained), and UNLINK_NODE of the unowned node `1`
writes node `2` into the `prev` of node `0`, which is still the head of list `0` with count
1, so the result is not well-formed. -/
theorem C1_counterexample :
    WellFormed stale ∧ ¬ WellFormed (Op.run stale (Op.unlink (some 1))) ∧
      ((Op.run stale (Op.unlink (some 1))).list 0).count = 1 ∧
      ((Op.run stale (Op.unlink (some 1))).list 0).head = some 0 ∧
      ((Op.run stale (Op.unlink (some 1))).node 0).prev = some 2 := by
  decide

/-- C1, amended: with no more than SIZE_MAX node addresses, every call of one of the five
macros, with any node, list and position arguments, takes a well-formed memory with mutual
links to a well-formed memory with mutual links. -/
theorem C1_invariant_preserved (hcap : ∀ l : List N, l.Nodup → l.length ≤ SIZE_MAX)
    (s : Heap N K) (op : Op N K) (hwf : WellFormed s) (hsym : LinkSym s) :
    WellFormed (op.run s) ∧ LinkSym (op.run s) :=
  run_inv hwf hsym op (noWrap_of_capacity hcap hwf op)

/-- C1, amended, at LINK_NODE_BEFORE(3, b) on the list a, b, c. -/
theorem C1_invariant_preserved_witness :
    (∀ l : List (Fin 4), l.Nodup → l.length ≤ SIZE_MAX) ∧ WellFormed abc ∧ LinkSym abc ∧
      WellFormed (Op.run abc (Op.before (some 3) (some 1))) ∧
      LinkSym (Op.run abc (Op.before (some 3) (some 1))) :=
  ⟨fin_capacity 4 (by decide), by decide, by decide,
    C1_invariant_preserved (fin_capacity 4 (by decide)) abc (Op.before (some 3) (some 1))
      (by decide) (by decide)⟩

/-- C2: in every memory reachable from zero-initialised lists and nodes (with no more than
SIZE_MAX node addresses) every list has a duplicate-free traversal that holds exactly the
nodes whose parent is that list, its count is their number, and the traversals of two
different lists share no node. -/
theorem C2_single_ownership (hcap : ∀ l : List N, l.Nodup → l.length ≤ SIZE_MAX)
    (s : Heap N K) (hr : Reachable s) :
    (∀ p, ∃ l, Traversal s p l ∧ l.Nodup ∧ (∀ n, n ∈ l ↔ (s.node n).parent = some p) ∧
      (s.list p).count = l.length) ∧
    (∀ p q l1 l2, p ≠ q → Traversal s p l1 → Traversal s q l2 → ∀ n, n ∈ l1 → n ∉ l2) := by
  have hwf := (reachable_inv hcap hr).1
  constructor
  · intro p
    obtain ⟨l, hl⟩ := (wellFormed_iff s).mp hwf p
    exact ⟨l, hl.traversal, hl.nodup, hl.mem_iff, hl.2.1⟩
  · intro p q l1 l2 hpq h1 h2 n hn1 hn2
    have e1 := ((hwf.listOK h1).mem_iff n).mp hn1
    have e2 := ((hwf.listOK h2).mem_iff n).mp hn2
    rw [e1] at e2
    exact hpq (Option.some.inj e2)

/-- C2 at the memory reached by LINK_NODE_LAST(0, list 0) and LINK_NODE_FIRST(1, list 1). -/
theorem C2_single_ownership_witness :
    (∀ l : List (Fin 4), l.Nodup → l.length ≤ SIZE_MAX) ∧
    Reachable (Op.run (Op.run (zeroed : Heap (Fin 4) (Fin 2)) (Op.last (some 0) (some 0)))
      (Op.first (some 1) (some 1))) ∧
    ((∀ p, ∃ l, Traversal (Op.run (Op.run (zeroed : Heap (Fin 4) (Fin 2))
        (Op.last (some 0) (some 0))) (Op.first (some 1) (some 1))) p l ∧ l.Nodup ∧
      (∀ n, n ∈ l ↔ ((Op.run (Op.run (zeroed : Heap (Fin 4) (Fin 2))
        (Op.last (some 0) (some 0))) (Op.first (some 1) (some 1))).node n).parent = some p) ∧
      ((Op.run (Op.run (zeroed : Heap (Fin 4) (Fin 2))
        (Op.last (some 0) (some 0))) (Op.first (some 1) (some 1))).list p).count = l.length) ∧
    (∀ p q l1 l2, p ≠ q →
      Traversal (Op.run (Op.run (zeroed : Heap (Fin 4) (Fin 2))
        (Op.last (some 0) (some 0))) (Op.first (some 1) (some 1))) p l1 →
      Traversal (Op.run (Op.run (zeroed : Heap (Fin 4) (Fin 2))
        (Op.last (some 0) (some 0))) (Op.first (some 1) (some 1))) q l2 →
      ∀ n, n ∈ l1 → n ∉ l2)) :=
  ⟨fin_capacity 4 (by decide), Reachable.step _ _ (Reachable.step _ _ Reachable.init),
    C2_single_ownership (fin_capacity 4 (by decide)) _
      (Reachable.step _ _ (Reachable.step _ _ Reachable.init))⟩

/-- C3: after UNLINK_NODE(node) on a non-null node, in any memory, the node's parent, prev
and next are all NULL. -/
theorem C3_unlink_isolates (s : Heap N K) (n : N) :
    ((UNLINK_NODE s (some n)).node n).parent = none ∧
      ((UNLINK_NODE s (some n)).node n).prev = none ∧
      ((UNLINK_NODE s (some n)).node n).next = none :=
  unlink_isolated s n

/-- C4: in a well-formed memory, UNLINK_NODE of a node `n` on list `q` with traversal `l`
leaves the traversal `l` with `n` erased, decrements the count, moves head to the old
`n->next` if `n` was head and tail to the old `n->prev` if `n` was tail, and `n` is no
longer on the traversal. -/
theorem C4_unlink_erases (s : Heap N K) (hwf : WellFormed s) (q : K) (l : List N) (n : N)
    (ht : Traversal s q l) (hn : n ∈ l) :
    Traversal (UNLINK_NODE s (some n)) q (l.erase n) ∧
      ((UNLINK_NODE s (some n)).list q).count = (s.list q).count - 1 ∧
      ((UNLINK_NODE s (some n)).list q).head =
        (if (s.list q).head = some n then (s.node n).next else (s.list q).head) ∧
      ((UNLINK_NODE s (some n)).list q).tail =
        (if (s.list q).tail = some n then (s.node n).prev else (s.list q).tail) ∧
      n ∉ l.erase n ∧ (l.erase n).Sublist l ∧ (∀ k, k ∈ l → k ≠ n → k ∈ l.erase n) := by
  have hl := hwf.listOK ht
  have hp := (hl.mem_iff n).mp hn
  have h1 := unlink_owned n hl hp
  refine ⟨h1.traversal, ?_, ?_, ?_, ?_, List.erase_sublist n l, ?_⟩
  · rw [h1.2.1, hl.2.1, List.length_erase_of_mem hn]
  · rw [UNLINK_NODE_list]; unfold unlinkList; simp [hp]
  · rw [UNLINK_NODE_list]; unfold unlinkList; simp [hp]
  · intro hh
    exact ((hl.nodup.mem_erase_iff).mp hh).1 rfl
  · intro k hk hkn
    exact (List.mem_erase_of_ne hkn).mpr hk

/-- C4 at the scenario of the spec: the list a, b, c and UNLINK_NODE(b) give the traversal
a, c with count 2, head a and tail c. -/
theorem C4_unlink_erases_witness :
    WellFormed abc ∧ Traversal abc 0 [0, 1, 2] ∧ (1 : Fin 4) ∈ [(0 : Fin 4), 1, 2] ∧
      Traversal (UNLINK_NODE abc (some 1)) 0 [0, 2] ∧
      ((UNLINK_NODE abc (some 1)).list 0).count = 2 ∧
      ((UNLINK_NODE abc (some 1)).list 0).head = some 0 ∧
      ((UNLINK_NODE abc (some 1)).list 0).tail = some 2 := by
  have h := C4_unlink_erases abc (by decide) 0 [0, 1, 2] 1 (by decide) (by decide)
  exact ⟨by decide, by decide, by decide, h.1, h.2.1.trans (by decide),
    h.2.2.1.trans (by decide), h.2.2.2.1.trans (by decide)⟩

/-- C5: in any memory, UNLINK_NODE applied twice to a node gives the same memory as applying
it once, and the node is isolated in it; on a null pointer both are the identity. -/
theorem C5_unlink_idempotent (s : Heap N K) (n : N) :
    UNLINK_NODE (UNLINK_NODE s (some n)) (some n) = UNLINK_NODE s (some n) ∧
      Isolated (UNLINK_NODE s (some n)) n ∧
      UNLINK_NODE (UNLINK_NODE s none) none = UNLINK_NODE s none :=
  ⟨unlink_of_isolated (unlink_isolated s n), unlink_isolated s n, rfl⟩

/-- C6, as stated, fails: node `0` of the free pair has no parent, and UNLINK_NODE(0)
changes the memory (it clears the links between the two nodes). -/
theorem C6_counterexample :
    (freePair.node 0).parent = none ∧ UNLINK_NODE freePair (some 0) ≠ freePair := by
  refine ⟨by decide, ?_⟩
  intro h
  have h2 := congrArg (fun t : Heap (Fin 2) (Fin 1) => (t.node 1).prev) h
  revert h2
  decide

/-- C6, amended: UNLINK_NODE of a node without parent leaves every list's head, tail and
count and every node's parent unchanged, and leaves the whole memory unchanged when the
node's prev and next are NULL as well. -/
theorem C6_unlink_unowned (s : Heap N K) (n : N) (hp : (s.node n).parent = none) :
    (UNLINK_NODE s (some n)).list = s.list ∧
      (∀ k, ((UNLINK_NODE s (some n)).node k).parent = (s.node k).parent) ∧
      ((s.node n).prev = none → (s.node n).next = none → UNLINK_NODE s (some n) = s) := by
  refine ⟨?_, ?_, fun h1 h2 => unlink_of_isolated ⟨hp, h1, h2⟩⟩
  · rw [UNLINK_NODE_list]
    funext p
    unfold unlinkList
    simp [hp]
  · intro k
    rw [UNLINK_NODE_node]
    unfold spliceOut
    by_cases hk : k = n
    · simp [hk, hp]
    · simp [hk]

/-- C6, amended, at the zero-initialised node `3` next to the list a, b, c. -/
theorem C6_unlink_unowned_witness :
    (abc.node 3).parent = none ∧ (abc.node 3).prev = none ∧ (abc.node 3).next = none ∧
      (UNLINK_NODE abc (some 3)).list = abc.list ∧ UNLINK_NODE abc (some 3) = abc := by
  have h := C6_unlink_unowned abc 3 (by decide)
  exact ⟨by decide, by decide, by decide, h.1, h.2.2 (by decide) (by decide)⟩

/-- C7: in a well-formed memory, for a list `q` with traversal `l` and count below SIZE_MAX
and a node `n` that is not the head of `q` and is isolated or owned by some list,
LINK_NODE_FIRST(n, q) makes the traversal `n` followed by `l` without `n`; `n` is the head,
its prev is NULL, its next is the old head, its parent is `q`; it is also the tail if the
list was empty; the count grows by one unless `n` was already on the list. -/
theorem C7_link_first (s : Heap N K) (hwf : WellFormed s) (q : K) (l : List N) (n : N)
    (ht : Traversal s q l) (hroom : (s.list q).count < SIZE_MAX)
    (hnh : (s.list q).head ≠ some n) (hn : Isolated s n ∨ (s.node n).parent ≠ none) :
    Traversal (LINK_NODE_FIRST s (some n) (some q)) q (n :: l.erase n) ∧
      ((LINK_NODE_FIRST s (some n) (some q)).list q).head = some n ∧
      ((LINK_NODE_FIRST s (some n) (some q)).node n).prev = none ∧
      ((LINK_NODE_FIRST s (some n) (some q)).node n).next = (s.list q).head ∧
      ((LINK_NODE_FIRST s (some n) (some q)).node n).parent = some q ∧
      (l = [] → ((LINK_NODE_FIRST s (some n) (some q)).list q).tail = some n) ∧
      ((LINK_NODE_FIRST s (some n) (some q)).list q).count =
        (if n ∈ l then (s.list q).count else (s.list q).count + 1) := by
  have hl := hwf.listOK ht
  have hfn := freeNeighbours_of_or hn
  have hg : some n ≠ (s.list q).head ∧ (s.list q).count ≠ SIZE_MAX :=
    ⟨fun e => hnh e.symm, by omega⟩
  rw [LINK_NODE_FIRST_pos s n q hg]
  have h1 := unlink_listOK hwf n hfn hl
  have hiso := unlink_isolated s n
  have hroom1 := room_of_ne hwf n hfn q hg.2
  have h2 := linkFirst_ok n h1 (hiso.not_owned q) hroom1
  have hnode := linkFirst_node (UNLINK_NODE s (some n)) n q (h1.head_ne n (hiso.not_owned q))
  refine ⟨h2.traversal, ?_, ?_, ?_, ?_, ?_, ?_⟩
  · rw [linkFirst_list]; simp
  · rw [hnode, spliceIn_self]
  · rw [hnode, spliceIn_self]
    exact unlink_head_of_ne s n q hnh
  · rw [hnode, spliceIn_self]
  · intro e
    subst e
    have h3 := h2.1
    simp only [List.erase_nil] at h3
    unfold Seg at h3
    have h4 := h3.2.2.2
    unfold Seg at h4
    exact h4.2
  · rw [h2.2.1, length_cons_erase, hl.2.1]

/-- C7 at the scenario of the spec: LINK_NODE_FIRST(x, L) on the list a, c gives x, a, c. -/
theorem C7_link_first_witness :
    WellFormed ac ∧ Traversal ac 0 [0, 2] ∧ (ac.list 0).count < SIZE_MAX ∧
      (ac.list 0).head ≠ some 3 ∧ Isolated ac 3 ∧
      Traversal (LINK_NODE_FIRST ac (some 3) (some 0)) 0 [3, 0, 2] ∧
      ((LINK_NODE_FIRST ac (some 3) (some 0)).list 0).head = some 3 ∧
      ((LINK_NODE_FIRST ac (some 3) (some 0)).list 0).count = 3 := by
  have h := C7_link_first ac (by decide) 0 [0, 2] 3 (by decide) (by decide) (by decide)
    (Or.inl (by decide))
  exact ⟨by decide, by decide, by decide, by decide, by decide, h.1, h.2.1,
    h.2.2.2.2.2.2.trans (by decide)⟩

/-- C9: in a well-formed memory, for a node `p` on list `q` with traversal `l` and a node
`n` other than `p` that is isolated or owned by some list, with neither `q` nor the list of
`n` at count SIZE_MAX, LINK_NODE_BEFORE(n, p) makes the traversal `l` without `n` with `n`
inserted directly in front of `p`; `p->prev` is `n`, `n->next` is `p`, the parent of `n` is
`q`, and the count is the length of the new traversal. -/
theorem C9_link_before (s : Heap N K) (hwf : WellFormed s) (q : K) (l : List N) (n p : N)
    (ht : Traversal s q l) (hp : p ∈ l) (hnp : n ≠ p)
    (hn : Isolated s n ∨ (s.node n).parent ≠ none)
    (hroomq : (s.list q).count ≠ SIZE_MAX)
    (hroomn : ∀ r, (s.node n).parent = some r → (s.list r).count ≠ SIZE_MAX) :
    Traversal (LINK_NODE_BEFORE s (some n) (some p)) q (insertBefore n p (l.erase n)) ∧
      ((LINK_NODE_BEFORE s (some n) (some p)).node p).prev = some n ∧
      ((LINK_NODE_BEFORE s (some n) (some p)).node n).next = some p ∧
      ((LINK_NODE_BEFORE s (some n) (some p)).node n).parent = some q ∧
      ((LINK_NODE_BEFORE s (some n) (some p)).list q).count =
        (insertBefore n p (l.erase n)).length := by
  have hl := hwf.listOK ht
  have hpq := (hl.mem_iff p).mp hp
  have hfn := freeNeighbours_of_or hn
  have hpn : p ≠ n := fun e => hnp e.symm
  rw [LINK_NODE_BEFORE_pos s n p ⟨hnp, parentHasRoom_of hroomn⟩]
  have h1 := unlink_listOK hwf n hfn hl
  have hiso := unlink_isolated s n
  have hp1 : ((UNLINK_NODE s (some n)).node p).parent = some q := by
    rw [unlink_parent_ne s n p hpn]; exact hpq
  have h2 := linkBefore_ok n p h1 hp1 (hiso.not_owned q) (room_of_ne hwf n hfn q hroomq)
  have hnode := linkBefore_node (UNLINK_NODE s (some n)) n p hnp
    (h1.prev_ne n p hp1 (hiso.not_owned q))
  refine ⟨h2.traversal, ?_, ?_, ?_, h2.2.1⟩
  · rw [hnode]; unfold spliceIn; simp [hpn]
  · rw [hnode, spliceIn_self]
  · rw [hnode, spliceIn_self]; exact hp1

/-- C9 at the list a, b, c: LINK_NODE_BEFORE(3, b) gives a, 3, b, c, and moving the tail
with LINK_NODE_BEFORE(c, a) gives c, a, b. -/
theorem C9_link_before_witness :
    WellFormed abc ∧ Traversal abc 0 [0, 1, 2] ∧
      Traversal (LINK_NODE_BEFORE abc (some 3) (some 1)) 0 [0, 3, 1, 2] ∧
      ((LINK_NODE_BEFORE abc (some 3) (some 1)).list 0).count = 4 ∧
      Traversal (LINK_NODE_BEFORE abc (some 2) (some 0)) 0 [2, 0, 1] ∧
      ((LINK_NODE_BEFORE abc (some 2) (some 0)).list 0).count = 3 := by
  have h := C9_link_before abc (by decide) 0 [0, 1, 2] 3 1 (by decide) (by decide) (by decide)
    (Or.inl (by decide)) (by decide) (by decide)
  have h' := C9_link_before abc (by decide) 0 [0, 1, 2] 2 0 (by decide) (by decide) (by decide)
    (Or.inr (by decide)) (by decide) (by decide)
  exact ⟨by decide, by decide, h.1, h.2.2.2.2, h'.1, h'.2.2.2.2⟩

/-- C10: in a well-formed memory, for a node `p` on list `q` with traversal `l` and a node
`n` other than `p` that is isolated or owned by some list, with neither `q` nor the list of
`n` at count SIZE_MAX, LINK_NODE_AFTER(n, p) makes the traversal `l` without `n` with `n`
inserted directly behind `p`; `p->next` is `n`, `n->prev` is `p`, the parent of `n` is `q`,
and the count is the length of the new traversal. -/
theorem C10_link_after (s : Heap N K) (hwf : WellFormed s) (q : K) (l : List N) (n p : N)
    (ht : Traversal s q l) (hp : p ∈ l) (hnp : n ≠ p)
    (hn : Isolated s n ∨ (s.node n).parent ≠ none)
    (hroomq : (s.list q).count ≠ SIZE_MAX)
    (hroomn : ∀ r, (s.node n).parent = some r → (s.list r).count ≠ SIZE_MAX) :
    Traversal (LINK_NODE_AFTER s (some n) (some p)) q (insertAfter n p (l.erase n)) ∧
      ((LINK_NODE_AFTER s (some n) (some p)).node p).next = some n ∧
      ((LINK_NODE_AFTER s (some n) (some p)).node n).prev = some p ∧
      ((LINK_NODE_AFTER s (some n) (some p)).node n).parent = some q ∧
      ((LINK_NODE_AFTER s (some n) (some p)).list q).count =
        (insertAfter n p (l.erase n)).length := by
  have hl := hwf.listOK ht
  have hpq := (hl.mem_iff p).mp hp
  have hfn := freeNeighbours_of_or hn
  have hpn : p ≠ n := fun e => hnp e.symm
  rw [LINK_NODE_AFTER_pos s n p ⟨hnp, parentHasRoom_of hroomn⟩]
  have h1 := unlink_listOK hwf n hfn hl
  have hiso := unlink_isolated s n
  have hp1 : ((UNLINK_NODE s (some n)).node p).parent = some q := by
    rw [unlink_parent_ne s n p hpn]; exact hpq
  have h2 := linkAfter_ok n p h1 hp1 (hiso.not_owned q) (room_of_ne hwf n hfn q hroomq)
  have hnode := linkAfter_node (UNLINK_NODE s (some n)) n p hnp
    (h1.next_ne n p hp1 (hiso.not_owned q))
  refine ⟨h2.traversal, ?_, ?_, ?_, h2.2.1⟩
  · rw [hnode]; unfold spliceIn; simp [hpn]
  · rw [hnode, spliceIn_self]
  · rw [hnode, spliceIn_self]; exact hp1

/-- C10 at the list a, b, c: LINK_NODE_AFTER(3, b) gives a, b, 3, c, and moving the head
with LINK_NODE_AFTER(a, c) gives b, c, a. -/
theorem C10_link_after_witness :
    WellFormed abc ∧ Traversal abc 0 [0, 1, 2] ∧
      Traversal (LINK_NODE_AFTER abc (some 3) (some 1)) 0 [0, 1, 3, 2] ∧
      ((LINK_NODE_AFTER abc (some 3) (some 1)).list 0).count = 4 ∧
      Traversal (LINK_NODE_AFTER abc (some 0) (some 2)) 0 [1, 2, 0] ∧
      ((LINK_NODE_AFTER abc (some 0) (some 2)).list 0).count = 3 := by
  have h := C10_link_after abc (by decide) 0 [0, 1, 2] 3 1 (by decide) (by decide) (by decide)
    (Or.inl (by decide)) (by decide) (by decide)
  have h' := C10_link_after abc (by decide) 0 [0, 1, 2] 0 2 (by decide) (by decide) (by decide)
    (Or.inr (by decide)) (by decide) (by decide)
  exact ⟨by decide, by decide, h.1, h.2.2.2.2, h'.1, h'.2.2.2.2⟩

/-! ## Head and tail after a positional insert, and a full list -/

section positional

theorem fin_capacity_lt (k : Nat) (hk : k < SIZE_MAX) :
    ∀ l : List (Fin k), l.Nodup → l.length < SIZE_MAX := by
  intro l hl
  have := hl.length_le_card
  simp at this
  omega

/-- With fewer than SIZE_MAX node addresses no well-formed list is full, so the guard of
LINK_NODE_BEFORE and LINK_NODE_AFTER lets every node pass. -/
theorem parentHasRoom_of_capacity (hcap : ∀ l : List N, l.Nodup → l.length < SIZE_MAX)
    {s : Heap N K} (hwf : WellFormed s) (n : N) : parentHasRoom s n = true := by
  apply parentHasRoom_of
  intro r _
  obtain ⟨l, hl⟩ := (wellFormed_iff s).mp hwf r
  have := hcap l hl.nodup
  rw [hl.2.1]
  omega

theorem before_head (s : Heap N K) (n p : N) (q : K) (hnp : n ≠ p)
    (hg : parentHasRoom s n = true) (hp : (s.node p).parent = some q)
    (hh : (s.list q).head = some p) :
    ((LINK_NODE_BEFORE s (some n) (some p)).list q).head = some n := by
  have hpn : p ≠ n := fun e => hnp e.symm
  have h1 : ((UNLINK_NODE s (some n)).list q).head = some p := by
    rw [unlink_head_of_ne s n q (by rw [hh]; exact fun e => hpn (Option.some.inj e)), hh]
  rw [LINK_NODE_BEFORE_pos s n p ⟨hnp, hg⟩, linkBefore_list _ n p hnp]
  unfold beforeList
  simp [unlink_parent_ne s n p hpn, hp, h1]

theorem after_tail (s : Heap N K) (n p : N) (q : K) (hnp : n ≠ p)
    (hg : parentHasRoom s n = true) (hp : (s.node p).parent = some q)
    (hh : (s.list q).tail = some p) :
    ((LINK_NODE_AFTER s (some n) (some p)).list q).tail = some n := by
  have hpn : p ≠ n := fun e => hnp e.symm
  have h1 : ((UNLINK_NODE s (some n)).list q).tail = some p := by
    rw [unlink_tail_of_ne s n q (by rw [hh]; exact fun e => hpn (Option.some.inj e)), hh]
  rw [LINK_NODE_AFTER_pos s n p ⟨hnp, hg⟩, linkAfter_list _ n p hnp]
  unfold afterList
  simp [unlink_parent_ne s n p hpn, hp, h1]

theorem chainHeap_seg (m : Nat) : ∀ (k i : Nat), i + k = m →
    Seg (chainHeap m).node () (if i = 0 then none else some (i - 1))
      (if i < m then some i else none) (List.range' i k)
      (if m = 0 then none else some (m - 1)) none := by
  intro k
  induction k with
  | zero =>
    intro i hi
    have : i = m := by omega
    subst this
    simp [Seg]
  | succ k ih =>
    intro i hi
    have him : i < m := by omega
    have key := ih (i + 1) (by omega)
    simp only [List.range'_succ]
    unfold Seg
    refine ⟨by simp [him], by simp [chainHeap, him], by simp [chainHeap, him], ?_⟩
    have e1 : ((chainHeap m).node i).next = if i + 1 < m then some (i + 1) else none := by
      simp [chainHeap, him]
    rw [e1]
    simpa using key

theorem chainHeap_wellFormed (m : Nat) (hm : m ≤ SIZE_MAX) : WellFormed (chainHeap m) := by
  rw [wellFormed_iff]
  intro q
  refine ⟨List.range' 0 m, ?_, by simp [chainHeap], by simpa using hm, ?_⟩
  · have key := chainHeap_seg m m 0 (by omega)
    have e1 : ((chainHeap m).list q).head = if 0 < m then some 0 else none := rfl
    have e2 : ((chainHeap m).list q).tail = if 0 < m then some (m - 1) else none := rfl
    rw [e1, e2]
    by_cases h0 : m = 0
    · subst h0; simpa using key
    · have : 0 < m := by omega
      simpa [h0, this] using key
  · intro k hk
    by_cases hkm : k < m
    · simp [hkm]
    · simp [chainHeap, hkm] at hk

theorem big_wellFormed : WellFormed big :=
  chainHeap_wellFormed SIZE_MAX (le_refl _)

end positional

section performed

theorem parentHasRoom_false {s : Heap N K} {n : N} {r : K} (hp : (s.node n).parent = some r)
    (hc : (s.list r).count = SIZE_MAX) : ¬ parentHasRoom s n = true := by
  unfold parentHasRoom
  simp [hp, hc]

theorem parentHasRoom_true {s : Heap N K} {n : N}
    (h : (s.node n).parent = none ∨ ∃ r, (s.node n).parent = some r ∧ (s.list r).count ≠ SIZE_MAX) :
    parentHasRoom s n = true := by
  apply parentHasRoom_of
  intro r hr
  rcases h with h | ⟨r', h1, h2⟩
  · rw [h] at hr; exact absurd hr (by simp)
  · rw [h1] at hr
    exact Option.some.inj hr ▸ h2

theorem linkBefore_prev (t : Heap N K) (n p : N) (hnp : n ≠ p) :
    ((linkBefore t n p).node p).prev = some n ∧
      ((linkBefore t n p).node n).parent = (t.node p).parent := by
  have hpn : ¬ p = n := fun h => hnp h.symm
  unfold linkBefore
  rcases hq : (t.node p).parent with _ | r <;> rcases hx : (t.node p).prev with _ | x
  · simp [hx, hq, hpn]
  · by_cases h3 : x = p
    · subst h3; simp [hx, hq, hpn]
    · have h3b : ¬ p = x := fun h => h3 h.symm
      simp [hx, hq, hpn, h3b]
  · by_cases h1 : (t.list r).head = some p <;> simp [hx, hq, hpn, h1]
  · by_cases h3 : x = p
    · subst h3
      by_cases h1 : (t.list r).head = some x <;> simp [hx, hq, hpn, h1]
    · have h3b : ¬ p = x := fun h => h3 h.symm
      by_cases h1 : (t.list r).head = some p <;> simp [hx, hq, hpn, h1, h3b]

theorem linkAfter_next (t : Heap N K) (n p : N) (hnp : n ≠ p) :
    ((linkAfter t n p).node p).next = some n ∧
      ((linkAfter t n p).node n).parent = (t.node p).parent := by
  have hpn : ¬ p = n := fun h => hnp h.symm
  unfold linkAfter
  rcases hq : (t.node p).parent with _ | r <;> rcases hx : (t.node p).next with _ | x
  · simp [hx, hq, hpn]
  · by_cases h3 : x = p
    · subst h3; simp [hx, hq, hpn]
    · have h3b : ¬ p = x := fun h => h3 h.symm
      simp [hx, hq, hpn, h3b]
  · by_cases h1 : (t.list r).tail = some p <;> simp [hx, hq, hpn, h1]
  · by_cases h3 : x = p
    · subst h3
      by_cases h1 : (t.list r).tail = some x <;> simp [hx, hq, hpn, h1]
    · have h3b : ¬ p = x := fun h => h3 h.symm
      by_cases h1 : (t.list r).tail = some p <;> simp [hx, hq, hpn, h1, h3b]

end performed

/-! ## The checker -/

section checker

theorem sanity_loop_none (s : Heap N K) (q : K) (f : Nat) (pv : Option N) (c : Nat) :
    sanity_loop s q (f + 1) pv none c = some (Except.ok true) := by
  unfold sanity_loop
  rfl

/-- On a doubly linked null-terminated chain the loop accepts exactly when the count and the
tail fit. -/
theorem sanity_loop_of_seg (s : Heap N K) (q : K) : ∀ (l : List N) (pv cur last : Option N)
    (c fuel : Nat), Seg s.node q pv cur l last none → l ≠ [] → c + l.length ≤ SIZE_MAX →
    l.length < fuel →
    (sanity_loop s q fuel pv cur c = some (Except.ok true) ↔
      (c + l.length = (s.list q).count ∧ last = (s.list q).tail)) := by
  intro l
  induction l with
  | nil => intro pv cur last c fuel _ h; exact absurd rfl h
  | cons a l ih =>
    intro pv cur last c fuel hseg _ hlen hfuel
    obtain ⟨f, rfl⟩ : ∃ f, fuel = f + 1 := ⟨fuel - 1, by omega⟩
    unfold Seg at hseg
    obtain ⟨hcur, hprev, hpar, hrest⟩ := hseg
    subst hcur
    simp only [List.length_cons] at hlen hfuel
    have hc : incr c = c + 1 := incr_of_lt c (by omega)
    unfold sanity_loop
    simp only [DEBUG_IF, hc, hprev, hpar, ne_eq, not_true_eq_false, if_false]
    by_cases hl : l = []
    · subst hl
      unfold Seg at hrest
      obtain ⟨hnext, hlast⟩ := hrest
      obtain ⟨g, rfl⟩ : ∃ g, f = g + 1 := ⟨f - 1, by simp at hfuel; omega⟩
      simp only [hnext, if_true, List.length_nil, List.length_cons, sanity_loop_none, hlast]
      by_cases h1 : c + 1 > (s.list q).count
      · simp [h1]; omega
      · by_cases h2 : c + 1 = (s.list q).count
        · by_cases h3 : some a = (s.list q).tail <;> simp [h1, h2, h3]
        · simp [h1, h2]
    · have hnext : ¬ (s.node a).next = none := by
        intro e
        rcases Seg.cur_cases l _ _ _ _ hrest with ⟨e1, -⟩ | ⟨-, b, -, e2⟩
        · exact hl e1
        · rw [e2] at e; exact absurd e (by simp)
      have key := ih (some a) (s.node a).next last (c + 1) f hrest hl (by omega) (by omega)
      simp only [hnext, if_false, List.length_cons]
      by_cases h1 : c + 1 > (s.list q).count
      · simp [h1]; omega
      · simp only [h1, if_false]
        rw [key]
        constructor <;> rintro ⟨e1, e2⟩ <;> exact ⟨by omega, e2⟩

/-- When the loop accepts, the nodes it visited form a doubly linked null-terminated chain. -/
theorem sanity_loop_sound (s : Heap N K) (q : K) : ∀ (fuel : Nat) (pv cur : Option N) (c : Nat),
    sanity_loop s q fuel pv cur c = some (Except.ok true) →
    ∃ l last, Seg s.node q pv cur l last none ∧ l.length < fuel := by
  intro fuel
  induction fuel with
  | zero =>
    intro pv cur c h
    unfold sanity_loop at h
    exact absurd h (by simp)
  | succ f ih =>
    intro pv cur c h
    rcases cur with _ | a
    · exact ⟨[], pv, by unfold Seg; exact ⟨rfl, rfl⟩, by simp⟩
    · unfold sanity_loop at h
      simp only [DEBUG_IF] at h
      by_cases h1 : incr c > (s.list q).count
      · simp [h1] at h
      · by_cases h2 : pv = (s.node a).prev
        · by_cases h3 : some q = (s.node a).parent
          · have hrec : sanity_loop s q f (some a) (s.node a).next (incr c) =
                some (Except.ok true) := by
              by_cases h4 : (s.node a).next = none
              · by_cases h5 : incr c = (s.list q).count
                · by_cases h6 : some a = (s.list q).tail
                  · simpa [h1, h2, h3, h4, h5, h6] using h
                  · simp [h1, h2, h3, h4, h5, h6] at h
                · simp [h1, h2, h3, h4, h5] at h
              · simpa [h1, h2, h3, h4] using h
            obtain ⟨l, last, hl, hlen⟩ := ih (some a) (s.node a).next (incr c) hrec
            refine ⟨a :: l, last, ?_, by simp; omega⟩
            unfold Seg
            exact ⟨rfl, h2.symm, h3.symm, hl⟩
          · simp [h1, h2, h3] at h
        · simp [h1, h2] at h

/-- Below SIZE_MAX the loop ends with a result when the fuel exceeds the nodes still allowed. -/
theorem sanity_loop_total (s : Heap N K) (q : K) (hc : (s.list q).count < SIZE_MAX) :
    ∀ (fuel : Nat) (pv cur : Option N) (c : Nat), c ≤ (s.list q).count →
    (s.list q).count + 1 ≤ c + fuel → ∃ r, sanity_loop s q fuel pv cur c = some r := by
  intro fuel
  induction fuel with
  | zero => intro pv cur c h1 h2; omega
  | succ f ih =>
    intro pv cur c h1 h2
    rcases cur with _ | a
    · exact ⟨_, sanity_loop_none s q f pv c⟩
    · have hi : incr c = c + 1 := incr_of_lt c (by omega)
      unfold sanity_loop
      simp only [DEBUG_IF, hi]
      by_cases g1 : c + 1 > (s.list q).count
      · rw [if_pos g1]; exact ⟨_, rfl⟩
      · obtain ⟨r, hr⟩ := ih (some a) (s.node a).next (c + 1) (by omega) (by omega)
        simp only [g1, if_false]
        by_cases g2 : pv ≠ (s.node a).prev
        · rw [if_pos g2]; exact ⟨_, rfl⟩
        · by_cases g3 : some q ≠ (s.node a).parent
          · rw [if_neg g2, if_pos g3]; exact ⟨_, rfl⟩
          · simp only [g2, g3, if_false]
            by_cases g4 : (s.node a).next = none
            · simp only [g4, if_true]
              by_cases g5 : c + 1 ≠ (s.list q).count
              · rw [if_pos g5]; exact ⟨_, rfl⟩
              · by_cases g6 : some a ≠ (s.list q).tail
                · rw [if_neg g5, if_pos g6]; exact ⟨_, rfl⟩
                · simp only [g5, g6, if_false]
                  rw [g4] at hr
                  exact ⟨r, hr⟩
            · simp only [g4, if_false]
              exact ⟨r, hr⟩

end checker

/-! ## Linking next to a position node without owner -/

section freepair

theorem free_before {s : Heap N K} (hwf : WellFormed s) (hsym : LinkSym s) (n p : N)
    (hnp : n ≠ p) (hp : (s.node p).parent = none)
    (hroomn : ∀ r, (s.node n).parent = some r → (s.list r).count ≠ SIZE_MAX) :
    ((LINK_NODE_BEFORE s (some n) (some p)).node n).next = some p ∧
      ((LINK_NODE_BEFORE s (some n) (some p)).node p).prev = some n ∧
      ((LINK_NODE_BEFORE s (some n) (some p)).node n).parent = none ∧
      ((LINK_NODE_BEFORE s (some n) (some p)).node p).parent = none ∧
      (∀ q, (s.node n).parent ≠ some q →
        (LINK_NODE_BEFORE s (some n) (some p)).list q = s.list q) ∧
      (∀ q l, (s.node n).parent = some q → Traversal s q l →
        Traversal (LINK_NODE_BEFORE s (some n) (some p)) q (l.erase n) ∧
        ((LINK_NODE_BEFORE s (some n) (some p)).list q).head =
          (if (s.list q).head = some n then (s.node n).next else (s.list q).head) ∧
        ((LINK_NODE_BEFORE s (some n) (some p)).list q).tail =
          (if (s.list q).tail = some n then (s.node n).prev else (s.list q).tail) ∧
        ((LINK_NODE_BEFORE s (some n) (some p)).list q).count = (s.list q).count - 1) := by
  have hpn : p ≠ n := fun e => hnp e.symm
  rw [LINK_NODE_BEFORE_pos s n p ⟨hnp, parentHasRoom_of hroomn⟩]
  have hfn := hsym.freeNeighbours n
  have hiso := unlink_isolated s n
  have hsym1 := unlink_linkSym hsym n
  have hp1 : ((UNLINK_NODE s (some n)).node p).parent = none := by
    rw [unlink_parent_ne s n p hpn]; exact hp
  have hne : ((UNLINK_NODE s (some n)).node p).prev ≠ some n := by
    intro e
    have := hsym1.prev_next e
    rw [hiso.2.2] at this
    exact absurd this (by simp)
  have hnode := linkBefore_node (UNLINK_NODE s (some n)) n p hnp hne
  have hlist : (linkBefore (UNLINK_NODE s (some n)) n p).list = unlinkList s n := by
    rw [linkBefore_list _ n p hnp, ← UNLINK_NODE_list]
    funext q
    unfold beforeList
    simp [hp1]
  refine ⟨?_, ?_, ?_, ?_, ?_, ?_⟩
  · rw [hnode, spliceIn_self]
  · rw [hnode]; unfold spliceIn; simp [hpn]
  · rw [hnode, spliceIn_self]; exact hp1
  · rw [hnode]; unfold spliceIn; simp [hpn, hp1]
  · intro q hq
    rw [hlist]; unfold unlinkList; simp [hq]
  · intro q l hq ht
    have hl := hwf.listOK ht
    have h1 := unlink_listOK hwf n hfn hl
    have h2 := linkBefore_other n p h1 hnp hne (by rw [hp1]; simp) (hiso.not_owned q) (by
      intro k hk
      rw [hsym1.prev_parent hk, hp1]
      simp)
    have hmem : n ∈ l := (hl.mem_iff n).mpr hq
    refine ⟨h2.traversal, ?_, ?_, ?_⟩
    · rw [hlist]; unfold unlinkList; simp [hq]
    · rw [hlist]; unfold unlinkList; simp [hq]
    · rw [h2.2.1, hl.2.1, List.length_erase_of_mem hmem]

theorem free_after {s : Heap N K} (hwf : WellFormed s) (hsym : LinkSym s) (n p : N)
    (hnp : n ≠ p) (hp : (s.node p).parent = none)
    (hroomn : ∀ r, (s.node n).parent = some r → (s.list r).count ≠ SIZE_MAX) :
    ((LINK_NODE_AFTER s (some n) (some p)).node n).prev = some p ∧
      ((LINK_NODE_AFTER s (some n) (some p)).node p).next = some n ∧
      ((LINK_NODE_AFTER s (some n) (some p)).node n).parent = none ∧
      ((LINK_NODE_AFTER s (some n) (some p)).node p).parent = none ∧
      (∀ q, (s.node n).parent ≠ some q →
        (LINK_NODE_AFTER s (some n) (some p)).list q = s.list q) ∧
      (∀ q l, (s.node n).parent = some q → Traversal s q l →
        Traversal (LINK_NODE_AFTER s (some n) (some p)) q (l.erase n) ∧
        ((LINK_NODE_AFTER s (some n) (some p)).list q).head =
          (if (s.list q).head = some n then (s.node n).next else (s.list q).head) ∧
        ((LINK_NODE_AFTER s (some n) (some p)).list q).tail =
          (if (s.list q).tail = some n then (s.node n).prev else (s.list q).tail) ∧
        ((LINK_NODE_AFTER s (some n) (some p)).list q).count = (s.list q).count - 1) := by
  have hpn : p ≠ n := fun e => hnp e.symm
  rw [LINK_NODE_AFTER_pos s n p ⟨hnp, parentHasRoom_of hroomn⟩]
  have hfn := hsym.freeNeighbours n
  have hiso := unlink_isolated s n
  have hsym1 := unlink_linkSym hsym n
  have hp1 : ((UNLINK_NODE s (some n)).node p).parent = none := by
    rw [unlink_parent_ne s n p hpn]; exact hp
  have hne : ((UNLINK_NODE s (some n)).node p).next ≠ some n := by
    intro e
    have := hsym1.next_prev e
    rw [hiso.2.1] at this
    exact absurd this (by simp)
  have hnode := linkAfter_node (UNLINK_NODE s (some n)) n p hnp hne
  have hlist : (linkAfter (UNLINK_NODE s (some n)) n p).list = unlinkList s n := by
    rw [linkAfter_list _ n p hnp, ← UNLINK_NODE_list]
    funext q
    unfold afterList
    simp [hp1]
  refine ⟨?_, ?_, ?_, ?_, ?_, ?_⟩
  · rw [hnode, spliceIn_self]
  · rw [hnode]; unfold spliceIn; simp [hpn]
  · rw [hnode, spliceIn_self]; exact hp1
  · rw [hnode]; unfold spliceIn; simp [hpn, hp1]
  · intro q hq
    rw [hlist]; unfold unlinkList; simp [hq]
  · intro q l hq ht
    have hl := hwf.listOK ht
    have h1 := unlink_listOK hwf n hfn hl
    have h2 := linkAfter_other n p h1 hnp hne (by rw [hp1]; simp) (hiso.not_owned q) (by
      intro k hk
      rw [← hsym1.next_parent hk, hp1]
      simp)
    have hmem : n ∈ l := (hl.mem_iff n).mpr hq
    refine ⟨h2.traversal, ?_, ?_, ?_⟩
    · rw [hlist]; unfold unlinkList; simp [hq]
    · rw [hlist]; unfold unlinkList; simp [hq]
    · rw [h2.2.1, hl.2.1, List.length_erase_of_mem hmem]

end freepair

/-- C11: with fewer than SIZE_MAX node addresses, in every well-formed memory and for distinct
nodes `n` and `p`: if `p` is the head of its list `q` then `n` is the head of `q` after
LINK_NODE_BEFORE(n, p), and if `p` is the tail of `q` then `n` is the tail of `q` after
LINK_NODE_AFTER(n, p); `n` may be fresh, on another list or already on `q`. -/
theorem C11_positional_ends (hcap : ∀ l : List N, l.Nodup → l.length < SIZE_MAX)
    (s : Heap N K) (hwf : WellFormed s) (n p : N) (q : K) (hnp : n ≠ p) :
    ((s.list q).head = some p →
      ((LINK_NODE_BEFORE s (some n) (some p)).list q).head = some n) ∧
    ((s.list q).tail = some p →
      ((LINK_NODE_AFTER s (some n) (some p)).list q).tail = some n) := by
  obtain ⟨l, hl⟩ := (wellFormed_iff s).mp hwf q
  have hg := parentHasRoom_of_capacity hcap hwf n
  exact ⟨fun hh => before_head s n p q hnp hg (hl.head_parent p hh) hh,
    fun ht => after_tail s n p q hnp hg (hl.tail_parent p ht) ht⟩

/-- C11 on the list a, b, c: the tail c moved in front of the head a becomes the head, and
the head a moved behind the tail c becomes the tail. -/
theorem C11_positional_ends_witness :
    (∀ l : List (Fin 4), l.Nodup → l.length < SIZE_MAX) ∧ WellFormed abc ∧
      (abc.list 0).head = some 0 ∧ (abc.list 0).tail = some 2 ∧
      ((LINK_NODE_BEFORE abc (some 2) (some 0)).list 0).head = some 2 ∧
      ((LINK_NODE_AFTER abc (some 0) (some 2)).list 0).tail = some 0 :=
  ⟨fin_capacity_lt 4 (by decide), by decide, by decide, by decide,
    (C11_positional_ends (fin_capacity_lt 4 (by decide)) abc (by decide) 2 0 0
      (by decide)).1 (by decide),
    (C11_positional_ends (fin_capacity_lt 4 (by decide)) abc (by decide) 0 2 0
      (by decide)).2 (by decide)⟩

/-- C12: in a well-formed memory, for distinct lists `a` and `b` with the count of `b` below
SIZE_MAX and a node `n` on `a`, LINK_NODE_LAST(n, b) decrements the count of `a`, increments
the count of `b`, sets the parent of `n` to `b`, leaves on `a` the old traversal without `n`
and on `b` the old traversal followed by `n`, which is the tail of `b`. -/
theorem C12_move_between_lists (s : Heap N K) (hwf : WellFormed s) (a b : K)
    (la lb : List N) (n : N) (hab : a ≠ b) (hta : Traversal s a la) (htb : Traversal s b lb)
    (hn : n ∈ la) (hroom : (s.list b).count < SIZE_MAX) :
    ((LINK_NODE_LAST s (some n) (some b)).list a).count = (s.list a).count - 1 ∧
      ((LINK_NODE_LAST s (some n) (some b)).list b).count = (s.list b).count + 1 ∧
      ((LINK_NODE_LAST s (some n) (some b)).node n).parent = some b ∧
      Traversal (LINK_NODE_LAST s (some n) (some b)) a (la.erase n) ∧ n ∉ la.erase n ∧
      (la.erase n).Sublist la ∧
      Traversal (LINK_NODE_LAST s (some n) (some b)) b (lb ++ [n]) ∧
      ((LINK_NODE_LAST s (some n) (some b)).list b).tail = some n := by
  have hla := hwf.listOK hta
  have hlb := hwf.listOK htb
  have hpa := (hla.mem_iff n).mp hn
  have hnb : (s.node n).parent ≠ some b := by
    rw [hpa]; exact fun e => hab (Option.some.inj e)
  have hnlb : n ∉ lb := fun hh => hnb ((hlb.mem_iff n).mp hh)
  have hfn : FreeNeighbours s n := freeNeighbours_of_or (Or.inr (by rw [hpa]; simp))
  have hg : some n ≠ (s.list b).tail ∧ (s.list b).count ≠ SIZE_MAX :=
    ⟨fun e => hlb.tail_ne n hnb e.symm, by omega⟩
  rw [LINK_NODE_LAST_pos s n b hg]
  have h1a := unlink_listOK hwf n hfn hla
  have h1b := unlink_listOK hwf n hfn hlb
  rw [List.erase_of_not_mem hnlb] at h1b
  have hiso := unlink_isolated s n
  have hroom1 := room_of_ne hwf n hfn b hg.2
  have h2b := linkLast_ok n h1b (hiso.not_owned b) hroom1
  have h2a := linkLast_other n h1a h1b hab hiso.1
  have hnode := linkLast_node (UNLINK_NODE s (some n)) n b (h1b.tail_ne n (hiso.not_owned b))
  refine ⟨?_, ?_, ?_, h2a.traversal, ?_, List.erase_sublist n la, h2b.traversal, ?_⟩
  · rw [h2a.2.1, hla.2.1, List.length_erase_of_mem hn]
  · rw [h2b.2.1, hlb.2.1]; simp
  · rw [hnode, spliceIn_self]
  · intro hh
    exact ((hla.nodup.mem_erase_iff).mp hh).1 rfl
  · rw [linkLast_list]; simp

/-- C12 at two lists `0, 1, 2` and `3`: LINK_NODE_LAST(1, list 1) leaves `0, 2` and `3, 1`. -/
theorem C12_move_between_lists_witness :
    WellFormed twoLists ∧ Traversal twoLists 0 [0, 1, 2] ∧ Traversal twoLists 1 [3] ∧
      ((LINK_NODE_LAST twoLists (some 1) (some 1)).list 0).count = 2 ∧
      ((LINK_NODE_LAST twoLists (some 1) (some 1)).list 1).count = 2 ∧
      ((LINK_NODE_LAST twoLists (some 1) (some 1)).node 1).parent = some 1 ∧
      Traversal (LINK_NODE_LAST twoLists (some 1) (some 1)) 0 [0, 2] ∧
      Traversal (LINK_NODE_LAST twoLists (some 1) (some 1)) 1 [3, 1] := by
  have h := C12_move_between_lists twoLists (by decide) 0 1 [0, 1, 2] [3] 1 (by decide)
    (by decide) (by decide) (by decide) (by decide)
  exact ⟨by decide, by decide, by decide, h.1.trans (by decide), h.2.1.trans (by decide),
    h.2.2.1, h.2.2.2.1, h.2.2.2.2.2.2.1⟩

/-- C13: in every memory, LINK_NODE_FIRST(n, q) changes nothing when `n` is already the head
of `q`, and LINK_NODE_LAST(n, q) changes nothing when `n` is already the tail of `q`. -/
theorem C13_already_in_place (s : Heap N K) (n : N) (q : K) :
    ((s.list q).head = some n → LINK_NODE_FIRST s (some n) (some q) = s) ∧
    ((s.list q).tail = some n → LINK_NODE_LAST s (some n) (some q) = s) :=
  ⟨fun h => LINK_NODE_FIRST_neg s n q (fun hg => hg.1 h.symm),
    fun h => LINK_NODE_LAST_neg s n q (fun hg => hg.1 h.symm)⟩

/-- C13 on the list a, b, c: linking the head first and the tail last change nothing. -/
theorem C13_already_in_place_witness :
    (abc.list 0).head = some 0 ∧ (abc.list 0).tail = some 2 ∧
      LINK_NODE_FIRST abc (some 0) (some 0) = abc ∧
      LINK_NODE_LAST abc (some 2) (some 0) = abc :=
  ⟨by decide, by decide, (C13_already_in_place abc 0 0).1 (by decide),
    (C13_already_in_place abc 2 0).2 (by decide)⟩

/-- C14: in every memory in which list `q` has count SIZE_MAX, LINK_NODE_FIRST and
LINK_NODE_LAST onto `q` leave the whole memory unchanged for every node pointer: the count
does not wrap and a node that belongs to a list is not unlinked. -/
theorem C14_full_list_refuses (s : Heap N K) (q : K) (o : Option N)
    (h : (s.list q).count = SIZE_MAX) :
    LINK_NODE_FIRST s o (some q) = s ∧ LINK_NODE_LAST s o (some q) = s := by
  rcases o with _ | n
  · exact ⟨rfl, rfl⟩
  · exact ⟨LINK_NODE_FIRST_neg s n q (fun hg => hg.2 h),
      LINK_NODE_LAST_neg s n q (fun hg => hg.2 h)⟩

/-- C14 at the memory `full`, whose list `0` records the count SIZE_MAX: node `1`, which
belongs to list `1`, is neither linked to list `0` nor unlinked from list `1`. -/
theorem C14_full_list_refuses_witness :
    (full.list 0).count = SIZE_MAX ∧ LINK_NODE_FIRST full (some 1) (some 0) = full ∧
      LINK_NODE_LAST full (some 1) (some 0) = full :=
  ⟨by decide, C14_full_list_refuses full 0 (some 1) (by decide)⟩

/-- C15, the code at a failing input: in the well-formed memory `big` node `0` is part of a
list whose count is SIZE_MAX, and yet LINK_NODE_BEFORE and LINK_NODE_AFTER of the
zero-initialised node `SIZE_MAX` next to node `0` take action: the node is linked and the
count wraps to 0. The same happens in the small memory `full`, whose list `0` records the
count SIZE_MAX. -/
theorem C15_code_at_failing_input :
    WellFormed big ∧ (big.node 0).parent = some () ∧ (big.list ()).count = SIZE_MAX ∧
      ((LINK_NODE_BEFORE big (some SIZE_MAX) (some 0)).list ()).count = 0 ∧
      ((LINK_NODE_BEFORE big (some SIZE_MAX) (some 0)).list ()).head = some SIZE_MAX ∧
      ((LINK_NODE_BEFORE big (some SIZE_MAX) (some 0)).node SIZE_MAX).parent = some () ∧
      ((LINK_NODE_AFTER big (some SIZE_MAX) (some 0)).list ()).count = 0 ∧
      ((LINK_NODE_AFTER big (some SIZE_MAX) (some 0)).node 0).next = some SIZE_MAX ∧
      (full.node 0).parent = some 0 ∧ (full.list 0).count = SIZE_MAX ∧
      ((LINK_NODE_BEFORE full (some 2) (some 0)).list 0).count = 0 ∧
      ((LINK_NODE_BEFORE full (some 2) (some 0)).list 0).head = some 2 :=
  ⟨big_wellFormed, by decide, by decide, by decide, by decide, by decide, by decide,
    by decide, by decide, by decide, by decide, by decide⟩

/-- C16: in every memory, UNLINK_NODE of a null pointer, LINK_NODE_FIRST and LINK_NODE_LAST
with a null node or a null list, and LINK_NODE_BEFORE and LINK_NODE_AFTER with a null node,
a null position node or a node identical to the position node return the memory unchanged;
the macros produce nothing but the memory, so nothing is signalled. -/
theorem C16_invalid_arguments (s : Heap N K) (n : N) (o : Option N) (q : Option K) :
    UNLINK_NODE s none = s ∧
      LINK_NODE_FIRST s none q = s ∧ LINK_NODE_FIRST s o none = s ∧
      LINK_NODE_LAST s none q = s ∧ LINK_NODE_LAST s o none = s ∧
      LINK_NODE_BEFORE s none o = s ∧ LINK_NODE_BEFORE s o none = s ∧
      LINK_NODE_BEFORE s (some n) (some n) = s ∧
      LINK_NODE_AFTER s none o = s ∧ LINK_NODE_AFTER s o none = s ∧
      LINK_NODE_AFTER s (some n) (some n) = s := by
  refine ⟨rfl, ?_, ?_, ?_, ?_, ?_, ?_, ?_, ?_, ?_, ?_⟩
  · cases q <;> rfl
  · cases o <;> rfl
  · cases q <;> rfl
  · cases o <;> rfl
  · cases o <;> rfl
  · cases o <;> rfl
  · exact LINK_NODE_BEFORE_neg s n n (fun hg => hg.1 rfl)
  · cases o <;> rfl
  · cases o <;> rfl
  · exact LINK_NODE_AFTER_neg s n n (fun hg => hg.1 rfl)

/-- C20: in every memory and for distinct nodes `n` and `p`, LINK_NODE_BEFORE(n, p) and
LINK_NODE_AFTER(n, p) change nothing when `n` belongs to a list at count SIZE_MAX, whatever
the list of `p` is; and when `n` has no parent or its list is not at SIZE_MAX they run the
link whatever the count of the list of `p` is: `p->prev` (resp. `p->next`) is `n` and the
parent of `n` is that of `p`. -/
theorem C20_guard_reads_node_list (s : Heap N K) (n p : N) (hnp : n ≠ p) :
    ((∃ r, (s.node n).parent = some r ∧ (s.list r).count = SIZE_MAX) →
      LINK_NODE_BEFORE s (some n) (some p) = s ∧ LINK_NODE_AFTER s (some n) (some p) = s) ∧
    (((s.node n).parent = none ∨
        ∃ r, (s.node n).parent = some r ∧ (s.list r).count ≠ SIZE_MAX) →
      LINK_NODE_BEFORE s (some n) (some p) = linkBefore (UNLINK_NODE s (some n)) n p ∧
        ((LINK_NODE_BEFORE s (some n) (some p)).node p).prev = some n ∧
        ((LINK_NODE_BEFORE s (some n) (some p)).node n).parent = (s.node p).parent ∧
        LINK_NODE_AFTER s (some n) (some p) = linkAfter (UNLINK_NODE s (some n)) n p ∧
        ((LINK_NODE_AFTER s (some n) (some p)).node p).next = some n ∧
        ((LINK_NODE_AFTER s (some n) (some p)).node n).parent = (s.node p).parent) := by
  have hpn : p ≠ n := fun e => hnp e.symm
  constructor
  · rintro ⟨r, hr, hc⟩
    exact ⟨LINK_NODE_BEFORE_neg s n p (fun hg => parentHasRoom_false hr hc hg.2),
      LINK_NODE_AFTER_neg s n p (fun hg => parentHasRoom_false hr hc hg.2)⟩
  · intro h
    have hg := parentHasRoom_true h
    have e1 := LINK_NODE_BEFORE_pos s n p ⟨hnp, hg⟩
    have e2 := LINK_NODE_AFTER_pos s n p ⟨hnp, hg⟩
    have b := linkBefore_prev (UNLINK_NODE s (some n)) n p hnp
    have a := linkAfter_next (UNLINK_NODE s (some n)) n p hnp
    rw [unlink_parent_ne s n p hpn] at a b
    rw [e1, e2]
    exact ⟨rfl, b.1, b.2, rfl, a.1, a.2⟩

/-- C20 at the memory `full`: node `0` of the full list `0` is not moved next to node `1`,
whose list has room, and the zero-initialised node `2` is linked in front of node `0`
although the list of node `0` is at count SIZE_MAX. -/
theorem C20_guard_reads_node_list_witness :
    (full.node 0).parent = some 0 ∧ (full.list 0).count = SIZE_MAX ∧
      (full.list 1).count = 1 ∧ (full.node 2).parent = none ∧
      LINK_NODE_BEFORE full (some 0) (some 1) = full ∧
      LINK_NODE_AFTER full (some 0) (some 1) = full ∧
      ((LINK_NODE_BEFORE full (some 2) (some 0)).node 0).prev = some 2 ∧
      ((LINK_NODE_BEFORE full (some 2) (some 0)).node 2).parent = some 0 := by
  have h1 := (C20_guard_reads_node_list full 0 1 (by decide)).1 ⟨0, by decide, by decide⟩
  have h2 := (C20_guard_reads_node_list full 2 0 (by decide)).2 (Or.inl (by decide))
  exact ⟨by decide, by decide, by decide, by decide, h1.1, h1.2, h2.2.1, h2.2.2.1⟩

/-- C17, as stated, fails: `stalePair` is well-formed in the sense of the claim, node `1`
has no parent, node `0` is another node without list, and after LINK_NODE_BEFORE(0, 1) the
next of node `0` is node `0` itself, not node `1` (the stale `prev` of node `1` pointed to
node `0`). -/
theorem C17_counterexample :
    WellFormed stalePair ∧ (stalePair.node 1).parent = none ∧ (0 : Fin 2) ≠ 1 ∧
      (stalePair.node 0).parent = none ∧
      ((LINK_NODE_BEFORE stalePair (some 0) (some 1)).node 0).next = some 0 ∧
      ((LINK_NODE_BEFORE stalePair (some 0) (some 1)).node 0).next ≠ some 1 := by
  decide

/-- C17, amended: in a well-formed memory with mutual links, for a position node `p` without
parent and another node `n` whose list (if any) is not at count SIZE_MAX,
LINK_NODE_BEFORE(n, p) links the two with no owner (`n->next` is `p`, `p->prev` is `n`, both
parents NULL); the members of every list that did not own `n` are unchanged, and the list
that owned `n` loses `n` from its traversal, with head and tail moved past `n` and count
reduced by one. LINK_NODE_AFTER does the same with `p->next` and `n->prev`. -/
theorem C17_free_pair (s : Heap N K) (hwf : WellFormed s) (hsym : LinkSym s) (n p : N)
    (hnp : n ≠ p) (hp : (s.node p).parent = none)
    (hroomn : ∀ r, (s.node n).parent = some r → (s.list r).count ≠ SIZE_MAX) :
    (((LINK_NODE_BEFORE s (some n) (some p)).node n).next = some p ∧
      ((LINK_NODE_BEFORE s (some n) (some p)).node p).prev = some n ∧
      ((LINK_NODE_BEFORE s (some n) (some p)).node n).parent = none ∧
      ((LINK_NODE_BEFORE s (some n) (some p)).node p).parent = none ∧
      (∀ q, (s.node n).parent ≠ some q →
        (LINK_NODE_BEFORE s (some n) (some p)).list q = s.list q) ∧
      (∀ q l, (s.node n).parent = some q → Traversal s q l →
        Traversal (LINK_NODE_BEFORE s (some n) (some p)) q (l.erase n) ∧
        ((LINK_NODE_BEFORE s (some n) (some p)).list q).head =
          (if (s.list q).head = some n then (s.node n).next else (s.list q).head) ∧
        ((LINK_NODE_BEFORE s (some n) (some p)).list q).tail =
          (if (s.list q).tail = some n then (s.node n).prev else (s.list q).tail) ∧
        ((LINK_NODE_BEFORE s (some n) (some p)).list q).count = (s.list q).count - 1)) ∧
    (((LINK_NODE_AFTER s (some n) (some p)).node n).prev = some p ∧
      ((LINK_NODE_AFTER s (some n) (some p)).node p).next = some n ∧
      ((LINK_NODE_AFTER s (some n) (some p)).node n).parent = none ∧
      ((LINK_NODE_AFTER s (some n) (some p)).node p).parent = none ∧
      (∀ q, (s.node n).parent ≠ some q →
        (LINK_NODE_AFTER s (some n) (some p)).list q = s.list q) ∧
      (∀ q l, (s.node n).parent = some q → Traversal s q l →
        Traversal (LINK_NODE_AFTER s (some n) (some p)) q (l.erase n) ∧
        ((LINK_NODE_AFTER s (some n) (some p)).list q).head =
          (if (s.list q).head = some n then (s.node n).next else (s.list q).head) ∧
        ((LINK_NODE_AFTER s (some n) (some p)).list q).tail =
          (if (s.list q).tail = some n then (s.node n).prev else (s.list q).tail) ∧
        ((LINK_NODE_AFTER s (some n) (some p)).list q).count = (s.list q).count - 1)) :=
  ⟨free_before hwf hsym n p hnp hp hroomn, free_after hwf hsym n p hnp hp hroomn⟩

/-- C17, amended, on the list a, b, c and the zero-initialised node `3`: b is linked in
front of node `3` outside any list, and list `0` keeps a, c with count 2. -/
theorem C17_free_pair_witness :
    WellFormed abc ∧ LinkSym abc ∧ (abc.node 3).parent = none ∧
      (abc.node 1).parent = some 0 ∧ Traversal abc 0 [0, 1, 2] ∧
      ((LINK_NODE_BEFORE abc (some 1) (some 3)).node 1).next = some 3 ∧
      ((LINK_NODE_BEFORE abc (some 1) (some 3)).node 3).prev = some 1 ∧
      ((LINK_NODE_BEFORE abc (some 1) (some 3)).node 1).parent = none ∧
      (LINK_NODE_BEFORE abc (some 1) (some 3)).list 1 = abc.list 1 ∧
      Traversal (LINK_NODE_BEFORE abc (some 1) (some 3)) 0 [0, 2] ∧
      ((LINK_NODE_BEFORE abc (some 1) (some 3)).list 0).count = 2 := by
  have h := (C17_free_pair abc (by decide) (by decide) 1 3 (by decide) (by decide)
    (by decide)).1
  have h2 := h.2.2.2.2.2 0 [0, 1, 2] (by decide) (by decide)
  exact ⟨by decide, by decide, by decide, by decide, by decide, h.1, h.2.1, h.2.2.1,
    h.2.2.2.2.1 1 (by decide), h2.1, h2.2.2.2.trans (by decide)⟩

/-- C18, as stated, fails: the free pair is reachable from zero-initialised memory by one
call of LINK_NODE_BEFORE, and its node `0` has no parent but a `next` link. -/
theorem C18_counterexample :
    Reachable freePair ∧ (freePair.node 0).parent = none ∧
      (freePair.node 0).next = some 1 ∧
      ¬ ((freePair.node 0).parent = none ↔
        ((freePair.node 0).prev = none ∧ (freePair.node 0).next = none ∧
          ∀ q l, Traversal freePair q l → (0 : Fin 2) ∉ l)) := by
  refine ⟨Reachable.step _ (Op.before (some 0) (some 1)) Reachable.init, by decide,
    by decide, ?_⟩
  intro h
  have h2 := (h.mp (by decide)).2.1
  revert h2
  decide

/-- C18, amended: in every memory reachable from zero-initialised lists and nodes (with no
more than SIZE_MAX node addresses) every node has no parent exactly when it is on the
traversal of no list, a node with parent `q` is on the traversal of `q`, the links of a node
without parent lead only to nodes without parent, and all links are mutual. -/
theorem C18_node_invariant (hcap : ∀ l : List N, l.Nodup → l.length ≤ SIZE_MAX)
    (s : Heap N K) (hr : Reachable s) (n : N) :
    ((s.node n).parent = none ↔ ∀ q l, Traversal s q l → n ∉ l) ∧
      (∀ q, (s.node n).parent = some q → ∃ l, Traversal s q l ∧ n ∈ l) ∧
      ((s.node n).parent = none → ∀ k,
        (s.node n).prev = some k ∨ (s.node n).next = some k → (s.node k).parent = none) ∧
      (∀ k, (s.node n).next = some k ↔ (s.node k).prev = some n) := by
  obtain ⟨hwf, hsym⟩ := reachable_inv hcap hr
  have hown : ∀ q, (s.node n).parent = some q → ∃ l, Traversal s q l ∧ n ∈ l := by
    intro q hq
    obtain ⟨l, hl⟩ := (wellFormed_iff s).mp hwf q
    exact ⟨l, hl.traversal, (hl.mem_iff n).mpr hq⟩
  refine ⟨⟨?_, ?_⟩, hown, hsym.freeNeighbours n, fun k => (hsym n k).1⟩
  · intro hp q l ht hn
    have := ((hwf.listOK ht).mem_iff n).mp hn
    rw [hp] at this
    exact absurd this (by simp)
  · intro h
    rcases hq : (s.node n).parent with _ | q
    · rfl
    · obtain ⟨l, ht, hn⟩ := hown q hq
      exact absurd hn (h q l ht)

/-- C18, amended, at the free pair: node `0` has no parent and is on no traversal, and its
`next` link leads to node `1`, which has no parent and whose `prev` is node `0`. -/
theorem C18_node_invariant_witness :
    (∀ l : List (Fin 2), l.Nodup → l.length ≤ SIZE_MAX) ∧ Reachable freePair ∧
      ((freePair.node 0).parent = none ↔ ∀ q l, Traversal freePair q l → (0 : Fin 2) ∉ l) ∧
      (freePair.node 1).parent = none ∧ (freePair.node 1).prev = some 0 := by
  have hr : Reachable freePair := Reachable.step _ (Op.before (some 0) (some 1)) Reachable.init
  have h := C18_node_invariant (fin_capacity 2 (by decide)) freePair hr 0
  exact ⟨fin_capacity 2 (by decide), hr, h.1, h.2.2.1 (by decide) 1 (Or.inr (by decide)),
    (h.2.2.2 1).mp (by decide)⟩

/-- C19: with no more than SIZE_MAX node addresses and fuel above the recorded count,
`sanity_check_list` on a non-null list returns true exactly when the count is 0 and head and
tail are NULL, or the count is positive, head and tail are present and the next-chain from
head is null-terminated, doubly linked with parent equal to the list throughout, ends at
tail and has exactly count nodes. A zero-initialised list is accepted, and for a count
below SIZE_MAX the check always ends with a result. -/
theorem C19_checker_sound_complete (hcap : ∀ l : List N, l.Nodup → l.length ≤ SIZE_MAX)
    (s : Heap N K) (q : K) (fuel : Nat) (hfuel : (s.list q).count < fuel) :
    (sanity_check_list fuel s (some q) = some (Except.ok true) ↔
      ((s.list q).count = 0 ∧ (s.list q).head = none ∧ (s.list q).tail = none) ∨
      ((s.list q).count > 0 ∧ (s.list q).head ≠ none ∧ (s.list q).tail ≠ none ∧
        ∃ l, Seg s.node q none (s.list q).head l (s.list q).tail none ∧
          (s.list q).count = l.length)) ∧
    sanity_check_list fuel (zeroed : Heap N K) (some q) = some (Except.ok true) ∧
    ((s.list q).count < SIZE_MAX → ∃ r, sanity_check_list fuel s (some q) = some r) := by
  refine ⟨?_, ?_, ?_⟩
  · unfold sanity_check_list
    by_cases h0 : (s.list q).count = 0
    · simp only [h0, if_true, DEBUG_IF]
      by_cases h1 : (s.list q).head = none <;> by_cases h2 : (s.list q).tail = none <;>
        simp [h1, h2]
    · have hpos : (s.list q).count > 0 := Nat.pos_of_ne_zero h0
      simp only [h0, if_false, DEBUG_IF, false_and, false_or]
      by_cases h1 : (s.list q).head = none
      · by_cases h2 : (s.list q).tail = none <;> simp [h1, h2]
      · by_cases h2 : (s.list q).tail = none
        · simp [h1, h2]
        · simp only [h1, h2, false_and, if_false, ne_eq, not_false_eq_true, true_and, hpos]
          constructor
          · intro h
            obtain ⟨l, last, hl, hlen⟩ := sanity_loop_sound s q fuel none _ 0 h
            have hne : l ≠ [] := by
              intro e
              subst e
              unfold Seg at hl
              exact h1 hl.1
            have hcapl := hcap l (Chain.no_repeat l _ (Seg.chain l _ _ _ hl))
            have key := (sanity_loop_of_seg s q l none _ last 0 fuel hl hne (by omega)
              hlen).mp h
            refine ⟨l, ?_, by omega⟩
            rw [← key.2]
            exact hl
          · rintro ⟨l, hl, hlen⟩
            have hne : l ≠ [] := by
              intro e
              subst e
              simp at hlen
              exact h0 hlen
            have hcapl := hcap l (Chain.no_repeat l _ (Seg.chain l _ _ _ hl))
            exact (sanity_loop_of_seg s q l none _ _ 0 fuel hl hne (by omega)
              (by omega)).mpr ⟨by omega, rfl⟩
  · simp [sanity_check_list, zeroed, DEBUG_IF]
  · intro hc
    unfold sanity_check_list
    by_cases h0 : (s.list q).count = 0
    · simp only [h0, if_true, DEBUG_IF]
      by_cases h1 : (s.list q).head = none <;> by_cases h2 : (s.list q).tail = none <;>
        simp [h1, h2]
    · simp only [h0, if_false, DEBUG_IF]
      by_cases h1 : (s.list q).head = none
      · by_cases h2 : (s.list q).tail = none <;> simp [h1, h2]
      · by_cases h2 : (s.list q).tail = none
        · simp [h1, h2]
        · simp only [h1, h2, false_and, if_false]
          exact sanity_loop_total s q hc fuel none _ 0 (by omega) (by omega)

/-- C19 on the list a, b, c with fuel 4: the checker accepts it, and it accepts the empty
list `1`. -/
theorem C19_checker_sound_complete_witness :
    (∀ l : List (Fin 4), l.Nodup → l.length ≤ SIZE_MAX) ∧ (abc.list 0).count < 4 ∧
      sanity_check_list 4 abc (some 0) = some (Except.ok true) ∧
      (∃ l, Seg abc.node 0 none (abc.list 0).head l (abc.list 0).tail none ∧
        (abc.list 0).count = l.length) ∧
      sanity_check_list 4 abc (some 1) = some (Except.ok true) := by
  have h := C19_checker_sound_complete (fin_capacity 4 (by decide)) abc 0 4 (by decide)
  have h1 : sanity_check_list 4 abc (some 0) = some (Except.ok true) := by decide
  have h2 := h.1.mp h1
  refine ⟨fin_capacity 4 (by decide), by decide, h1, ?_, by decide⟩
  rcases h2 with h2 | h2
  · exact absurd h2.1 (by decide)
  · exact h2.2.2.2

/-! ## The positional macros without any assumption on the links of the position -/

theorem linkBefore_node_gen (t : Heap N K) (n p : N) (hnp : n ≠ p) (k : N) :
    (linkBefore t n p).node k =
      if k = n then
        { prev := (t.node p).prev
          next := if (t.node p).prev = some n then some n else some p
          parent := (t.node p).parent }
      else
        { prev := if k = p then some n else (t.node k).prev
          next := if (t.node p).prev = some k then some n else (t.node k).next
          parent := (t.node k).parent } := by
  unfold linkBefore
  have hpn : ¬ p = n := fun h => hnp h.symm
  rcases hx : (t.node p).prev with _ | x
  · rcases hq : (t.node p).parent with _ | r
    · by_cases h0 : k = n <;> by_cases h1 : k = p <;>
        apply NodeMembers.ext <;> simp [hx, hq, hpn, hnp, h0, h1, eq_comm] <;>
        (try split_ifs) <;> (try simp_all)
    · by_cases h4 : (t.list r).head = some p <;> by_cases h0 : k = n <;> by_cases h1 : k = p <;>
        apply NodeMembers.ext <;> simp [hx, hq, hpn, hnp, h0, h1, h4, eq_comm] <;>
        (try split_ifs) <;> (try simp_all)
  · by_cases hxn : x = n
    · subst hxn
      rcases hq : (t.node p).parent with _ | r
      · by_cases h0 : k = x <;> by_cases h1 : k = p <;>
          apply NodeMembers.ext <;> simp [hx, hq, hpn, hnp, h0, h1, eq_comm] <;>
          (try split_ifs) <;> (try simp_all)
      · by_cases h4 : (t.list r).head = some p <;> by_cases h0 : k = x <;>
          by_cases h1 : k = p <;>
          apply NodeMembers.ext <;> simp [hx, hq, hpn, hnp, h0, h1, h4, eq_comm] <;>
          (try split_ifs) <;> (try simp_all)
    · have hnx : ¬ n = x := fun h => hxn h.symm
      by_cases h3 : x = p
      · subst h3
        rcases hq : (t.node x).parent with _ | r
        · by_cases h0 : k = n <;> by_cases h1 : k = x <;>
            apply NodeMembers.ext <;> simp [hx, hq, hpn, hnp, h0, h1, eq_comm] <;>
            (try split_ifs) <;> (try simp_all)
        · by_cases h4 : (t.list r).head = some x <;> by_cases h0 : k = n <;>
            by_cases h1 : k = x <;>
            apply NodeMembers.ext <;> simp [hx, hq, hpn, hnp, h0, h1, h4, eq_comm] <;>
            (try split_ifs) <;> (try simp_all)
      · have h3b : ¬ p = x := fun h => h3 h.symm
        rcases hq : (t.node p).parent with _ | r
        · by_cases h0 : k = n <;> by_cases h1 : k = p <;> by_cases h2 : k = x <;>
            apply NodeMembers.ext <;>
            simp [hx, hq, hpn, hnp, hnx, hxn, h0, h1, h2, h3, h3b, eq_comm] <;>
            (try split_ifs) <;> (try simp_all)
        · by_cases h4 : (t.list r).head = some p <;> by_cases h0 : k = n <;>
            by_cases h1 : k = p <;> by_cases h2 : k = x <;>
            apply NodeMembers.ext <;>
            simp [hx, hq, hpn, hnp, hnx, hxn, h0, h1, h2, h3, h3b, h4, eq_comm] <;>
            (try split_ifs) <;> (try simp_all)

theorem linkAfter_node_gen (t : Heap N K) (n p : N) (hnp : n ≠ p) (k : N) :
    (linkAfter t n p).node k =
      if k = n then
        { prev := if (t.node p).next = some n then some n else some p
          next := (t.node p).next
          parent := (t.node p).parent }
      else
        { prev := if (t.node p).next = some k then some n else (t.node k).prev
          next := if k = p then some n else (t.node k).next
          parent := (t.node k).parent } := by
  unfold linkAfter
  have hpn : ¬ p = n := fun h => hnp h.symm
  rcases hx : (t.node p).next with _ | x
  · rcases hq : (t.node p).parent with _ | r
    · by_cases h0 : k = n <;> by_cases h1 : k = p <;>
        apply NodeMembers.ext <;> simp [hx, hq, hpn, hnp, h0, h1, eq_comm] <;>
        (try split_ifs) <;> (try simp_all)
    · by_cases h4 : (t.list r).tail = some p <;> by_cases h0 : k = n <;> by_cases h1 : k = p <;>
        apply NodeMembers.ext <;> simp [hx, hq, hpn, hnp, h0, h1, h4, eq_comm] <;>
        (try split_ifs) <;> (try simp_all)
  · by_cases hxn : x = n
    · subst hxn
      rcases hq : (t.node p).parent with _ | r
      · by_cases h0 : k = x <;> by_cases h1 : k = p <;>
          apply NodeMembers.ext <;> simp [hx, hq, hpn, hnp, h0, h1, eq_comm] <;>
          (try split_ifs) <;> (try simp_all)
      · by_cases h4 : (t.list r).tail = some p <;> by_cases h0 : k = x <;>
          by_cases h1 : k = p <;>
          apply NodeMembers.ext <;> simp [hx, hq, hpn, hnp, h0, h1, h4, eq_comm] <;>
          (try split_ifs) <;> (try simp_all)
    · have hnx : ¬ n = x := fun h => hxn h.symm
      by_cases h3 : x = p
      · subst h3
        rcases hq : (t.node x).parent with _ | r
        · by_cases h0 : k = n <;> by_cases h1 : k = x <;>
            apply NodeMembers.ext <;> simp [hx, hq, hpn, hnp, h0, h1, eq_comm] <;>
            (try split_ifs) <;> (try simp_all)
        · by_cases h4 : (t.list r).tail = some x <;> by_cases h0 : k = n <;>
            by_cases h1 : k = x <;>
            apply NodeMembers.ext <;> simp [hx, hq, hpn, hnp, h0, h1, h4, eq_comm] <;>
            (try split_ifs) <;> (try simp_all)
      · have h3b : ¬ p = x := fun h => h3 h.symm
        rcases hq : (t.node p).parent with _ | r
        · by_cases h0 : k = n <;> by_cases h1 : k = p <;> by_cases h2 : k = x <;>
            apply NodeMembers.ext <;>
            simp [hx, hq, hpn, hnp, hnx, hxn, h0, h1, h2, h3, h3b, eq_comm] <;>
            (try split_ifs) <;> (try simp_all)
        · by_cases h4 : (t.list r).tail = some p <;> by_cases h0 : k = n <;>
            by_cases h1 : k = p <;> by_cases h2 : k = x <;>
            apply NodeMembers.ext <;>
            simp [hx, hq, hpn, hnp, hnx, hxn, h0, h1, h2, h3, h3b, h4, eq_comm] <;>
            (try split_ifs) <;> (try simp_all)

/-! ## The mirror image -/

@[simp]
theorem mirror_mirror (s : Heap N K) : mirror (mirror s) = s := rfl

@[simp]
theorem mirror_node (s : Heap N K) (k : N) :
    (mirror s).node k =
      { prev := (s.node k).next, next := (s.node k).prev, parent := (s.node k).parent } := rfl

@[simp]
theorem mirror_list (s : Heap N K) (q : K) :
    (mirror s).list q =
      { head := (s.list q).tail, tail := (s.list q).head, count := (s.list q).count } := rfl

theorem parentHasRoom_mirror (s : Heap N K) (n : N) :
    parentHasRoom (mirror s) n = parentHasRoom s n := by
  unfold parentHasRoom
  simp only [mirror_node, mirror_list]

theorem unlink_mirror (s : Heap N K) (n : N) :
    UNLINK_NODE (mirror s) (some n) = mirror (UNLINK_NODE s (some n)) := by
  apply Heap.ext
  · funext k
    rw [UNLINK_NODE_node, mirror_node, UNLINK_NODE_node]
    unfold spliceOut
    by_cases h0 : k = n <;> simp [h0]
  · funext q
    rw [UNLINK_NODE_list, mirror_list, UNLINK_NODE_list]
    unfold unlinkList
    by_cases h0 : (s.node n).parent = some q <;> simp [h0]

theorem linkLast_mirror (t : Heap N K) (n : N) (q : K) (hne : (t.list q).tail ≠ some n) :
    linkLast t n q = mirror (linkFirst (mirror t) n q) := by
  have hne2 : ((mirror t).list q).head ≠ some n := hne
  apply Heap.ext
  · funext k
    rw [linkLast_node t n q hne, mirror_node, linkFirst_node (mirror t) n q hne2]
    unfold spliceIn
    by_cases h0 : k = n <;> simp [h0]
  · funext r
    rw [linkLast_list, mirror_list, linkFirst_list]
    by_cases h0 : r = q <;> simp [h0]

theorem linkAfter_mirror (t : Heap N K) (n p : N) (hnp : n ≠ p) :
    linkAfter t n p = mirror (linkBefore (mirror t) n p) := by
  apply Heap.ext
  · funext k
    rw [linkAfter_node_gen t n p hnp, mirror_node, linkBefore_node_gen (mirror t) n p hnp]
    by_cases h0 : k = n <;> simp [h0]
  · funext r
    rw [linkAfter_list t n p hnp, mirror_list, linkBefore_list (mirror t) n p hnp]
    unfold afterList beforeList
    by_cases h0 : (t.node p).parent = some r <;> simp [h0]

theorem LINK_NODE_LAST_mirror (s : Heap N K) (n : Option N) (q : Option K) :
    LINK_NODE_LAST s n q = mirror (LINK_NODE_FIRST (mirror s) n q) := by
  rcases n with _ | n
  · rfl
  rcases q with _ | q
  · rfl
  by_cases hg : some n ≠ (s.list q).tail ∧ (s.list q).count ≠ SIZE_MAX
  · have hg2 : some n ≠ ((mirror s).list q).head ∧ ((mirror s).list q).count ≠ SIZE_MAX := hg
    rw [LINK_NODE_LAST_pos s n q hg, LINK_NODE_FIRST_pos (mirror s) n q hg2, unlink_mirror]
    apply linkLast_mirror
    rw [unlink_tail_of_ne s n q (fun e => hg.1 e.symm)]
    exact fun e => hg.1 e.symm
  · have hg2 : ¬ (some n ≠ ((mirror s).list q).head ∧ ((mirror s).list q).count ≠ SIZE_MAX) :=
      hg
    rw [LINK_NODE_LAST_neg s n q hg, LINK_NODE_FIRST_neg (mirror s) n q hg2, mirror_mirror]

theorem LINK_NODE_AFTER_mirror (s : Heap N K) (n p : Option N) :
    LINK_NODE_AFTER s n p = mirror (LINK_NODE_BEFORE (mirror s) n p) := by
  rcases n with _ | n
  · rfl
  rcases p with _ | p
  · rfl
  by_cases hg : n ≠ p ∧ parentHasRoom s n = true
  · have hg2 : n ≠ p ∧ parentHasRoom (mirror s) n = true := by
      rw [parentHasRoom_mirror]; exact hg
    rw [LINK_NODE_AFTER_pos s n p hg, LINK_NODE_BEFORE_pos (mirror s) n p hg2, unlink_mirror]
    exact linkAfter_mirror _ n p hg.1
  · have hg2 : ¬ (n ≠ p ∧ parentHasRoom (mirror s) n = true) := by
      rw [parentHasRoom_mirror]; exact hg
    rw [LINK_NODE_AFTER_neg s n p hg, LINK_NODE_BEFORE_neg (mirror s) n p hg2, mirror_mirror]

theorem UNLINK_NODE_mirror (s : Heap N K) (n : Option N) :
    UNLINK_NODE (mirror s) n = mirror (UNLINK_NODE s n) := by
  rcases n with _ | n
  · rfl
  · exact unlink_mirror s n

/-! ## The frame of the macros -/

theorem unlink_node_frame (s : Heap N K) (n k : N) (h0 : k ≠ n)
    (h1 : (s.node n).prev ≠ some k) (h2 : (s.node n).next ≠ some k) :
    (UNLINK_NODE s (some n)).node k = s.node k := by
  rw [UNLINK_NODE_node]
  unfold spliceOut
  simp [h0, h1, h2]

theorem unlink_list_frame (s : Heap N K) (n : N) (r : K) (h : (s.node n).parent ≠ some r) :
    (UNLINK_NODE s (some n)).list r = s.list r := by
  rw [UNLINK_NODE_list]
  unfold unlinkList
  simp [h]

theorem unlink_prev_of_ne (s : Heap N K) (n p : N) (h : p ≠ n) :
    ((UNLINK_NODE s (some n)).node p).prev =
      if (s.node n).next = some p then (s.node n).prev else (s.node p).prev := by
  rw [UNLINK_NODE_node]
  unfold spliceOut
  simp [h]

theorem unlink_next_of_ne (s : Heap N K) (n p : N) (h : p ≠ n) :
    ((UNLINK_NODE s (some n)).node p).next =
      if (s.node n).prev = some p then (s.node n).next else (s.node p).next := by
  rw [UNLINK_NODE_node]
  unfold spliceOut
  simp [h]

theorem run_node_frame (s : Heap N K) (op : Op N K) (k : N) (h : ¬ op.touchesNode s k) :
    (op.run s).node k = s.node k := by
  rcases op with n | ⟨n, q⟩ | ⟨n, q⟩ | ⟨n, p⟩ | ⟨n, p⟩
  · rcases n with _ | n
    · rfl
    · simp only [Op.touchesNode, not_or] at h
      exact unlink_node_frame s n k h.1 h.2.1 h.2.2
  · rcases n with _ | n
    · rfl
    rcases q with _ | q
    · rfl
    simp only [Op.touchesNode, not_or] at h
    obtain ⟨h0, h1, h2, h3⟩ := h
    show (LINK_NODE_FIRST s (some n) (some q)).node k = s.node k
    by_cases hg : some n ≠ (s.list q).head ∧ (s.list q).count ≠ SIZE_MAX
    · have hh := unlink_head_of_ne s n q (fun e => hg.1 e.symm)
      rw [LINK_NODE_FIRST_pos s n q hg, linkFirst_node _ n q (by rw [hh]; exact fun e => hg.1 e.symm)]
      unfold spliceIn
      rw [hh]
      apply NodeMembers.ext <;> simp [h0, h3, unlink_node_frame s n k h0 h1 h2]
    · rw [LINK_NODE_FIRST_neg s n q hg]
  · rcases n with _ | n
    · rfl
    rcases q with _ | q
    · rfl
    simp only [Op.touchesNode, not_or] at h
    obtain ⟨h0, h1, h2, h3⟩ := h
    show (LINK_NODE_LAST s (some n) (some q)).node k = s.node k
    by_cases hg : some n ≠ (s.list q).tail ∧ (s.list q).count ≠ SIZE_MAX
    · have hh := unlink_tail_of_ne s n q (fun e => hg.1 e.symm)
      rw [LINK_NODE_LAST_pos s n q hg, linkLast_node _ n q (by rw [hh]; exact fun e => hg.1 e.symm)]
      unfold spliceIn
      rw [hh]
      apply NodeMembers.ext <;> simp [h0, h3, unlink_node_frame s n k h0 h1 h2]
    · rw [LINK_NODE_LAST_neg s n q hg]
  · rcases n with _ | n
    · rfl
    rcases p with _ | p
    · rfl
    simp only [Op.touchesNode, not_or] at h
    obtain ⟨h0, h1, h2, h3, h4⟩ := h
    show (LINK_NODE_BEFORE s (some n) (some p)).node k = s.node k
    by_cases hg : n ≠ p ∧ parentHasRoom s n = true
    · have hpn : p ≠ n := fun e => hg.1 e.symm
      have hx : ((UNLINK_NODE s (some n)).node p).prev ≠ some k := by
        rw [unlink_prev_of_ne s n p hpn]
        split_ifs
        · exact h1
        · exact h4
      rw [LINK_NODE_BEFORE_pos s n p hg, linkBefore_node_gen _ n p hg.1]
      apply NodeMembers.ext <;> simp [h0, h3, hx, unlink_node_frame s n k h0 h1 h2]
    · rw [LINK_NODE_BEFORE_neg s n p hg]
  · rcases n with _ | n
    · rfl
    rcases p with _ | p
    · rfl
    simp only [Op.touchesNode, not_or] at h
    obtain ⟨h0, h1, h2, h3, h4⟩ := h
    show (LINK_NODE_AFTER s (some n) (some p)).node k = s.node k
    by_cases hg : n ≠ p ∧ parentHasRoom s n = true
    · have hpn : p ≠ n := fun e => hg.1 e.symm
      have hx : ((UNLINK_NODE s (some n)).node p).next ≠ some k := by
        rw [unlink_next_of_ne s n p hpn]
        split_ifs
        · exact h2
        · exact h4
      rw [LINK_NODE_AFTER_pos s n p hg, linkAfter_node_gen _ n p hg.1]
      apply NodeMembers.ext <;> simp [h0, h3, hx, unlink_node_frame s n k h0 h1 h2]
    · rw [LINK_NODE_AFTER_neg s n p hg]

theorem run_list_frame (s : Heap N K) (op : Op N K) (r : K) (h : ¬ op.touchesList s r) :
    (op.run s).list r = s.list r := by
  rcases op with n | ⟨n, q⟩ | ⟨n, q⟩ | ⟨n, p⟩ | ⟨n, p⟩
  · rcases n with _ | n
    · rfl
    · simp only [Op.touchesList] at h
      exact unlink_list_frame s n r h
  · rcases n with _ | n
    · rfl
    rcases q with _ | q
    · rfl
    simp only [Op.touchesList, not_or] at h
    show (LINK_NODE_FIRST s (some n) (some q)).list r = s.list r
    by_cases hg : some n ≠ (s.list q).head ∧ (s.list q).count ≠ SIZE_MAX
    · rw [LINK_NODE_FIRST_pos s n q hg, linkFirst_list, if_neg h.2]
      exact unlink_list_frame s n r h.1
    · rw [LINK_NODE_FIRST_neg s n q hg]
  · rcases n with _ | n
    · rfl
    rcases q with _ | q
    · rfl
    simp only [Op.touchesList, not_or] at h
    show (LINK_NODE_LAST s (some n) (some q)).list r = s.list r
    by_cases hg : some n ≠ (s.list q).tail ∧ (s.list q).count ≠ SIZE_MAX
    · rw [LINK_NODE_LAST_pos s n q hg, linkLast_list, if_neg h.2]
      exact unlink_list_frame s n r h.1
    · rw [LINK_NODE_LAST_neg s n q hg]
  · rcases n with _ | n
    · rfl
    rcases p with _ | p
    · rfl
    simp only [Op.touchesList, not_or] at h
    show (LINK_NODE_BEFORE s (some n) (some p)).list r = s.list r
    by_cases hg : n ≠ p ∧ parentHasRoom s n = true
    · have hpn : p ≠ n := fun e => hg.1 e.symm
      rw [LINK_NODE_BEFORE_pos s n p hg, linkBefore_list _ n p hg.1]
      unfold beforeList
      rw [unlink_parent_ne s n p hpn, if_neg h.2]
      exact unlink_list_frame s n r h.1
    · rw [LINK_NODE_BEFORE_neg s n p hg]
  · rcases n with _ | n
    · rfl
    rcases p with _ | p
    · rfl
    simp only [Op.touchesList, not_or] at h
    show (LINK_NODE_AFTER s (some n) (some p)).list r = s.list r
    by_cases hg : n ≠ p ∧ parentHasRoom s n = true
    · have hpn : p ≠ n := fun e => hg.1 e.symm
      rw [LINK_NODE_AFTER_pos s n p hg, linkAfter_list _ n p hg.1]
      unfold afterList
      rw [unlink_parent_ne s n p hpn, if_neg h.2]
      exact unlink_list_frame s n r h.1
    · rw [LINK_NODE_AFTER_neg s n p hg]

/-! ## Insert followed by unlink -/

theorem decr_incr (c : Nat) (h : c ≤ SIZE_MAX) : decr (incr c) = c := by
  rcases Nat.lt_or_ge c SIZE_MAX with h1 | h1
  · rw [incr_of_lt c h1, decr_of_pos (c + 1) (by omega) (by omega)]
    omega
  · have e : c = SIZE_MAX := by omega
    subst e
    unfold decr incr SIZE_MAX
    norm_num

/-- Taking `n` out again right after it was put between `m` and `c` restores the links,
when `m` and `c` were linked to each other before. -/
theorem spliceOut_spliceIn (node : N → NodeMembers N K) (n : N) (m c : Option N)
    (par : Option K) (hiso : node n = { prev := none, next := none, parent := none })
    (hm : ∀ a, m = some a → a ≠ n ∧ (node a).next = c)
    (hc : ∀ b, c = some b → b ≠ n ∧ (node b).prev = m) :
    spliceOut (spliceIn node n m c par) n = node := by
  funext k
  unfold spliceOut spliceIn
  by_cases h0 : k = n
  · subst h0
    simp [hiso]
  · simp only [h0, if_false, if_true]
    apply NodeMembers.ext
    · by_cases h1 : c = some k
      · simp [h1, (hc k h1).2]
      · simp [h1]
    · by_cases h1 : m = some k
      · simp [h1, (hm k h1).2]
      · simp [h1]
    · rfl

theorem Isolated.node_eq {s : Heap N K} {n : N} (h : Isolated s n) :
    s.node n = { prev := none, next := none, parent := none } :=
  NodeMembers.ext h.2.1 h.2.2 h.1

theorem ListOK.head_prev {s : Heap N K} {q : K} {l : List N} (h : ListOK s q l) (b : N)
    (hb : (s.list q).head = some b) : (s.node b).prev = none := by
  have h1 := h.1
  cases l with
  | nil =>
    unfold Seg at h1
    rw [h1.1] at hb
    exact absurd hb (by simp)
  | cons a l =>
    unfold Seg at h1
    rw [h1.1] at hb
    exact Option.some.inj hb ▸ h1.2.1

theorem ListOK.tail_next {s : Heap N K} {q : K} {l : List N} (h : ListOK s q l) (b : N)
    (hb : (s.list q).tail = some b) : (s.node b).next = none := by
  rcases Seg.last_cases l _ _ _ _ h.1 with ⟨-, e2⟩ | ⟨hl, -⟩
  · rw [e2] at hb; exact absurd hb (by simp)
  · exact Seg.next_last l _ _ _ _ h.1 hl b hb

theorem first_then_unlink {s : Heap N K} (hwf : WellFormed s) (n : N) (q : K)
    (hn : Isolated s n) :
    UNLINK_NODE (LINK_NODE_FIRST s (some n) (some q)) (some n) = s := by
  obtain ⟨l, hl⟩ := (wellFormed_iff s).mp hwf q
  have hh : (s.list q).head ≠ some n := hl.head_ne n (hn.not_owned q)
  have ht : (s.list q).tail ≠ some n := hl.tail_ne n (hn.not_owned q)
  by_cases hg : some n ≠ (s.list q).head ∧ (s.list q).count ≠ SIZE_MAX
  · rw [LINK_NODE_FIRST_pos s n q hg, unlink_of_isolated hn]
    have hnode := linkFirst_node s n q hh
    apply Heap.ext
    · rw [UNLINK_NODE_node, hnode]
      apply spliceOut_spliceIn _ _ _ _ _ hn.node_eq
      · intro a ha; exact absurd ha (by simp)
      · intro b hb
        exact ⟨fun e => hh (e ▸ hb), hl.head_prev b hb⟩
    · rw [UNLINK_NODE_list]
      funext r
      unfold unlinkList
      rw [hnode, spliceIn_self]
      simp only [linkFirst_list]
      by_cases hr : r = q
      · subst hr
        have hcount := decr_incr _ (hwf.count_le r)
        by_cases htn : (s.list r).tail = none
        · apply ListMembers.ext <;> simp [htn, hcount]
        · apply ListMembers.ext <;> simp [htn, ht, hcount]
      · have hr2 : ¬ q = r := fun e => hr e.symm
        simp [hr, hr2]
  · rw [LINK_NODE_FIRST_neg s n q hg]
    exact unlink_of_isolated hn

theorem last_then_unlink {s : Heap N K} (hwf : WellFormed s) (n : N) (q : K)
    (hn : Isolated s n) :
    UNLINK_NODE (LINK_NODE_LAST s (some n) (some q)) (some n) = s := by
  obtain ⟨l, hl⟩ := (wellFormed_iff s).mp hwf q
  have hh : (s.list q).head ≠ some n := hl.head_ne n (hn.not_owned q)
  have ht : (s.list q).tail ≠ some n := hl.tail_ne n (hn.not_owned q)
  by_cases hg : some n ≠ (s.list q).tail ∧ (s.list q).count ≠ SIZE_MAX
  · rw [LINK_NODE_LAST_pos s n q hg, unlink_of_isolated hn]
    have hnode := linkLast_node s n q ht
    apply Heap.ext
    · rw [UNLINK_NODE_node, hnode]
      apply spliceOut_spliceIn _ _ _ _ _ hn.node_eq
      · intro b hb
        exact ⟨fun e => ht (e ▸ hb), hl.tail_next b hb⟩
      · intro a ha; exact absurd ha (by simp)
    · rw [UNLINK_NODE_list]
      funext r
      unfold unlinkList
      rw [hnode, spliceIn_self]
      simp only [linkLast_list]
      by_cases hr : r = q
      · subst hr
        have hcount := decr_incr _ (hwf.count_le r)
        by_cases htn : (s.list r).head = none
        · apply ListMembers.ext <;> simp [htn, hcount]
        · apply ListMembers.ext <;> simp [htn, hh, hcount]
      · have hr2 : ¬ q = r := fun e => hr e.symm
        simp [hr, hr2]
  · rw [LINK_NODE_LAST_neg s n q hg]
    exact unlink_of_isolated hn

theorem before_then_unlink {s : Heap N K} (hwf : WellFormed s) (hsym : LinkSym s) (n p : N)
    (hn : Isolated s n) (hpn : p ≠ n) :
    UNLINK_NODE (LINK_NODE_BEFORE s (some n) (some p)) (some n) = s := by
  have hnp : n ≠ p := fun e => hpn e.symm
  have hg : n ≠ p ∧ parentHasRoom s n = true := ⟨hnp, parentHasRoom_true (Or.inl hn.1)⟩
  have hx : (s.node p).prev ≠ some n := by
    intro e
    have := hsym.prev_next e
    rw [hn.2.2] at this
    exact absurd this (by simp)
  rw [LINK_NODE_BEFORE_pos s n p hg, unlink_of_isolated hn]
  have hnode := linkBefore_node s n p hnp hx
  apply Heap.ext
  · rw [UNLINK_NODE_node, hnode]
    apply spliceOut_spliceIn _ _ _ _ _ hn.node_eq
    · intro a ha
      exact ⟨fun e => hx (e ▸ ha), hsym.prev_next ha⟩
    · intro b hb
      have e : p = b := Option.some.inj hb
      subst e
      exact ⟨hpn, rfl⟩
  · rw [UNLINK_NODE_list]
    funext r
    unfold unlinkList
    rw [hnode, spliceIn_self]
    simp only [linkBefore_list s n p hnp]
    unfold beforeList
    by_cases hr : (s.node p).parent = some r
    · obtain ⟨l, hl⟩ := (wellFormed_iff s).mp hwf r
      have hh : (s.list r).head ≠ some n := hl.head_ne n (hn.not_owned r)
      have ht : (s.list r).tail ≠ some n := hl.tail_ne n (hn.not_owned r)
      have hcount := decr_incr _ (hwf.count_le r)
      by_cases hhp : (s.list r).head = some p
      · apply ListMembers.ext <;> simp [hr, hhp, ht, hcount]
      · apply ListMembers.ext <;> simp [hr, hhp, hh, ht, hcount]
    · simp [hr]

theorem after_then_unlink {s : Heap N K} (hwf : WellFormed s) (hsym : LinkSym s) (n p : N)
    (hn : Isolated s n) (hpn : p ≠ n) :
    UNLINK_NODE (LINK_NODE_AFTER s (some n) (some p)) (some n) = s := by
  have hnp : n ≠ p := fun e => hpn e.symm
  have hg : n ≠ p ∧ parentHasRoom s n = true := ⟨hnp, parentHasRoom_true (Or.inl hn.1)⟩
  have hx : (s.node p).next ≠ some n := by
    intro e
    have := hsym.next_prev e
    rw [hn.2.1] at this
    exact absurd this (by simp)
  rw [LINK_NODE_AFTER_pos s n p hg, unlink_of_isolated hn]
  have hnode := linkAfter_node s n p hnp hx
  apply Heap.ext
  · rw [UNLINK_NODE_node, hnode]
    apply spliceOut_spliceIn _ _ _ _ _ hn.node_eq
    · intro b hb
      have e : p = b := Option.some.inj hb
      subst e
      exact ⟨hpn, rfl⟩
    · intro a ha
      exact ⟨fun e => hx (e ▸ ha), hsym.next_prev ha⟩
  · rw [UNLINK_NODE_list]
    funext r
    unfold unlinkList
    rw [hnode, spliceIn_self]
    simp only [linkAfter_list s n p hnp]
    unfold afterList
    by_cases hr : (s.node p).parent = some r
    · obtain ⟨l, hl⟩ := (wellFormed_iff s).mp hwf r
      have hh : (s.list r).head ≠ some n := hl.head_ne n (hn.not_owned r)
      have ht : (s.list r).tail ≠ some n := hl.tail_ne n (hn.not_owned r)
      have hcount := decr_incr _ (hwf.count_le r)
      by_cases hhp : (s.list r).tail = some p
      · apply ListMembers.ext <;> simp [hr, hhp, hh, hcount]
      · apply ListMembers.ext <;> simp [hr, hhp, hh, ht, hcount]
    · simp [hr]

/-! ## The teardown loop -/

theorem ListOK.cons_fields {s : Heap N K} {q : K} {a : N} {l : List N}
    (h : ListOK s q (a :: l)) :
    (s.list q).head = some a ∧ (s.node a).prev = none ∧ (s.node a).parent = some q := by
  have h1 := h.1
  unfold Seg at h1
  exact ⟨h1.1, h1.2.1, h1.2.2.1⟩

theorem unlink_head_listOK {s : Heap N K} (hwf : WellFormed s) {q : K} {a : N} {l : List N}
    (h : ListOK s q (a :: l)) :
    WellFormed (UNLINK_NODE s (some a)) ∧ ListOK (UNLINK_NODE s (some a)) q l ∧
      ((UNLINK_NODE s (some a)).list q).head = (s.node a).next := by
  obtain ⟨hh, hp, hq⟩ := h.cons_fields
  have hfn : FreeNeighbours s a := freeNeighbours_of_or (Or.inr (by rw [hq]; simp))
  refine ⟨unlink_wellFormed hwf a hfn, ?_, ?_⟩
  · have := unlink_listOK hwf a hfn h
    rwa [List.erase_cons_head] at this
  · rw [UNLINK_NODE_list]
    unfold unlinkList
    simp [hq, hh]

/-- The memories between the rounds of the teardown loop: after the first `i` nodes of the
list `l` have been unlinked the list holds the remaining nodes, the unlinked nodes are
isolated, and nodes outside the list and other lists are as before. -/
theorem teardown_rounds (q : K) : ∀ (l : List N) (s : Heap N K), WellFormed s → ListOK s q l →
    ∀ i, WellFormed ((l.take i).foldl (fun u a => UNLINK_NODE u (some a)) s) ∧
      ListOK ((l.take i).foldl (fun u a => UNLINK_NODE u (some a)) s) q (l.drop i) ∧
      (∀ k, k ∉ l → ((l.take i).foldl (fun u a => UNLINK_NODE u (some a)) s).node k = s.node k) ∧
      (∀ k ∈ l.take i, Isolated ((l.take i).foldl (fun u a => UNLINK_NODE u (some a)) s) k) ∧
      (∀ r, r ≠ q →
        ((l.take i).foldl (fun u a => UNLINK_NODE u (some a)) s).list r = s.list r) := by
  intro l
  induction l with
  | nil =>
    intro s hwf hl i
    simp only [List.take_nil, List.drop_nil, List.foldl_nil]
    exact ⟨hwf, hl, fun _ _ => trivial, fun k hk => absurd hk (List.not_mem_nil k),
      fun _ _ => trivial⟩
  | cons a l ih =>
    intro s hwf hl i
    rcases i with _ | j
    · simp only [List.take_zero, List.drop_zero, List.foldl_nil]
      exact ⟨hwf, hl, fun _ _ => trivial, fun k hk => absurd hk (List.not_mem_nil k),
        fun _ _ => trivial⟩
    · obtain ⟨hh, hp, hq⟩ := hl.cons_fields
      obtain ⟨hwf1, hl1, -⟩ := unlink_head_listOK hwf hl
      obtain ⟨g1, g2, g3, g4, g5⟩ := ih (UNLINK_NODE s (some a)) hwf1 hl1 j
      have hnd := hl.nodup
      have hal : a ∉ l := (List.nodup_cons.mp hnd).1
      simp only [List.take_succ_cons, List.drop_succ_cons, List.foldl_cons]
      refine ⟨g1, g2, ?_, ?_, ?_⟩
      · intro k hk
        have hka : k ≠ a := fun e => hk (e ▸ List.mem_cons_self a l)
        have hkl : k ∉ l := fun e => hk (List.mem_cons_of_mem a e)
        rw [g3 k hkl]
        apply unlink_node_frame s a k hka
        · rw [hp]; simp
        · intro e
          exact hk (hl.2.2.2 k (hl.next_owner a k hq e))
      · intro k hk
        rcases List.mem_cons.mp hk with e | e
        · subst e
          have hi := unlink_isolated s k
          unfold Isolated at hi ⊢
          rw [g3 k hal]
          exact hi
        · exact g4 k e
      · intro r hr
        rw [g5 r hr]
        apply unlink_list_frame
        rw [hq]
        exact fun e => hr (Option.some.inj e).symm

/-- The teardown loop on a consistent list runs once for every node and unlinks them in the
order of the list. -/
theorem teardown_loop_run (q : K) : ∀ (l : List N) (s : Heap N K) (fuel : Nat),
    WellFormed s → ListOK s q l → l.length < fuel →
    teardown_loop fuel s (s.list q).head =
      some (l.foldl (fun u a => UNLINK_NODE u (some a)) s, l.length) := by
  intro l
  induction l with
  | nil =>
    intro s fuel hwf hl hf
    obtain ⟨f, rfl⟩ : ∃ f, fuel = f + 1 := ⟨fuel - 1, by simp at hf; omega⟩
    rw [hl.head_none_iff.mpr rfl]
    rfl
  | cons a l ih =>
    intro s fuel hwf hl hf
    obtain ⟨f, rfl⟩ : ∃ f, fuel = f + 1 := ⟨fuel - 1, by omega⟩
    obtain ⟨hh, hp, hq⟩ := hl.cons_fields
    obtain ⟨hwf1, hl1, hh1⟩ := unlink_head_listOK hwf hl
    have key := ih (UNLINK_NODE s (some a)) f hwf1 hl1 (by simp at hf; omega)
    rw [hh1] at key
    rw [hh]
    unfold teardown_loop
    simp only [key, List.foldl_cons, List.length_cons]

/-! ## The checker on chains that are too long -/

section claims_d

/-- Claim C21, proved as stated and for every memory, well formed or not: with `mirror` the
transformation that swaps `prev` with `next` in every node and `head` with `tail` in
every list, LINK_NODE_LAST(n, L) is `mirror` after LINK_NODE_FIRST(n, L) after `mirror`,
LINK_NODE_AFTER(n, p) is `mirror` after LINK_NODE_BEFORE(n, p) after `mirror`, and
UNLINK_NODE commutes with `mirror`. Null arguments are included. -/
theorem C21_mirror_symmetry (s : Heap N K) (n p : Option N) (q : Option K) :
    LINK_NODE_LAST s n q = mirror (LINK_NODE_FIRST (mirror s) n q) ∧
    LINK_NODE_AFTER s n p = mirror (LINK_NODE_BEFORE (mirror s) n p) ∧
    UNLINK_NODE (mirror s) n = mirror (UNLINK_NODE s n) :=
  ⟨LINK_NODE_LAST_mirror s n q, LINK_NODE_AFTER_mirror s n p, UNLINK_NODE_mirror s n⟩

/-- Claim C23 fails as stated: `stalePrev` is well formed (no list has a node), node `0` is
isolated and node `1` is another node, without parent, whose `prev` still points to node
`2`. LINK_NODE_BEFORE(0, 1) followed by UNLINK_NODE(0) leaves node `2` with `next` equal
to node `1`, while it was NULL before. -/
theorem C23_counterexample :
    WellFormed stalePrev ∧ Isolated stalePrev 0 ∧ (1 : Fin 3) ≠ 0 ∧
      (stalePrev.node 2).next = none ∧
      ((UNLINK_NODE (LINK_NODE_BEFORE stalePrev (some 0) (some 1)) (some 0)).node 2).next =
        some 1 := by
  decide

/-- Claim C23, amended: in a well-formed memory, for an isolated node n and every list L,
LINK_NODE_FIRST(n, L) and LINK_NODE_LAST(n, L) followed by UNLINK_NODE(n) give back the
memory exactly, whether the insert was performed or refused; when moreover all links are
mutual (a->next == b exactly when b->prev == a, with equal parents), the same holds for
LINK_NODE_BEFORE(n, p) and LINK_NODE_AFTER(n, p) with every node p other than n. -/
theorem C23_insert_then_unlink (s : Heap N K) (hwf : WellFormed s) (n : N)
    (hn : Isolated s n) (q : K) (p : N) (hpn : p ≠ n) :
    UNLINK_NODE (LINK_NODE_FIRST s (some n) (some q)) (some n) = s ∧
    UNLINK_NODE (LINK_NODE_LAST s (some n) (some q)) (some n) = s ∧
    (LinkSym s →
      UNLINK_NODE (LINK_NODE_BEFORE s (some n) (some p)) (some n) = s ∧
      UNLINK_NODE (LINK_NODE_AFTER s (some n) (some p)) (some n) = s) :=
  ⟨first_then_unlink hwf n q hn, last_then_unlink hwf n q hn,
    fun hsym => ⟨before_then_unlink hwf hsym n p hn hpn, after_then_unlink hwf hsym n p hn hpn⟩⟩

/-- C23 on the list a, b, c and the fresh node `3`: putting node `3` in front of b makes it
a member of list `0`, and unlinking it again gives back the memory; the same for the other
three macros. -/
theorem C23_insert_then_unlink_witness :
    WellFormed abc ∧ LinkSym abc ∧ Isolated abc 3 ∧
      ((LINK_NODE_BEFORE abc (some 3) (some 1)).node 3).parent = some 0 ∧
      UNLINK_NODE (LINK_NODE_FIRST abc (some 3) (some 0)) (some 3) = abc ∧
      UNLINK_NODE (LINK_NODE_LAST abc (some 3) (some 0)) (some 3) = abc ∧
      UNLINK_NODE (LINK_NODE_BEFORE abc (some 3) (some 1)) (some 3) = abc ∧
      UNLINK_NODE (LINK_NODE_AFTER abc (some 3) (some 1)) (some 3) = abc :=
  have h := C23_insert_then_unlink abc (by decide) 3 (by decide) 0 1 (by decide)
  ⟨by decide, by decide, by decide, by decide, h.1, h.2.1, (h.2.2 (by decide)).1,
    (h.2.2 (by decide)).2⟩

/-- Claim C24, proved as stated: in a well-formed memory let `l` be the traversal of list L.
The teardown loop, which starts at L.head, saves the next of the current node, applies
UNLINK_NODE to the current node and goes on with the saved next, ends (fuel above the length
of `l` is enough), runs its body exactly once for every node of `l`, and leaves L with head
and tail NULL and count 0 and every former member isolated. Before the round number i + 1
the count is the length of `l` minus i, so no decrement starts from 0. The memory that is
left is well formed. -/
theorem C24_teardown (s : Heap N K) (hwf : WellFormed s) (q : K) (l : List N)
    (ht : Traversal s q l) (fuel : Nat) (hfuel : l.length < fuel) :
    teardown_loop fuel s (s.list q).head =
      some (l.foldl (fun u a => UNLINK_NODE u (some a)) s, l.length) ∧
    (l.foldl (fun u a => UNLINK_NODE u (some a)) s).list q =
      { head := none, tail := none, count := 0 } ∧
    (∀ k ∈ l, Isolated (l.foldl (fun u a => UNLINK_NODE u (some a)) s) k) ∧
    (∀ i, i ≤ l.length →
      (((l.take i).foldl (fun u a => UNLINK_NODE u (some a)) s).list q).count =
        l.length - i) ∧
    WellFormed (l.foldl (fun u a => UNLINK_NODE u (some a)) s) := by
  have hl := hwf.listOK ht
  have hend := teardown_rounds q l s hwf hl l.length
  rw [List.take_length, List.drop_length] at hend
  obtain ⟨g1, g2, -, g4, -⟩ := hend
  refine ⟨teardown_loop_run q l s fuel hwf hl hfuel, ?_, g4, ?_, g1⟩
  · apply ListMembers.ext
    · exact g2.head_none_iff.mpr rfl
    · exact g2.tail_none_iff.mpr rfl
    · exact g2.2.1
  · intro i _
    have h := (teardown_rounds q l s hwf hl i).2.1
    rw [h.2.1, List.length_drop]

/-- C24 on the list a, b, c: with fuel 4 the loop runs three times, list `0` is left empty
and the three nodes are isolated. -/
theorem C24_teardown_witness :
    WellFormed abc ∧ Traversal abc 0 [0, 1, 2] ∧
      (teardown_loop 4 abc (abc.list 0).head).map Prod.snd = some 3 ∧
      ([0, 1, 2].foldl (fun u a => UNLINK_NODE u (some a)) abc).list 0 =
        { head := none, tail := none, count := 0 } ∧
      (∀ k ∈ [0, 1, 2], Isolated ([0, 1, 2].foldl (fun u a => UNLINK_NODE u (some a)) abc) k) :=
  have h := C24_teardown abc (by decide) 0 [0, 1, 2] (by decide) 4 (by decide)
  ⟨by decide, by decide, by rw [h.1]; rfl, h.2.1, h.2.2.1⟩

/-- Claim C25, for every memory (well formed or not) and every macro call `op` on a node n:
a node other than n, n's former prev and next neighbours and the new neighbours of n (the
old head or tail of the destination list, or the position node and its old prev resp. next
neighbour) keeps its prev, next and parent; a list other than n's former list and the
destination list keeps its head, tail and count; and the caller's own fields of every node
and of every list are unchanged. -/
theorem C25_frame (P Q : Type) (s : Heap N K) (op : Op N K) :
    (∀ k, ¬ op.touchesNode s k → (op.run s).node k = s.node k) ∧
    (∀ r, ¬ op.touchesList s r → (op.run s).list r = s.list r) ∧
    (∀ m : Memory N K P Q, (m.run op).links = op.run m.links ∧
      (m.run op).node_payload = m.node_payload ∧ (m.run op).list_payload = m.list_payload) :=
  ⟨fun k h => run_node_frame s op k h, fun r h => run_list_frame s op r h,
    fun _ => ⟨rfl, rfl, rfl⟩⟩

/-- C25 on the list a, b, c: moving the fresh node `3` in front of b leaves node c and the
empty list `1` as they were. -/
theorem C25_frame_witness :
    ¬ (Op.before (some 3) (some 1)).touchesNode abc 2 ∧
      ((Op.before (some 3) (some 1)).run abc).node 2 = abc.node 2 ∧
      ¬ (Op.before (some 3) (some 1)).touchesList abc 1 ∧
      ((Op.before (some 3) (some 1)).run abc).list 1 = abc.list 1 :=
  ⟨by simp only [Op.touchesNode]; decide,
    (C25_frame Unit Unit abc _).1 2 (by simp only [Op.touchesNode]; decide),
    by simp only [Op.touchesList]; decide,
    (C25_frame Unit Unit abc _).2.1 1 (by simp only [Op.touchesList]; decide)⟩

end claims_d

end GenericList
